import Mathlib

/-! # readStartup: the DALI / FRAM conformance scenario

A shallow embedding of `gateware/salvador/sim/dali/readStartup.cxx`.

The device under test (the CXXRTL model `cxxrtl_design::p_top`, generated into
`dali.hxx`) is a black box: a state type, a `step` function that reads the
current values of the four input signals, and four 1-bit output signals that
are functions of the state.  The harness lambdas of `main` become functions
in a state + event-log + exception monad: the state is the model together
with the harness-driven input signals and the `timestamp` local, the log
records every signal write, `step()`, VCD sample, VCD flush, signal read and
`throw` in program order, and a `throw cxxrtlAssertion_t{}` ends the run with
the state at the throw.
-/

namespace ReadStartup

/-! ## Data model -/

/-- Input signals of the model that the harness writes. -/
inductive InSig where
  | clk
  | rst
  | daliRX
  | framCIPO
  deriving DecidableEq

/-- Output signals of the model that the harness reads. -/
inductive OutSig where
  | daliTX
  | framCS
  | framClk
  | framCOPI
  deriving DecidableEq

/-- Modelled from the spec: the generated model class `cxxrtl_design::p_top`
(`dali.hxx`) is not part of the sources.  Its ports are 1-bit signals; `step`
is `dut.step()` and sees the current input values `clk rst daliRX framCIPO`;
`init` is the state of a freshly constructed model. -/
structure Dut (σ : Type) where
  init : σ
  step : Bool → Bool → Bool → Bool → σ → σ
  daliTX : σ → Bool
  framCS : σ → Bool
  framClk : σ → Bool
  framCOPI : σ → Bool

/-- Current value of an output signal. -/
def Dut.read (D : Dut σ) : OutSig → σ → Bool
  | .daliTX => D.daliTX
  | .framCS => D.framCS
  | .framClk => D.framClk
  | .framCOPI => D.framCOPI

/-- The mutable state `main` closes over: the model, the values last written
to its inputs, and the `uint64_t timestamp`. -/
structure Sim (σ : Type) where
  dut : σ
  clk : Bool
  rst : Bool
  daliRX : Bool
  framCIPO : Bool
  timestamp : Nat

/-- Write an input signal. -/
def Sim.write (s : Sim σ) : InSig → Bool → Sim σ
  | .clk, v => { s with clk := v }
  | .rst, v => { s with rst := v }
  | .daliRX, v => { s with daliRX := v }
  | .framCIPO, v => { s with framCIPO := v }

/-- What the harness does, in program order. -/
inductive Event where
  | set (sig : InSig) (v : Bool)
  | step
  | sample (t : Nat)
  | flush
  | get (sig : OutSig) (v : Bool)
  | raise
  deriving DecidableEq

/-- Outcome of running a piece of the harness: normal completion with a value,
or an uncaught `cxxrtlAssertion_t`; both with the state reached and the events
performed. -/
inductive Run (σ α : Type) where
  | ok (val : α) (s : Sim σ) (log : List Event)
  | fault (s : Sim σ) (log : List Event)

/-- Events of a run. -/
def Run.events : Run σ α → List Event
  | .ok _ _ l => l
  | .fault _ l => l

/-- State a run ends in. -/
def Run.final : Run σ α → Sim σ
  | .ok _ s _ => s
  | .fault s _ => s

/-- Whether the run completed without a throw. -/
def Run.isOk : Run σ α → Bool
  | .ok _ _ _ => true
  | .fault _ _ => false

/-- Events that happened before the run are put in front. -/
def Run.prepend (l : List Event) : Run σ α → Run σ α
  | .ok a s l2 => .ok a s (l ++ l2)
  | .fault s l2 => .fault s (l ++ l2)

/-- A harness action. -/
def Harness (σ α : Type) : Type := Sim σ → Run σ α

/-- Sequencing: a fault skips everything that follows. -/
def Run.andThen (r : Run σ α) (f : α → Harness σ β) : Run σ β :=
  match r with
  | .ok a s l => (f a s).prepend l
  | .fault s l => .fault s l

instance : Monad (Harness σ) where
  pure a := fun s => .ok a s []
  bind x f := fun s => (x s).andThen f

/-! ## Primitive operations -/

/-- The `signal.set(value)` call on an input. -/
def setSig (sig : InSig) (v : Bool) : Harness σ Unit :=
  fun s => .ok () (s.write sig v) [.set sig v]

/-- The `signal.set(value)` call with an unsigned argument on a 1-bit input:
the low bit is stored. -/
def setSigU32 (sig : InSig) (v : Nat) : Harness σ Unit :=
  setSig sig (decide (v % 2 = 1))

/-- The `dut.step()` call. -/
def dutStep (D : Dut σ) : Harness σ Unit :=
  fun s => .ok () { s with dut := D.step s.clk s.rst s.daliRX s.framCIPO s.dut } [.step]

/-- The `vcd.sample(timestamp)` call. -/
def vcdSample : Harness σ Unit :=
  fun s => .ok () s [.sample s.timestamp]

/-- The statement `timestamp += 500` on a `uint64_t`. -/
def advanceTimestamp : Harness σ Unit :=
  fun s => .ok () { s with timestamp := (s.timestamp + 500) % 2 ^ 64 } []

/-- The `writeVCD` lambda: flush the trace buffer. -/
def writeVCD : Harness σ Unit :=
  fun s => .ok () s [.flush]

/-- The `signal.get<bool>()` call on an output. -/
def getSig (D : Dut σ) (sig : OutSig) : Harness σ Bool :=
  fun s => .ok (D.read sig s.dut) s [.get sig (D.read sig s.dut)]

/-- The `signal.get<uint32_t>()` call on a 1-bit output. -/
def getSigU32 (D : Dut σ) (sig : OutSig) : Harness σ Nat :=
  fun s => .ok (D.read sig s.dut).toNat s [.get sig (D.read sig s.dut)]

/-- The statement `throw cxxrtlAssertion_t{}`. -/
def throwAssertion : Harness σ α :=
  fun s => .fault s [.raise]

/-- The statement `if (c) throw cxxrtlAssertion_t{};`. -/
def throwIf (c : Bool) : Harness σ Unit :=
  if c then throwAssertion else pure ()

/-- The template `cxxrtlAssert(signal, value)` at `V = bool`. -/
def cxxrtlAssert (D : Dut σ) (sig : OutSig) (value : Bool) : Harness σ Unit := do
  let result ← getSig D sig
  throwIf (result != value)

/-- The template `cxxrtlAssert(signal, value)` at `V = unsigned`. -/
def cxxrtlAssertU32 (D : Dut σ) (sig : OutSig) (value : Nat) : Harness σ Unit := do
  let result ← getSigU32 D sig
  throwIf (result != value)

/-- Loop `for (const auto i : indexSequence_t{n})` with the locals the body
updates threaded through: `loopFrom body n i acc` runs `body` at
`i, i + 1, ..., i + n - 1`. -/
def loopFrom (body : Nat → α → Harness σ α) : Nat → Nat → α → Harness σ α
  | 0, _, acc => pure acc
  | n + 1, i, acc => do
    let acc1 ← body i acc
    loopFrom body n (i + 1) acc1

/-- The range `indexSequence_t{n}`, from 0. -/
def indexSequence (n : Nat) (body : Nat → α → Harness σ α) (acc : α) : Harness σ α :=
  loopFrom body n 0 acc

/-! ## The harness -/

/-- The literal `1_MHz`. -/
def MHz (value : Nat) : Nat := value * 1000 * 1000

def clkFrequency : Nat := MHz 1

def bitRate : Nat := 2400

/-- The `cycleClock` lambda. -/
def cycleClock (D : Dut σ) : Harness σ Unit := do
  setSig .clk false
  dutStep D
  vcdSample
  advanceTimestamp
  setSig .clk true
  dutStep D
  vcdSample
  advanceTimestamp
  writeVCD

/-- The `waitBitTime` lambda. -/
def waitBitTime (D : Dut σ) : Harness σ Unit :=
  indexSequence (clkFrequency / bitRate) (fun _ _ => cycleClock D) ()

/-- The `sendCommand` lambda; `command` is a `uint16_t`. -/
def sendCommand (D : Dut σ) (command : Nat) : Harness σ Unit := do
  -- Generate start bit
  setSig .daliRX false
  waitBitTime D
  setSig .daliRX true
  waitBitTime D
  -- Send command bits
  indexSequence 16 (fun i _ => do
    let bit := (command >>> (15 - i)) &&& 1
    setSigU32 .daliRX bit
    waitBitTime D
    setSigU32 .daliRX (bit ^^^ 1)
    waitBitTime D) ()
  -- Stop bits
  setSig .daliRX true
  waitBitTime D
  waitBitTime D
  waitBitTime D
  waitBitTime D

/-- The `recvResponse` lambda; `result` is a `uint32_t`, the value returned a
`uint8_t`. -/
def recvResponse (D : Dut σ) : Harness σ Nat := do
  -- Wait for processing
  cycleClock D
  cycleClock D
  cycleClock D
  -- Check the DUT generates the correct start bit
  cxxrtlAssert D .daliTX false
  waitBitTime D
  cxxrtlAssert D .daliTX true
  waitBitTime D
  let result ← indexSequence 8 (fun _ result => do
    let bit ← getSigU32 D .daliTX
    let result := (result <<< 1) % 2 ^ 32
    let result := result ||| bit
    waitBitTime D
    cxxrtlAssertU32 D .daliTX (bit ^^^ 1)
    waitBitTime D
    pure result) 0
  -- Stop bits
  cxxrtlAssert D .daliTX true
  waitBitTime D
  waitBitTime D
  waitBitTime D
  waitBitTime D
  pure (result % 2 ^ 8)

/-- The `readSPI` lambda. -/
def readSPI (D : Dut σ) : Harness σ Nat := do
  let result ← indexSequence 8 (fun _ result => do
    cycleClock D
    cxxrtlAssert D .framClk false
    cycleClock D
    cxxrtlAssert D .framClk true
    let result := (result <<< 1) % 2 ^ 32
    let bit ← getSigU32 D .framCOPI
    pure (result ||| bit)) 0
  pure (result % 2 ^ 8)

/-- The `writeSPI` lambda; `data` is a `uint8_t`. -/
def writeSPI (D : Dut σ) (data : Nat) : Harness σ Unit :=
  indexSequence 8 (fun bit _ => do
    cycleClock D
    cxxrtlAssert D .framClk false
    setSigU32 .framCIPO ((data >>> (7 - bit)) &&& 1)
    cycleClock D
    cxxrtlAssert D .framClk true) ()

/-- The `writeAddress` lambda; `addr` is a `uint32_t`. -/
def writeAddress (D : Dut σ) (addr : Nat) : Harness σ Unit := do
  cycleClock D
  cxxrtlAssert D .framCS true
  cycleClock D
  cycleClock D
  throwIf ((← readSPI D) != 3)
  cycleClock D
  cycleClock D
  throwIf ((← readSPI D) != (addr >>> 8) % 2 ^ 8)
  cycleClock D
  cycleClock D
  throwIf ((← readSPI D) != (addr &&& 0xFF) % 2 ^ 8)
  cycleClock D
  cycleClock D
  writeSPI D ((addr + 5) % 2 ^ 32 % 2 ^ 8)
  cycleClock D
  cxxrtlAssert D .framCS false
  cycleClock D

/-- State at entry to `main`: a freshly constructed model, all inputs zero,
`uint64_t timestamp{}`. -/
def mainStart (D : Dut σ) : Sim σ :=
  { dut := D.init, clk := false, rst := false, daliRX := false, framCIPO := false,
    timestamp := 0 }

/-- Body of `main` from the first signal write on (the trace set-up before it
touches neither the model nor the timestamp); the value is the exit status. -/
def mainBody (D : Dut σ) : Harness σ Nat := do
  setSig .clk true
  setSig .rst true
  dutStep D
  cycleClock D
  setSig .rst false
  setSig .daliRX true
  cycleClock D
  indexSequence 25 (fun i _ => writeAddress D (i % 2 ^ 32)) ()
  waitBitTime D
  -- Broadcast "Query Max Level"
  sendCommand D 0b1111111110100001
  throwIf ((← recvResponse D) != 5)
  -- Broadcast "Query Min Level"
  sendCommand D 0b1111111110100010
  throwIf ((← recvResponse D) != 6)
  -- Broadcast "Query On Level"
  sendCommand D 0b1111111110100011
  throwIf ((← recvResponse D) != 8)
  -- Broadcast "Query Failure Level"
  sendCommand D 0b1111111110100100
  throwIf ((← recvResponse D) != 7)
  -- Broadcast "Query Fade Time/Rate"
  sendCommand D 0b1111111110100101
  throwIf ((← recvResponse D) != 0x9A)
  indexSequence 16 (fun scene _ => do
    -- Broadcast "Query Scene Level N"
    sendCommand D ((0b1111111110110000 + scene) % 2 ^ 16)
    throwIf ((← recvResponse D) != 0xB + scene)) ()
  -- Broadcast "Query Group 0_7"
  sendCommand D 0b1111111111000000
  throwIf ((← recvResponse D) != 0x1B)
  -- Broadcast "Query Group 8_15"
  sendCommand D 0b1111111111000001
  throwIf ((← recvResponse D) != 0x1C)
  -- Send "Query Short Address"
  sendCommand D 0b1011101100000000
  throwIf ((← recvResponse D) != 0x1D)
  waitBitTime D
  writeVCD
  pure 0

/-- The program `main`. -/
def main (D : Dut σ) : Run σ Nat :=
  mainBody D (mainStart D)

/-! ## Closed forms used by the proofs -/

/-- Number of `cycleClock` calls in one bit time. -/
def bitTime : Nat := clkFrequency / bitRate

/-- State after one `cycleClock`. -/
def tick (D : Dut σ) (s : Sim σ) : Sim σ :=
  { s with
    dut := D.step true s.rst s.daliRX s.framCIPO (D.step false s.rst s.daliRX s.framCIPO s.dut)
    clk := true
    timestamp := ((s.timestamp + 500) % 2 ^ 64 + 500) % 2 ^ 64 }

/-- State after `n` consecutive `cycleClock` calls. -/
def ticks (D : Dut σ) (n : Nat) (s : Sim σ) : Sim σ :=
  (tick D)^[n] s

/-- The `timestamp` after `n` consecutive `cycleClock` calls. -/
def tickStamp : Nat → Nat → Nat
  | 0, t => t
  | n + 1, t => tickStamp n (((t + 500) % 2 ^ 64 + 500) % 2 ^ 64)

/-- Events of one `cycleClock` entered at timestamp `t`. -/
def cycleEvents (t : Nat) : List Event :=
  [.set .clk false, .step, .sample t, .set .clk true, .step, .sample ((t + 500) % 2 ^ 64),
    .flush]

/-- Events of `n` consecutive `cycleClock` calls entered at timestamp `t`. -/
def tickEvents : Nat → Nat → List Event
  | 0, _ => []
  | n + 1, t => cycleEvents t ++ tickEvents n (((t + 500) % 2 ^ 64 + 500) % 2 ^ 64)

/-- Number of `cycleClock` calls in a log: only `cycleClock` drives the clock
line low. -/
def cycles (l : List Event) : Nat :=
  l.count (.set .clk false)

/-- Timestamps of the recorded samples, in order. -/
def samples : List Event → List Nat
  | [] => []
  | .sample t :: l => t :: samples l
  | _ :: l => samples l

/-- Values read from the output `sig`, in order. -/
def reads (sig : OutSig) : List Event → List Bool
  | [] => []
  | .get g v :: l => if g = sig then v :: reads sig l else reads sig l
  | _ :: l => reads sig l

/-- Values written to the input `sig`, in order. -/
def writes (sig : InSig) : List Event → List Bool
  | [] => []
  | .set g v :: l => if g = sig then v :: writes sig l else writes sig l
  | _ :: l => writes sig l

/-- Value of the input `daliRX` at each `step()` of the log, `rx` being its
value before the log. -/
def rxAtSteps : Bool → List Event → List Bool
  | _, [] => []
  | _, .set .daliRX v :: l => rxAtSteps v l
  | rx, .step :: l => rx :: rxAtSteps rx l
  | rx, _ :: l => rxAtSteps rx l

/-- Value of the input `daliRX` after the log, `rx` being its value before. -/
def rxAfter : Bool → List Event → Bool
  | rx, [] => rx
  | _, .set .daliRX v :: l => rxAfter v l
  | rx, _ :: l => rxAfter rx l

/-! ## Invariants of runs -/

/-- A relation between the state before a run, its events, whether it
completed, and the state after, that is closed under sequencing. -/
structure Inv (σ : Type) where
  rel : Sim σ → List Event → Bool → Sim σ → Prop
  nil : ∀ s, rel s [] true s
  append : ∀ s l1 s1 l2 b s2, rel s l1 true s1 → rel s1 l2 b s2 → rel s (l1 ++ l2) b s2

/-- Every run of `x` is in the relation. -/
structure Sat (I : Inv σ) (x : Harness σ α) : Prop where
  run : ∀ s, I.rel s (x s).events (x s).isOk (x s).final

/-- The relation holds of the building blocks of the harness: `cycleClock`,
the writes to the inputs in `ins`, the reads of the outputs in `outs`, and the
throw. -/
structure Inv.Base (I : Inv σ) (D : Dut σ) (ins : InSig → Prop) (outs : OutSig → Prop) :
    Prop where
  cycle : Sat I (cycleClock D)
  set : ∀ sig v, ins sig → Sat I (setSig sig v : Harness σ Unit)
  get : ∀ sig, outs sig → Sat I (getSig D sig)
  getU32 : ∀ sig, outs sig → Sat I (getSigU32 D sig)
  raise : ∀ α : Type, Sat I (throwAssertion : Harness σ α)

/-- A run of `x` makes at most `n` calls of `cycleClock`, and exactly `n` when
it completes. -/
structure Costs (n : Nat) (x : Harness σ α) : Prop where
  le : ∀ s, cycles (x s).events ≤ n
  eq : ∀ s, (x s).isOk = true → cycles (x s).events = n


/-- The timestamp and the recorded samples are those of the `cycleClock` calls
made: nothing else advances the timestamp or records a sample. -/
def timeRel (s : Sim σ) (l : List Event) (_ok : Bool) (s' : Sim σ) : Prop :=
  s'.timestamp = tickStamp (cycles l) s.timestamp ∧
    samples l = samples (tickEvents (cycles l) s.timestamp)


/-! ## Concrete models used to instantiate the theorems -/

/-- A model that never reacts: every output stays low. -/
def idleDut : Dut Unit :=
  { init := (), step := fun _ _ _ _ _ => (),
    daliTX := fun _ => false, framCS := fun _ => false,
    framClk := fun _ => false, framCOPI := fun _ => false }


/-! ## Closed form of sendCommand -/

/-- Level driven for command bit `i`, counted from the most significant. -/
def commandBit (c i : Nat) : Bool :=
  decide ((c >>> (15 - i)) &&& 1 = 1)

/-- State after driving `daliRX` to `v` and waiting one bit time. -/
def hold (D : Dut σ) (v : Bool) (s : Sim σ) : Sim σ :=
  ticks D bitTime (s.write .daliRX v)

/-- State after driving each level of `vs` for one bit time. -/
def driveState (D : Dut σ) (vs : List Bool) (s : Sim σ) : Sim σ :=
  vs.foldl (fun s v => hold D v s) s

/-- Events of driving each level of `vs` for one bit time, from timestamp `t`. -/
def driveLog : List Bool → Nat → List Event
  | [], _ => []
  | v :: vs, t => (.set .daliRX v :: tickEvents bitTime t) ++ driveLog vs (tickStamp bitTime t)

/-- Levels of the command bits `i, ..., i + n - 1`, each followed by its
complement. -/
def bitPairs (c i n : Nat) : List Bool :=
  (List.range' i n).flatMap (fun k => [commandBit c k, !commandBit c k])

/-- The levels `sendCommand` writes: start low, start high, the 16 bit pairs,
stop. -/
def frameWrites (c : Nat) : List Bool :=
  [false, true] ++ bitPairs c 0 16 ++ [true]


/-! ## Closed form of recvResponse -/

/-- The output line `daliTX` at the `j`-th bit-time boundary of a
`recvResponse` entered in state `s`: three clock cycles and `j` bit times
later.  The receiver writes no input but the clock, so this is the line the
model presents whether or not the receiver is still running. -/
def txAt (D : Dut σ) (s : Sim σ) (j : Nat) : Bool :=
  D.daliTX (ticks D (3 + j * bitTime) s).dut

/-- One pass of the receive loop's `result <<= 1; result |= bit`. -/
def shiftIn (result : Nat) (bit : Bool) : Nat :=
  ((result <<< 1) % 2 ^ 32) ||| bit.toNat

/-- All eleven checks of `recvResponse` pass on the line the model presents. -/
def RecvGood (D : Dut σ) (s : Sim σ) : Prop :=
  txAt D s 0 = false ∧ txAt D s 1 = true ∧
    (∀ k, k < 8 → txAt D s (3 + 2 * k) = !txAt D s (2 + 2 * k)) ∧ txAt D s 18 = true


/-- The value the receive loop accumulates from `n` bit periods whose first
halves are the samples `tx j, tx (j + 2), ...`. -/
def decodeFrom (tx : Nat → Bool) : Nat → Nat → Nat → Nat
  | 0, _, acc => acc
  | n + 1, j, acc => decodeFrom tx n (j + 2) (shiftIn acc (tx j))


/-- A model that counts its `step()` calls and, entered by `recvResponse` when
fresh, presents on `daliTX` the levels of `levels`, one per bit-time boundary
(high once the list is exhausted); the memory-bus outputs stay low. -/
def scriptedDut (levels : List Bool) : Dut Nat :=
  { init := 0, step := fun _ _ _ _ n => n + 1,
    daliTX := fun n => levels.getD ((n - 6) / 832) true,
    framCS := fun _ => false, framClk := fun _ => false, framCOPI := fun _ => false }

/-- Line levels of a well-formed answer carrying the byte 5: start low, start
high, the bits 0000 0101 each followed by its complement, stop high. -/
def answerFive : List Bool :=
  [false, true,
    false, true, false, true, false, true, false, true,
    false, true, true, false, false, true, true, false,
    true]


/-- The answer 5 with one level corrupted: the complement half of response
bit 2 (boundary 7) is low instead of high. -/
def answerFlipped : List Bool :=
  answerFive.set 7 false

/-- The answer 5 followed by a low level at boundary 19, one bit time into the
stop period. -/
def answerThenLow : List Bool :=
  answerFive ++ [false]


/-- A run that writes no input but the clock ends in the state reached by its
`cycleClock` calls alone. -/
def quietRel (D : Dut σ) (s : Sim σ) (l : List Event) (_ok : Bool) (s' : Sim σ) : Prop :=
  s' = ticks D (cycles l) s

/-- A memory-bus model for `writeAddress(0x0102)` entered when fresh: it
counts its `step()` calls, holds chip-select high for the first 50 clock
cycles, toggles the bus clock every clock cycle, and shifts out the opcode 3
and the address bytes 1 and 2 on `framCOPI`. -/
def framDut : Dut Nat :=
  { init := 0, step := fun _ _ _ _ n => n + 1,
    daliTX := fun _ => true,
    framCS := fun n => decide (n < 100),
    framClk := fun n => decide ((n / 2) % 2 = 1),
    framCOPI := fun n =>
      [false, false, false, false, false, false, true, true, false,
        false, false, false, false, false, false, false, true, false,
        false, false, false, false, false, false, true, false].getD ((n / 2 - 5) / 2) false }


/-! ## The scenario as a script -/

/-- A check failed: the log of a completed run holds no throw, and the log of
a faulted run holds exactly one, as its last event. -/
def failFastRel (_s : Sim σ) (l : List Event) (ok : Bool) (_s' : Sim σ) : Prop :=
  (ok = true → Event.raise ∉ l) ∧
    (ok = false → ∃ pre, l = pre ++ [Event.raise] ∧ Event.raise ∉ pre)

/-- The command / expected-response pairs of the scenario, in order. -/
def script : List (Nat × Nat) :=
  [(0b1111111110100001, 5), (0b1111111110100010, 6), (0b1111111110100011, 8),
    (0b1111111110100100, 7), (0b1111111110100101, 0x9A)]
  ++ (List.range 16).map (fun scene => (0b1111111110110000 + scene, 0x0B + scene))
  ++ [(0b1111111111000000, 0x1B), (0b1111111111000001, 0x1C), (0b1011101100000000, 0x1D)]

/-- One transaction: send the command, receive the answer, compare it with the
expected byte. -/
def transact (D : Dut σ) (p : Nat × Nat) : Harness σ Unit := do
  sendCommand D p.1
  throwIf ((← recvResponse D) != p.2)

/-- Run the actions of a list in order. -/
def runAll : List (Harness σ Unit) → Harness σ Unit
  | [] => pure ()
  | x :: xs => do
    x
    runAll xs

/-- Power-up and reset. -/
def resetSeq (D : Dut σ) : Harness σ Unit := do
  setSig .clk true
  setSig .rst true
  dutStep D
  cycleClock D
  setSig .rst false
  setSig .daliRX true
  cycleClock D

/-- The scenario as the specification words it: reset, `writeAddress` for the
addresses 0 to 24 in ascending order, one bit time, the 24 transactions of
`script` in order, one bit time, exit status 0. -/
def scenario (D : Dut σ) : Harness σ Nat := do
  resetSeq D
  runAll ((List.range 25).map (writeAddress D))
  waitBitTime D
  runAll (script.map (transact D))
  waitBitTime D
  writeVCD
  pure 0

/-- State in which the `k`-th action of a list is entered when the earlier ones
completed. -/
def stateAt (acts : List (Harness σ Unit)) (k : Nat) (s : Sim σ) : Sim σ :=
  (runAll (acts.take k) s).final

/-- State after power-up and reset. -/
def afterReset (D : Dut σ) : Sim σ :=
  (resetSeq D (mainStart D)).final

/-- State in which the first transaction is entered when provisioning
completed. -/
def afterProvisioning (D : Dut σ) : Sim σ :=
  (waitBitTime D (runAll ((List.range 25).map (writeAddress D)) (afterReset D)).final).final


/-! ## Further log measures -/

/-- Number of `step()` calls in a log. -/
def stepCount (l : List Event) : Nat :=
  l.count .step

/-- An event of driving the bus input: a write to the clock or to `daliRX`,
a `step()`, a sample or a flush. -/
def IsDrive (e : Event) : Prop :=
  (∃ v, e = .set .clk v) ∨ (∃ v, e = .set .daliRX v) ∨ e = .step ∨ (∃ t, e = .sample t) ∨
    e = .flush


/-- The level of `daliRX` in each of the 38 bit times of a frame: start low,
start high, the 16 bit pairs, four stop bit times. -/
def frameLevels (c : Nat) : List Bool :=
  false :: true :: (bitPairs c 0 16 ++ [true, true, true, true])

/-- Reading a driven line back: the level at the first `step()` of each of the
16 payload bit periods (line positions `(2 + 2k)` bit times in, a bit time
being `2 * bitTime` steps), assembled most significant first. -/
def readLine (line : List Bool) : Nat :=
  (List.range 16).foldl
    (fun acc k => 2 * acc + (line.getD ((2 + 2 * k) * (2 * bitTime)) false).toNat) 0


/-! ## Closed form of readSPI -/

/-- The bus clock output `framClk`, `j` clock cycles after state `s`. -/
def clkAt (D : Dut σ) (s : Sim σ) (j : Nat) : Bool :=
  D.framClk (ticks D j s).dut

/-- The data-out signal `framCOPI`, `j` clock cycles after state `s`. -/
def copiAt (D : Dut σ) (s : Sim σ) (j : Nat) : Bool :=
  D.framCOPI (ticks D j s).dut

/-- Events of iteration `k` of a completing `readSPI` entered in state `s`. -/
def spiReadIter (D : Dut σ) (s : Sim σ) (k : Nat) : List Event :=
  cycleEvents (tickStamp (2 * k) s.timestamp) ++ [.get .framClk false]
    ++ cycleEvents (tickStamp (2 * k + 1) s.timestamp)
    ++ [.get .framClk true, .get .framCOPI (copiAt D s (2 + 2 * k))]


/-! ## Closed form of writeSPI -/

/-- Level driven on `framCIPO` for bit `k` of `data`, counted from the most
significant. -/
def spiBit (data k : Nat) : Bool :=
  decide ((data >>> (7 - k)) &&& 1 = 1)

/-- Events of iteration `k` of a completing `writeSPI` entered at timestamp
`t`. -/
def spiWriteIter (data t k : Nat) : List Event :=
  cycleEvents (tickStamp (2 * k) t) ++ [.get .framClk false, .set .framCIPO (spiBit data k)]
    ++ cycleEvents (tickStamp (2 * k + 1) t) ++ [.get .framClk true]


/-- The loop body of `writeSPI`, named for the proofs. -/
def writeSPIBody (D : Dut σ) (data bit : Nat) : Harness σ Unit := do
  cycleClock D
  cxxrtlAssert D .framClk false
  setSigU32 .framCIPO ((data >>> (7 - bit)) &&& 1)
  cycleClock D
  cxxrtlAssert D .framClk true


/-- As `Costs`, with `n` positive, and moreover a run of `x` that throws makes
strictly fewer than `n` calls of `cycleClock`. -/
structure StrictCosts (n : Nat) (x : Harness σ α) : Prop where
  costs : Costs n x
  pos : 0 < n
  strict : ∀ s, (x s).isOk = false → cycles (x s).events < n


/-! ## Settled reads -/

/-- Whether every read of an output in the log happens with the model
settled; `st` tells whether it is settled before the log.  A write to an input
unsettles the model, a `step()` settles it. -/
def settledReads : Bool → List Event → Bool
  | _, [] => true
  | _, .set _ _ :: l => settledReads false l
  | _, .step :: l => settledReads true l
  | st, .get _ _ :: l => st && settledReads st l
  | st, .sample _ :: l => settledReads st l
  | st, .flush :: l => settledReads st l
  | st, .raise :: l => settledReads st l

/-- Whether the model is settled after the log. -/
def settledAfter : Bool → List Event → Bool
  | st, [] => st
  | _, .set _ _ :: l => settledAfter false l
  | _, .step :: l => settledAfter true l
  | st, .get _ _ :: l => settledAfter st l
  | st, .sample _ :: l => settledAfter st l
  | st, .flush :: l => settledAfter st l
  | st, .raise :: l => settledAfter st l

/-- Entered with the model settled, `x` reads only settled outputs and, when it
completes, leaves the model settled. -/
structure SettledW (x : Harness σ α) : Prop where
  safe : ∀ s, settledReads true (x s).events = true
  ends : ∀ s, (x s).isOk = true → settledAfter true (x s).events = true

/-- Entered in any state, `x` reads only settled outputs and, when it
completes, leaves the model settled. -/
structure SettledA (x : Harness σ α) : Prop where
  safe : ∀ s, settledReads false (x s).events = true
  ends : ∀ s, (x s).isOk = true → settledAfter false (x s).events = true


/-! ## A model on which the scenario completes -/

/-- Level of a well-formed answer carrying the byte `e` at bit-time boundary
`h`: start low, start high, the bits of `e` most significant first, each
followed by its complement, then high. -/
def answerLevel (e h : Nat) : Bool :=
  if h = 0 then false
  else if h = 1 ∨ 18 ≤ h then true
  else spiBit e ((h - 2) / 2) != decide (h % 2 = 1)

/-- Byte `b` of what `writeAddress(a)` reads from the memory bus: the opcode 3,
then the two address bytes. -/
def provisionByte (a b : Nat) : Nat :=
  [3, (a >>> 8) % 2 ^ 8, (a &&& 0xFF) % 2 ^ 8].getD b 0

/-- The bus output of `replyDut` after `n` calls of `step()`: transaction `j`
begins 2293 clock cycles into the run plus `j` times 24963, and its answer 15811
clock cycles later. -/
def replyTX (n : Nat) : Bool :=
  answerLevel (script.getD (((n - 1) / 2 - 2293) / 24963) (0, 0)).2
    ((((n - 1) / 2 - 2293) % 24963 - 15811) / 416)

/-- Chip select of `replyDut` after `n` calls of `step()`: high from the first
to the 73rd clock cycle of each 75-cycle memory transaction. -/
def replyCS (n : Nat) : Bool :=
  decide (0 < ((n - 1) / 2 - 2) % 75 ∧ ((n - 1) / 2 - 2) % 75 < 74)

/-- Memory-bus clock of `replyDut` after `n` calls of `step()`. -/
def replyClk (n : Nat) : Bool :=
  decide (((n - 1) / 2 - 2) % 75 % 2 = 1)

/-- Memory-bus data of `replyDut` after `n` calls of `step()`. -/
def replyCOPI (n : Nat) : Bool :=
  spiBit (provisionByte (((n - 1) / 2 - 2) / 75) ((((n - 1) / 2 - 2) % 75 - 5) / 2 / 9))
    ((((n - 1) / 2 - 2) % 75 - 5) / 2 % 9)

/-- A model that counts its `step()` calls and answers as the scenario
expects: it frames 25 memory transactions of 75 clock cycles from the end of
reset on, then answers each of the 24 queries with the byte `script` pairs
with it. -/
def replyDut : Dut Nat :=
  { init := 0, step := fun _ _ _ _ n => n + 1,
    daliTX := replyTX, framCS := replyCS, framClk := replyClk, framCOPI := replyCOPI }

/-- On a model that counts its `step()` calls, the count advances by two per
`cycleClock`. -/
def countRel (s : Sim Nat) (l : List Event) (_ok : Bool) (s' : Sim Nat) : Prop :=
  s'.dut = s.dut + 2 * cycles l

/-- Entered with the model's step count at `n`, the action `x` completes and
leaves the count at `m`. -/
def Advances (x : Harness Nat Unit) (n m : Nat) : Prop :=
  ∀ s : Sim Nat, s.dut = n → (x s).isOk = true ∧ (x s).final.dut = m


/-! ## Checks evaluated by a run -/

@[simp] theorem pure_run (a : α) (s : Sim σ) : (pure a : Harness σ α) s = .ok a s [] := rfl

@[simp] theorem bind_run (x : Harness σ α) (f : α → Harness σ β) (s : Sim σ) :
    (x >>= f) s = (x s).andThen f := rfl

@[simp] theorem andThen_ok (a : α) (s : Sim σ) (l : List Event) (f : α → Harness σ β) :
    (Run.ok a s l).andThen f = (f a s).prepend l := rfl

@[simp] theorem andThen_fault (s : Sim σ) (l : List Event) (f : α → Harness σ β) :
    (Run.fault s l : Run σ α).andThen f = .fault s l := rfl

@[simp] theorem prepend_ok (l : List Event) (a : α) (s : Sim σ) (l2 : List Event) :
    (Run.ok a s l2).prepend l = .ok a s (l ++ l2) := rfl

@[simp] theorem prepend_fault (l : List Event) (s : Sim σ) (l2 : List Event) :
    (Run.fault s l2 : Run σ α).prepend l = .fault s (l ++ l2) := rfl

@[simp] theorem prepend_events (l : List Event) (r : Run σ α) :
    (r.prepend l).events = l ++ r.events := by
  cases r <;> rfl

@[simp] theorem prepend_final (l : List Event) (r : Run σ α) :
    (r.prepend l).final = r.final := by
  cases r <;> rfl

@[simp] theorem prepend_isOk (l : List Event) (r : Run σ α) :
    (r.prepend l).isOk = r.isOk := by
  cases r <;> rfl

@[simp] theorem prepend_prepend (l1 l2 : List Event) (r : Run σ α) :
    (r.prepend l2).prepend l1 = r.prepend (l1 ++ l2) := by
  cases r <;> simp

@[simp] theorem prepend_nil (r : Run σ α) : r.prepend [] = r := by
  cases r <;> rfl

/-! ## cycleClock and waitBitTime -/

theorem cycleClock_run (D : Dut σ) (s : Sim σ) :
    cycleClock D s = .ok () (tick D s) (cycleEvents s.timestamp) := rfl

theorem bitTime_eq : bitTime = 416 := by decide

@[simp] theorem ticks_zero (D : Dut σ) (s : Sim σ) : ticks D 0 s = s := rfl

theorem ticks_succ (D : Dut σ) (n : Nat) (s : Sim σ) :
    ticks D (n + 1) s = ticks D n (tick D s) := rfl

theorem ticks_add (D : Dut σ) (m n : Nat) (s : Sim σ) :
    ticks D (m + n) s = ticks D n (ticks D m s) := by
  unfold ticks
  rw [Nat.add_comm, Function.iterate_add_apply]

theorem ticks_one (D : Dut σ) (s : Sim σ) : ticks D 1 s = tick D s := rfl

theorem loop_cycleClock (D : Dut σ) (n i : Nat) (s : Sim σ) :
    loopFrom (fun _ _ => cycleClock D) n i () s
      = .ok () (ticks D n s) (tickEvents n s.timestamp) := by
  induction n generalizing i s with
  | zero => rfl
  | succ n ih =>
    simp only [loopFrom, bind_run, cycleClock_run, andThen_ok, ih, prepend_ok]
    rfl

theorem waitBitTime_run (D : Dut σ) (s : Sim σ) :
    waitBitTime D s = .ok () (ticks D bitTime s) (tickEvents bitTime s.timestamp) :=
  loop_cycleClock D _ 0 s

/-! ## Rules for invariants -/

theorem sat_pure (I : Inv σ) (a : α) : Sat I (Pure.pure a : Harness σ α) :=
  ⟨fun s => I.nil s⟩

theorem sat_bind {I : Inv σ} {x : Harness σ α} {f : α → Harness σ β}
    (hx : Sat I x) (hf : ∀ a, Sat I (f a)) : Sat I (x >>= f) := by
  constructor
  intro s
  have h1 := hx.run s
  rw [bind_run]
  cases hxs : x s with
  | ok a s1 l1 =>
    rw [hxs] at h1
    have h2 := (hf a).run s1
    simp only [andThen_ok, prepend_events, prepend_isOk, prepend_final]
    exact I.append _ _ _ _ _ _ h1 h2
  | fault s1 l1 =>
    rw [hxs] at h1
    exact h1

theorem sat_ite {I : Inv σ} {c : Prop} [Decidable c] {x y : Harness σ α}
    (hx : Sat I x) (hy : Sat I y) : Sat I (if c then x else y) := by
  split
  · exact hx
  · exact hy

theorem sat_loopFrom {I : Inv σ} {body : Nat → α → Harness σ α}
    (h : ∀ i a, Sat I (body i a)) (n i : Nat) (a : α) : Sat I (loopFrom body n i a) := by
  induction n generalizing i a with
  | zero => exact sat_pure I a
  | succ n ih => exact sat_bind (h i a) (fun b => ih (i + 1) b)

theorem sat_indexSequence {I : Inv σ} {body : Nat → α → Harness σ α}
    (h : ∀ i a, Sat I (body i a)) (n : Nat) (a : α) : Sat I (indexSequence n body a) :=
  sat_loopFrom h n 0 a

theorem sat_setU32 {I : Inv σ} {D : Dut σ} {ins : InSig → Prop} {outs : OutSig → Prop}
    (hB : I.Base D ins outs) (sig : InSig) (v : Nat) (h : ins sig) :
    Sat I (setSigU32 sig v : Harness σ Unit) :=
  hB.set sig _ h

theorem sat_throwIf {I : Inv σ} {D : Dut σ} {ins : InSig → Prop} {outs : OutSig → Prop}
    (hB : I.Base D ins outs) (c : Bool) : Sat I (throwIf c : Harness σ Unit) :=
  sat_ite (hB.raise _) (sat_pure I _)

theorem sat_cxxrtlAssert {I : Inv σ} {D : Dut σ} {ins : InSig → Prop} {outs : OutSig → Prop}
    (hB : I.Base D ins outs) (sig : OutSig) (v : Bool) (h : outs sig) :
    Sat I (cxxrtlAssert D sig v) :=
  sat_bind (hB.get sig h) (fun _ => sat_throwIf hB _)

theorem sat_cxxrtlAssertU32 {I : Inv σ} {D : Dut σ} {ins : InSig → Prop}
    {outs : OutSig → Prop} (hB : I.Base D ins outs) (sig : OutSig) (v : Nat) (h : outs sig) :
    Sat I (cxxrtlAssertU32 D sig v) :=
  sat_bind (hB.getU32 sig h) (fun _ => sat_throwIf hB _)

theorem sat_waitBitTime {I : Inv σ} {D : Dut σ} {ins : InSig → Prop} {outs : OutSig → Prop}
    (hB : I.Base D ins outs) : Sat I (waitBitTime D) :=
  sat_loopFrom (fun _ _ => hB.cycle) _ _ _

theorem sat_sendCommand {I : Inv σ} {D : Dut σ} {ins : InSig → Prop} {outs : OutSig → Prop}
    (hB : I.Base D ins outs) (hrx : ins .daliRX) (c : Nat) : Sat I (sendCommand D c) := by
  unfold sendCommand
  repeat' first
    | with_reducible exact sat_waitBitTime hB
    | with_reducible exact hB.set _ _ hrx
    | with_reducible exact sat_setU32 hB _ _ hrx
    | with_reducible apply sat_bind
    | with_reducible apply sat_indexSequence
    | intro _

theorem sat_recvResponse {I : Inv σ} {D : Dut σ} {ins : InSig → Prop} {outs : OutSig → Prop}
    (hB : I.Base D ins outs) (htx : outs .daliTX) : Sat I (recvResponse D) := by
  unfold recvResponse
  repeat' first
    | with_reducible exact sat_waitBitTime hB
    | with_reducible exact hB.cycle
    | with_reducible exact hB.getU32 _ htx
    | with_reducible exact sat_cxxrtlAssert hB _ _ htx
    | with_reducible exact sat_cxxrtlAssertU32 hB _ _ htx
    | with_reducible exact sat_pure I _
    | with_reducible apply sat_bind
    | with_reducible apply sat_indexSequence
    | intro _

theorem sat_readSPI {I : Inv σ} {D : Dut σ} {ins : InSig → Prop} {outs : OutSig → Prop}
    (hB : I.Base D ins outs) (hclk : outs .framClk) (hcopi : outs .framCOPI) :
    Sat I (readSPI D) := by
  unfold readSPI
  repeat' first
    | with_reducible exact hB.cycle
    | with_reducible exact hB.getU32 _ hcopi
    | with_reducible exact sat_cxxrtlAssert hB _ _ hclk
    | with_reducible exact sat_pure I _
    | with_reducible apply sat_bind
    | with_reducible apply sat_indexSequence
    | intro _

theorem sat_writeSPI {I : Inv σ} {D : Dut σ} {ins : InSig → Prop} {outs : OutSig → Prop}
    (hB : I.Base D ins outs) (hclk : outs .framClk) (hcipo : ins .framCIPO) (data : Nat) :
    Sat I (writeSPI D data) := by
  unfold writeSPI
  repeat' first
    | with_reducible exact hB.cycle
    | with_reducible exact sat_setU32 hB _ _ hcipo
    | with_reducible exact sat_cxxrtlAssert hB _ _ hclk
    | with_reducible apply sat_bind
    | with_reducible apply sat_indexSequence
    | intro _

theorem sat_writeAddress {I : Inv σ} {D : Dut σ} {ins : InSig → Prop} {outs : OutSig → Prop}
    (hB : I.Base D ins outs) (hcs : outs .framCS) (hclk : outs .framClk)
    (hcopi : outs .framCOPI) (hcipo : ins .framCIPO) (addr : Nat) :
    Sat I (writeAddress D addr) := by
  unfold writeAddress
  repeat' first
    | with_reducible exact hB.cycle
    | with_reducible exact sat_throwIf hB _
    | with_reducible exact sat_readSPI hB hclk hcopi
    | with_reducible exact sat_writeSPI hB hclk hcipo _
    | with_reducible exact sat_cxxrtlAssert hB _ _ hcs
    | with_reducible exact sat_pure I _
    | with_reducible apply sat_bind
    | intro _

theorem sat_mainBody {I : Inv σ} {D : Dut σ} {ins : InSig → Prop} {outs : OutSig → Prop}
    (hB : I.Base D ins outs) (hrst : ins .rst) (hrx : ins .daliRX) (hcipo : ins .framCIPO)
    (hout : ∀ sig, outs sig) (hclk : Sat I (setSig .clk true : Harness σ Unit))
    (hstep : Sat I (dutStep D)) (hflush : Sat I (writeVCD : Harness σ Unit)) :
    Sat I (mainBody D) := by
  unfold mainBody
  repeat' first
    | with_reducible exact hB.cycle
    | with_reducible exact hstep
    | with_reducible exact hflush
    | with_reducible exact hclk
    | with_reducible exact sat_throwIf hB _
    | with_reducible exact hB.set _ _ hrst
    | with_reducible exact hB.set _ _ hrx
    | with_reducible exact sat_waitBitTime hB
    | with_reducible exact sat_sendCommand hB hrx _
    | with_reducible exact sat_recvResponse hB (hout _)
    | with_reducible exact sat_writeAddress hB (hout _) (hout _) (hout _) hcipo _
    | with_reducible exact sat_pure I _
    | with_reducible apply sat_bind
    | with_reducible apply sat_indexSequence
    | intro _

/-! ## Logs -/

@[simp] theorem cycles_nil : cycles [] = 0 := rfl

@[simp] theorem cycles_append (l1 l2 : List Event) :
    cycles (l1 ++ l2) = cycles l1 + cycles l2 := by
  simp [cycles]

@[simp] theorem cycles_cycleEvents (t : Nat) : cycles (cycleEvents t) = 1 := by
  simp [cycles, cycleEvents, List.count_cons]

@[simp] theorem cycles_tickEvents (n t : Nat) : cycles (tickEvents n t) = n := by
  induction n generalizing t with
  | zero => rfl
  | succ n ih => simp [tickEvents, ih, Nat.add_comm]

theorem cycles_singleton (e : Event) (h : e ≠ Event.set InSig.clk false) : cycles [e] = 0 := by
  simp [cycles, List.count_cons, h]

@[simp] theorem samples_append (l1 l2 : List Event) :
    samples (l1 ++ l2) = samples l1 ++ samples l2 := by
  induction l1 with
  | nil => rfl
  | cons e l ih => cases e <;> simp [samples, ih]

@[simp] theorem reads_append (sig : OutSig) (l1 l2 : List Event) :
    reads sig (l1 ++ l2) = reads sig l1 ++ reads sig l2 := by
  induction l1 with
  | nil => rfl
  | cons e l ih =>
    cases e with
    | get g v => by_cases h : g = sig <;> simp [reads, h, ih]
    | _ => simp [reads, ih]

@[simp] theorem writes_append (sig : InSig) (l1 l2 : List Event) :
    writes sig (l1 ++ l2) = writes sig l1 ++ writes sig l2 := by
  induction l1 with
  | nil => rfl
  | cons e l ih =>
    cases e with
    | set g v => by_cases h : g = sig <;> simp [writes, h, ih]
    | _ => simp [writes, ih]

/-! ## Timestamps -/

theorem tickStamp_add (m n t : Nat) : tickStamp (m + n) t = tickStamp n (tickStamp m t) := by
  induction m generalizing t with
  | zero => simp [tickStamp]
  | succ m ih => rw [Nat.add_right_comm, tickStamp, tickStamp, ih]

theorem tickStamp_exact (n t : Nat) (h : t + 1000 * n < 2 ^ 64) :
    tickStamp n t = t + 1000 * n := by
  induction n generalizing t with
  | zero => rfl
  | succ n ih =>
    have h1 : (t + 500) % 2 ^ 64 = t + 500 := Nat.mod_eq_of_lt (by omega)
    have h2 : (t + 500 + 500) % 2 ^ 64 = t + 1000 := Nat.mod_eq_of_lt (by omega)
    rw [tickStamp, h1, h2, ih (t + 1000) (by omega)]
    omega

theorem tick_timestamp (D : Dut σ) (s : Sim σ) :
    (tick D s).timestamp = tickStamp 1 s.timestamp := rfl

theorem ticks_timestamp (D : Dut σ) (n : Nat) (s : Sim σ) :
    (ticks D n s).timestamp = tickStamp n s.timestamp := by
  induction n generalizing s with
  | zero => rfl
  | succ n ih => rw [ticks_succ, ih, tick_timestamp, Nat.add_comm, tickStamp_add]

theorem tickEvents_add (m n t : Nat) :
    tickEvents (m + n) t = tickEvents m t ++ tickEvents n (tickStamp m t) := by
  induction m generalizing t with
  | zero => simp [tickEvents, tickStamp]
  | succ m ih => rw [Nat.add_right_comm, tickEvents, tickEvents, tickStamp, ih, List.append_assoc]

theorem samples_tickEvents (n t : Nat) (h : t + 1000 * n < 2 ^ 64) :
    samples (tickEvents n t) = (List.range (2 * n)).map (fun k => t + 500 * k) := by
  induction n generalizing t with
  | zero => rfl
  | succ n ih =>
    have h1 : (t + 500) % 2 ^ 64 = t + 500 := Nat.mod_eq_of_lt (by omega)
    have h2 : (t + 500 + 500) % 2 ^ 64 = t + 1000 := Nat.mod_eq_of_lt (by omega)
    rw [tickEvents, samples_append, h1, h2, ih (t + 1000) (by omega)]
    have e : 2 * (n + 1) = 2 + 2 * n := by omega
    rw [e, List.range_add, List.map_append, List.map_map]
    simp only [cycleEvents, samples, h1]
    have e2 : List.range 2 = [0, 1] := by decide
    rw [e2]
    simp only [List.map_cons, List.map_nil, Nat.mul_zero, Nat.add_zero, Nat.mul_one,
      List.cons_append, List.nil_append, List.cons.injEq, true_and]
    apply List.map_congr_left
    intro k _
    simp only [Function.comp]
    omega

/-! ## Counting cycleClock calls -/

theorem Costs.cast {n m : Nat} {x : Harness σ α} (h : Costs n x) (e : n = m) : Costs m x :=
  e ▸ h

theorem costs_pure (a : α) : Costs 0 (pure a : Harness σ α) :=
  ⟨fun _ => Nat.le_refl 0, fun _ _ => rfl⟩

theorem costs_bind {n m : Nat} {x : Harness σ α} {f : α → Harness σ β}
    (hx : Costs n x) (hf : ∀ a, Costs m (f a)) : Costs (n + m) (x >>= f) := by
  constructor
  · intro s
    have h1 := hx.le s
    have h2 := hx.eq s
    rw [bind_run]
    cases hxs : x s with
    | ok a s1 l1 =>
      rw [hxs] at h2
      have h3 := (hf a).le s1
      have h4 := h2 rfl
      simp only [Run.events] at h4
      simp only [andThen_ok, prepend_events, cycles_append]
      omega
    | fault s1 l1 =>
      rw [hxs] at h1
      simp only [andThen_fault, Run.events] at h1 ⊢
      omega
  · intro s
    have h2 := hx.eq s
    rw [bind_run]
    cases hxs : x s with
    | ok a s1 l1 =>
      rw [hxs] at h2
      have h3 := (hf a).eq s1
      have h4 := h2 rfl
      simp only [Run.events] at h4
      simp only [andThen_ok, prepend_events, cycles_append, prepend_isOk]
      intro hok
      rw [h4, h3 hok]
    | fault s1 l1 =>
      simp [Run.isOk]

theorem costs_loopFrom {k : Nat} {body : Nat → α → Harness σ α}
    (h : ∀ i a, Costs k (body i a)) (n i : Nat) (a : α) :
    Costs (n * k) (loopFrom body n i a) := by
  induction n generalizing i a with
  | zero => exact (costs_pure a).cast (Nat.zero_mul k).symm
  | succ n ih =>
    exact (costs_bind (h i a) (fun b => ih (i + 1) b)).cast (by rw [Nat.succ_mul, Nat.add_comm])

theorem costs_indexSequence {k : Nat} {body : Nat → α → Harness σ α}
    (h : ∀ i a, Costs k (body i a)) (n : Nat) (a : α) :
    Costs (n * k) (indexSequence n body a) :=
  costs_loopFrom h n 0 a

theorem costs_cycleClock (D : Dut σ) : Costs 1 (cycleClock D) :=
  ⟨fun s => by rw [cycleClock_run]; simp [Run.events],
   fun s _ => by rw [cycleClock_run]; simp [Run.events]⟩

theorem costs_setSig (sig : InSig) (v : Bool) (h : sig ≠ InSig.clk ∨ v = true) :
    Costs 0 (setSig sig v : Harness σ Unit) := by
  have e : cycles [Event.set sig v] = 0 := by
    apply cycles_singleton
    intro he
    injection he with h1 h2
    rcases h with h | h
    · exact h h1
    · rw [h] at h2
      exact Bool.noConfusion h2
  exact ⟨fun s => by simp [setSig, Run.events, e], fun s _ => by simp [setSig, Run.events, e]⟩

theorem costs_setSigU32 (sig : InSig) (v : Nat) (h : sig ≠ InSig.clk) :
    Costs 0 (setSigU32 sig v : Harness σ Unit) :=
  costs_setSig sig _ (Or.inl h)

theorem costs_dutStep (D : Dut σ) : Costs 0 (dutStep D) :=
  ⟨fun s => by simp [dutStep, Run.events, cycles], fun s _ => by simp [dutStep, Run.events, cycles]⟩

theorem costs_writeVCD : Costs 0 (writeVCD : Harness σ Unit) :=
  ⟨fun s => by simp [writeVCD, Run.events, cycles], fun s _ => by simp [writeVCD, Run.events, cycles]⟩

theorem costs_getSig (D : Dut σ) (sig : OutSig) : Costs 0 (getSig D sig) :=
  ⟨fun s => by simp [getSig, Run.events, cycles], fun s _ => by simp [getSig, Run.events, cycles]⟩

theorem costs_getSigU32 (D : Dut σ) (sig : OutSig) : Costs 0 (getSigU32 D sig) :=
  ⟨fun s => by simp [getSigU32, Run.events, cycles],
   fun s _ => by simp [getSigU32, Run.events, cycles]⟩

theorem costs_throwIf (c : Bool) : Costs 0 (throwIf c : Harness σ Unit) := by
  cases c
  · exact costs_pure ()
  · exact ⟨fun s => by simp [throwIf, throwAssertion, Run.events, cycles],
      fun s h => by simp [throwIf, throwAssertion, Run.isOk] at h⟩

theorem costs_cxxrtlAssert (D : Dut σ) (sig : OutSig) (v : Bool) :
    Costs 0 (cxxrtlAssert D sig v) :=
  costs_bind (costs_getSig D sig) (fun _ => costs_throwIf _)

theorem costs_cxxrtlAssertU32 (D : Dut σ) (sig : OutSig) (v : Nat) :
    Costs 0 (cxxrtlAssertU32 D sig v) :=
  costs_bind (costs_getSigU32 D sig) (fun _ => costs_throwIf _)

theorem costs_waitBitTime (D : Dut σ) : Costs 416 (waitBitTime D) :=
  (costs_loopFrom (fun _ _ => costs_cycleClock D) _ 0 ()).cast (by decide)


theorem costs_sendCommand (D : Dut σ) (c : Nat) : Costs 15808 (sendCommand D c) := by
  unfold sendCommand
  apply Costs.cast
  case h =>
    repeat' first
      | with_reducible exact costs_waitBitTime D
      | with_reducible exact costs_setSig _ _ (Or.inl (by decide))
      | with_reducible exact costs_setSigU32 _ _ (by decide)
      | with_reducible apply costs_bind
      | with_reducible apply costs_indexSequence
      | intro _
  case e => rfl

theorem costs_recvResponse (D : Dut σ) : Costs 9155 (recvResponse D) := by
  unfold recvResponse
  apply Costs.cast
  case h =>
    repeat' first
      | with_reducible exact costs_waitBitTime D
      | with_reducible exact costs_cycleClock D
      | with_reducible exact costs_getSigU32 D _
      | with_reducible exact costs_cxxrtlAssert D _ _
      | with_reducible exact costs_cxxrtlAssertU32 D _ _
      | with_reducible exact costs_pure _
      | with_reducible apply costs_bind
      | with_reducible apply costs_indexSequence
      | intro _
  case e => rfl

theorem costs_readSPI (D : Dut σ) : Costs 16 (readSPI D) := by
  unfold readSPI
  apply Costs.cast
  case h =>
    repeat' first
      | with_reducible exact costs_cycleClock D
      | with_reducible exact costs_getSigU32 D _
      | with_reducible exact costs_cxxrtlAssert D _ _
      | with_reducible exact costs_pure _
      | with_reducible apply costs_bind
      | with_reducible apply costs_indexSequence
      | intro _
  case e => rfl

theorem costs_writeSPI (D : Dut σ) (data : Nat) : Costs 16 (writeSPI D data) := by
  unfold writeSPI
  apply Costs.cast
  case h =>
    repeat' first
      | with_reducible exact costs_cycleClock D
      | with_reducible exact costs_setSigU32 _ _ (by decide)
      | with_reducible exact costs_cxxrtlAssert D _ _
      | with_reducible apply costs_bind
      | with_reducible apply costs_indexSequence
      | intro _
  case e => rfl

theorem costs_writeAddress (D : Dut σ) (addr : Nat) : Costs 75 (writeAddress D addr) := by
  unfold writeAddress
  apply Costs.cast
  case h =>
    repeat' first
      | with_reducible exact costs_cycleClock D
      | with_reducible exact costs_throwIf _
      | with_reducible exact costs_readSPI D
      | with_reducible exact costs_writeSPI D _
      | with_reducible exact costs_cxxrtlAssert D _ _
      | with_reducible exact costs_pure _
      | with_reducible apply costs_bind
      | intro _
  case e => rfl

theorem costs_mainBody (D : Dut σ) : Costs 601821 (mainBody D) := by
  unfold mainBody
  apply Costs.cast
  case h =>
    repeat' first
      | with_reducible exact costs_cycleClock D
      | with_reducible exact costs_dutStep D
      | with_reducible exact costs_writeVCD
      | with_reducible exact costs_throwIf _
      | with_reducible exact costs_setSig _ _ (Or.inl (by decide))
      | with_reducible exact costs_setSig _ _ (Or.inr rfl)
      | with_reducible exact costs_waitBitTime D
      | with_reducible exact costs_sendCommand D _
      | with_reducible exact costs_recvResponse D
      | with_reducible exact costs_writeAddress D _
      | with_reducible exact costs_pure _
      | with_reducible apply costs_bind
      | with_reducible apply costs_indexSequence
      | intro _
  case e => rfl

/-! ## Time -/

/-- The time relation is closed under sequencing. -/
def timeInv (σ : Type) : Inv σ where
  rel := timeRel
  nil := fun _ => ⟨rfl, rfl⟩
  append := by
    intro s l1 s1 l2 b s2 h1 h2
    obtain ⟨h1a, h1b⟩ := h1
    obtain ⟨h2a, h2b⟩ := h2
    constructor
    · rw [h2a, h1a, cycles_append, tickStamp_add]
    · rw [samples_append, h1b, h2b, h1a, cycles_append, tickEvents_add, samples_append]

theorem write_timestamp (s : Sim σ) (sig : InSig) (v : Bool) :
    (s.write sig v).timestamp = s.timestamp := by
  cases sig <;> rfl

theorem timeInv_base (D : Dut σ) :
    (timeInv σ).Base D (fun sig => sig ≠ InSig.clk) (fun _ => True) where
  cycle := ⟨fun s => by
    rw [cycleClock_run]
    exact ⟨by simp [Run.final, Run.events, tick_timestamp],
      by simp [Run.events, tickEvents]⟩⟩
  set := fun sig v h => ⟨fun s => by
    have e := (costs_setSig sig v (Or.inl h) : Costs 0 (setSig sig v : Harness σ Unit)).eq s rfl
    simp only [setSig, Run.events] at e
    exact ⟨by simp [setSig, Run.final, Run.events, e, tickStamp, write_timestamp],
      by simp [setSig, Run.events, e, tickEvents, samples]⟩⟩
  get := fun sig _ => ⟨fun s => ⟨rfl, rfl⟩⟩
  getU32 := fun sig _ => ⟨fun s => ⟨rfl, rfl⟩⟩
  raise := fun _ => ⟨fun s => ⟨rfl, rfl⟩⟩

theorem timeInv_main (D : Dut σ) : Sat (timeInv σ) (mainBody D) :=
  sat_mainBody (timeInv_base D) (by decide) (by decide) (by decide) (fun _ => trivial)
    ⟨fun s => ⟨rfl, rfl⟩⟩ ⟨fun s => ⟨rfl, rfl⟩⟩ ⟨fun s => ⟨rfl, rfl⟩⟩

theorem main_cycles_le (D : Dut σ) : cycles (main D).events ≤ 601821 :=
  (costs_mainBody D).le (mainStart D)

theorem main_timestamp (D : Dut σ) :
    (main D).final.timestamp = 1000 * cycles (main D).events := by
  have h := ((timeInv_main D).run (mainStart D)).1
  have hc : cycles (mainBody D (mainStart D)).events ≤ 601821 := (costs_mainBody D).le _
  have ht : (mainStart D).timestamp = 0 := rfl
  show (mainBody D (mainStart D)).final.timestamp
    = 1000 * cycles (mainBody D (mainStart D)).events
  rw [h, ht, tickStamp_exact _ _ (by omega)]
  omega

theorem main_samples (D : Dut σ) :
    samples (main D).events
      = (List.range (2 * cycles (main D).events)).map (fun k => 500 * k) := by
  have h := ((timeInv_main D).run (mainStart D)).2
  have hc : cycles (mainBody D (mainStart D)).events ≤ 601821 := (costs_mainBody D).le _
  have ht : (mainStart D).timestamp = 0 := rfl
  show samples (mainBody D (mainStart D)).events
    = (List.range (2 * cycles (mainBody D (mainStart D)).events)).map (fun k => 500 * k)
  rw [h, ht, samples_tickEvents _ _ (by omega)]
  simp

/-! ## C9, C10: the bit time and the clock stepper -/

/-- C9: with `clkFrequency = 1_MHz = 1000000` and `bitRate = 2400` the bit-time
constant `clkFrequency / bitRate` is 416 (so at least 1), and a call of
`waitBitTime` (entered, as everywhere in the scenario, far from the end of the
64-bit timestamp range) completes, is exactly 416 `cycleClock` calls and leaves
the timestamp advanced by `416 * 2 * 500 = 416000`. -/
theorem waitBitTime_steps_one_bit_time (D : Dut σ) (s : Sim σ)
    (h : s.timestamp + 416000 < 2 ^ 64) :
    clkFrequency = 1000000 ∧ bitRate = 2400 ∧ clkFrequency / bitRate = 416 ∧
      1 ≤ clkFrequency / bitRate ∧
      waitBitTime D s
        = .ok () ((fun x => (cycleClock D x).final)^[clkFrequency / bitRate] s)
            (tickEvents (clkFrequency / bitRate) s.timestamp) ∧
      cycles (waitBitTime D s).events = clkFrequency / bitRate ∧
      (waitBitTime D s).final.timestamp = s.timestamp + clkFrequency / bitRate * 2 * 500 ∧
      (waitBitTime D s).final.timestamp = s.timestamp + 416000 := by
  have hw := waitBitTime_run D s
  have hb := bitTime_eq
  unfold bitTime at hb hw
  have ht : (waitBitTime D s).final.timestamp = s.timestamp + 416000 := by
    rw [hw]
    show (ticks D (clkFrequency / bitRate) s).timestamp = _
    rw [ticks_timestamp, hb, tickStamp_exact _ _ (by omega)]
  refine ⟨by decide, rfl, by decide, by decide, hw, ?_, ?_, ht⟩
  · rw [hw]
    exact cycles_tickEvents _ _
  · rw [ht, hb]

/-- C9 at a concrete run: the first bit time of an idle model. -/
theorem waitBitTime_steps_one_bit_time_witness :
    (mainStart idleDut).timestamp + 416000 < 2 ^ 64 ∧
      clkFrequency / bitRate = 416 ∧
      cycles (waitBitTime idleDut (mainStart idleDut)).events = clkFrequency / bitRate ∧
      (waitBitTime idleDut (mainStart idleDut)).final.timestamp
        = (mainStart idleDut).timestamp + 416000 :=
  have h := waitBitTime_steps_one_bit_time idleDut (mainStart idleDut) (by decide)
  ⟨by decide, h.2.2.1, h.2.2.2.2.2.1, h.2.2.2.2.2.2.2⟩

/-- C10: a `cycleClock` call (entered below the end of the 64-bit timestamp
range) is: clock low, `step()`, sample at `t`, clock high, `step()`, sample at
`t + 500`, flush; it advances the timestamp by 1000 and leaves the clock line
high.  No other operation changes the timestamp.  In every run of `main` the
final timestamp is 1000 times the number of `cycleClock` calls, the `k`-th
recorded sample has timestamp `500 * k`, and sample timestamps increase
strictly. -/
theorem cycleClock_steps_twice_and_stamps_samples (D : Dut σ) :
    (∀ s : Sim σ, s.timestamp + 1000 < 2 ^ 64 →
      cycleClock D s
        = .ok ()
            { s with
              dut := D.step true s.rst s.daliRX s.framCIPO
                (D.step false s.rst s.daliRX s.framCIPO s.dut)
              clk := true
              timestamp := s.timestamp + 1000 }
            [.set .clk false, .step, .sample s.timestamp, .set .clk true, .step,
              .sample (s.timestamp + 500), .flush]) ∧
    (∀ s : Sim σ, (cycleClock D s).final.clk = true) ∧
    (∀ (s : Sim σ) (sig : InSig) (v : Bool) (o : OutSig) (c : Bool),
      (setSig sig v s).final.timestamp = s.timestamp ∧
      (dutStep D s).final.timestamp = s.timestamp ∧
      (vcdSample s).final.timestamp = s.timestamp ∧
      (writeVCD s).final.timestamp = s.timestamp ∧
      (getSig D o s).final.timestamp = s.timestamp ∧
      (getSigU32 D o s).final.timestamp = s.timestamp ∧
      (throwIf c s).final.timestamp = s.timestamp) ∧
    (main D).final.timestamp = 1000 * cycles (main D).events ∧
    (samples (main D).events).length = 2 * cycles (main D).events ∧
    (∀ k (hk : k < (samples (main D).events).length),
      (samples (main D).events)[k] = 500 * k) ∧
    (samples (main D).events).Pairwise (· < ·) := by
  have hs := main_samples D
  refine ⟨?_, fun s => rfl, ?_, main_timestamp D, ?_, ?_, ?_⟩
  · intro s h
    have h1 : (s.timestamp + 500) % 2 ^ 64 = s.timestamp + 500 := Nat.mod_eq_of_lt (by omega)
    have h2 : (s.timestamp + 500 + 500) % 2 ^ 64 = s.timestamp + 1000 :=
      Nat.mod_eq_of_lt (by omega)
    rw [cycleClock_run]
    simp only [tick, cycleEvents, h1, h2]
  · intro s sig v o c
    refine ⟨write_timestamp s sig v, rfl, rfl, rfl, rfl, rfl, ?_⟩
    cases c <;> rfl
  · rw [hs]
    simp
  · intro k hk
    simp only [hs, List.getElem_map, List.getElem_range]
  · rw [hs, List.pairwise_map]
    refine (List.pairwise_lt_range _).imp ?_
    intro a b hab
    omega


/-! ## sendCommand -/

theorem and_one_cases (x : Nat) : x &&& 1 = 0 ∨ x &&& 1 = 1 := by
  rw [Nat.and_one_is_mod]
  omega

theorem setSigU32_bit (c i : Nat) :
    (setSigU32 .daliRX ((c >>> (15 - i)) &&& 1) : Harness σ Unit)
      = setSig .daliRX (commandBit c i) := by
  unfold setSigU32 commandBit
  rcases and_one_cases (c >>> (15 - i)) with h | h <;> rw [h]

theorem setSigU32_bit_xor (c i : Nat) :
    (setSigU32 .daliRX (((c >>> (15 - i)) &&& 1) ^^^ 1) : Harness σ Unit)
      = setSig .daliRX (!commandBit c i) := by
  unfold setSigU32 commandBit
  rcases and_one_cases (c >>> (15 - i)) with h | h <;> rw [h] <;> rfl

theorem hold_timestamp (D : Dut σ) (v : Bool) (s : Sim σ) :
    (hold D v s).timestamp = tickStamp bitTime s.timestamp := by
  rw [hold, ticks_timestamp, write_timestamp]

theorem hold_run (D : Dut σ) (v : Bool) (s : Sim σ) :
    (setSig .daliRX v >>= fun _ => waitBitTime D) s
      = .ok () (hold D v s) (driveLog [v] s.timestamp) := by
  simp only [bind_run, setSig, andThen_ok, waitBitTime_run, prepend_ok, write_timestamp,
    driveLog, hold, List.append_nil, List.singleton_append]

theorem driveLog_append (vs ws : List Bool) (t : Nat) :
    driveLog (vs ++ ws) t
      = driveLog vs t ++ driveLog ws (tickStamp (vs.length * bitTime) t) := by
  induction vs generalizing t with
  | nil => simp [driveLog, tickStamp]
  | cons v vs ih =>
    rw [List.cons_append, driveLog, driveLog, ih, List.length_cons, Nat.succ_mul,
      Nat.add_comm (vs.length * bitTime), tickStamp_add]
    simp only [List.append_assoc]

theorem driveState_append (D : Dut σ) (vs ws : List Bool) (s : Sim σ) :
    driveState D (vs ++ ws) s = driveState D ws (driveState D vs s) := by
  simp [driveState, List.foldl_append]

theorem driveState_timestamp (D : Dut σ) (vs : List Bool) (s : Sim σ) :
    (driveState D vs s).timestamp = tickStamp (vs.length * bitTime) s.timestamp := by
  induction vs generalizing s with
  | nil => simp [driveState, tickStamp]
  | cons v vs ih =>
    show (driveState D vs (hold D v s)).timestamp = _
    rw [ih, hold_timestamp, List.length_cons, Nat.succ_mul, Nat.add_comm (vs.length * bitTime),
      tickStamp_add]

theorem sendBits_loop (D : Dut σ) (c n i : Nat) (s : Sim σ) :
    loopFrom (fun i (_ : Unit) => (do
        setSig .daliRX (commandBit c i)
        waitBitTime D
        setSig .daliRX (!commandBit c i)
        waitBitTime D : Harness σ Unit)) n i () s
      = .ok () (driveState D (bitPairs c i n) s) (driveLog (bitPairs c i n) s.timestamp) := by
  induction n generalizing i s with
  | zero => rfl
  | succ n ih =>
    rw [loopFrom]
    simp only [bind_run, setSig, andThen_ok, waitBitTime_run, prepend_ok, prepend_prepend, ih]
    have e : bitPairs c i (n + 1) = [commandBit c i, !commandBit c i] ++ bitPairs c (i + 1) n := by
      simp [bitPairs, List.range'_succ, List.flatMap_cons]
    rw [e, driveState_append, driveLog_append]
    simp only [driveState, List.foldl_cons, List.foldl_nil, hold, driveLog, write_timestamp,
      ticks_timestamp, List.append_nil, List.length_cons, List.length_nil, List.append_assoc,
      List.cons_append, List.nil_append]
    have e2 : (0 + 1 + 1) * bitTime = bitTime + bitTime := by omega
    rw [e2, tickStamp_add]

theorem sendBits_run (D : Dut σ) (c n i : Nat) (s : Sim σ) :
    loopFrom (fun i (_ : Unit) => (do
        let bit := (c >>> (15 - i)) &&& 1
        setSigU32 .daliRX bit
        waitBitTime D
        setSigU32 .daliRX (bit ^^^ 1)
        waitBitTime D : Harness σ Unit)) n i () s
      = .ok () (driveState D (bitPairs c i n) s) (driveLog (bitPairs c i n) s.timestamp) := by
  rw [← sendBits_loop]
  simp only [setSigU32_bit, setSigU32_bit_xor]

theorem bitPairs_length (c i n : Nat) : (bitPairs c i n).length = 2 * n := by
  induction n generalizing i with
  | zero => rfl
  | succ n ih =>
    have e : bitPairs c i (n + 1) = [commandBit c i, !commandBit c i] ++ bitPairs c (i + 1) n := by
      simp [bitPairs, List.range'_succ, List.flatMap_cons]
    rw [e, List.length_append, ih]
    simp only [List.length_cons, List.length_nil]
    omega

theorem frame_run (D : Dut σ) (ps : List Bool) (mid : Harness σ Unit)
    (hmid : ∀ s, mid s = .ok () (driveState D ps s) (driveLog ps s.timestamp)) (s : Sim σ) :
    (do
      setSig .daliRX false
      waitBitTime D
      setSig .daliRX true
      waitBitTime D
      mid
      setSig .daliRX true
      waitBitTime D
      waitBitTime D
      waitBitTime D
      waitBitTime D : Harness σ Unit) s
      = .ok () (ticks D (3 * bitTime) (driveState D ([false, true] ++ ps ++ [true]) s))
          (driveLog ([false, true] ++ ps ++ [true]) s.timestamp
            ++ tickEvents (3 * bitTime) (tickStamp ((3 + ps.length) * bitTime) s.timestamp)) := by
  have e3 : 3 * bitTime = bitTime + (bitTime + bitTime) := by omega
  have e4 : (3 + ps.length) * bitTime = 2 * bitTime + (ps.length * bitTime + bitTime) := by
    rw [Nat.add_mul]
    omega
  have e5 : 2 * bitTime = bitTime + bitTime := by omega
  simp only [bind_run, setSig, andThen_ok, waitBitTime_run, prepend_ok, prepend_prepend,
    hmid, write_timestamp, ticks_timestamp, driveState_timestamp]
  rw [e3, ticks_add, ticks_add, tickEvents_add, tickEvents_add, e4, tickStamp_add, tickStamp_add,
    e5, tickStamp_add, driveState_append, driveState_append, driveLog_append, driveLog_append]
  simp only [List.length_append, List.length_cons, List.length_nil]
  have e6 : (0 + 1 + 1) * bitTime = bitTime + bitTime := by omega
  have e7 : (0 + 1 + 1 + ps.length) * bitTime = bitTime + bitTime + ps.length * bitTime := by
    rw [Nat.add_mul, e6]
  rw [e7, tickStamp_add, tickStamp_add]
  generalize hq : driveLog ps = q
  simp only [driveState, List.foldl_cons, List.foldl_nil, hold, driveLog, write_timestamp,
    ticks_timestamp, List.append_nil, List.append_assoc, List.cons_append, List.nil_append,
    e6, tickStamp_add]

theorem sendCommand_run (D : Dut σ) (c : Nat) (s : Sim σ) :
    sendCommand D c s
      = .ok () (ticks D (3 * bitTime) (driveState D (frameWrites c) s))
          (driveLog (frameWrites c) s.timestamp
            ++ tickEvents (3 * bitTime) (tickStamp (35 * bitTime) s.timestamp)) := by
  have h := frame_run D (bitPairs c 0 16) _ (sendBits_run D c 16 0) s
  rw [bitPairs_length] at h
  exact h

theorem rxAtSteps_append (rx : Bool) (l1 l2 : List Event) :
    rxAtSteps rx (l1 ++ l2) = rxAtSteps rx l1 ++ rxAtSteps (rxAfter rx l1) l2 := by
  induction l1 generalizing rx with
  | nil => rfl
  | cons e l ih =>
    cases e with
    | set g v => cases g <;> simp [rxAtSteps, rxAfter, ih]
    | _ => simp [rxAtSteps, rxAfter, ih]

theorem rxAfter_append (rx : Bool) (l1 l2 : List Event) :
    rxAfter rx (l1 ++ l2) = rxAfter (rxAfter rx l1) l2 := by
  induction l1 generalizing rx with
  | nil => rfl
  | cons e l ih =>
    cases e with
    | set g v => cases g <;> simp [rxAfter, ih]
    | _ => simp [rxAfter, ih]

theorem rxAtSteps_cycleEvents (rx : Bool) (t : Nat) :
    rxAtSteps rx (cycleEvents t) = [rx, rx] := rfl

theorem rxAfter_cycleEvents (rx : Bool) (t : Nat) : rxAfter rx (cycleEvents t) = rx := rfl

theorem rxAtSteps_set_rx (rx v : Bool) (l : List Event) :
    rxAtSteps rx (.set .daliRX v :: l) = rxAtSteps v l := rfl

theorem rxAfter_set_rx (rx v : Bool) (l : List Event) :
    rxAfter rx (.set .daliRX v :: l) = rxAfter v l := rfl

theorem writes_set_rx (v : Bool) (l : List Event) :
    writes .daliRX (.set .daliRX v :: l) = v :: writes .daliRX l := rfl

theorem rxAtSteps_tickEvents (rx : Bool) (n t : Nat) :
    rxAtSteps rx (tickEvents n t) = List.replicate (2 * n) rx := by
  induction n generalizing t with
  | zero => rfl
  | succ n ih =>
    rw [tickEvents, rxAtSteps_append, rxAfter_cycleEvents, ih, rxAtSteps_cycleEvents]
    have e : 2 * (n + 1) = 2 + 2 * n := by omega
    rw [e, List.replicate_add]
    rfl

theorem rxAfter_tickEvents (rx : Bool) (n t : Nat) : rxAfter rx (tickEvents n t) = rx := by
  induction n generalizing t with
  | zero => rfl
  | succ n ih => rw [tickEvents, rxAfter_append, rxAfter_cycleEvents, ih]

theorem rxAtSteps_driveLog (rx : Bool) (vs : List Bool) (t : Nat) :
    rxAtSteps rx (driveLog vs t) = vs.flatMap (fun v => List.replicate (2 * bitTime) v) := by
  induction vs generalizing rx t with
  | nil => rfl
  | cons v vs ih =>
    rw [driveLog, rxAtSteps_append, List.flatMap_cons, ih, rxAtSteps_set_rx,
      rxAtSteps_tickEvents]

theorem rxAfter_driveLog_snoc (rx : Bool) (vs : List Bool) (v : Bool) (t : Nat) :
    rxAfter rx (driveLog (vs ++ [v]) t) = v := by
  induction vs generalizing rx t with
  | nil =>
    rw [List.nil_append, driveLog, driveLog, List.append_nil, rxAfter_set_rx,
      rxAfter_tickEvents]
  | cons w vs ih =>
    rw [List.cons_append, driveLog, rxAfter_append, ih]

theorem writes_cycleEvents (sig : InSig) (h : sig ≠ InSig.clk) (t : Nat) :
    writes sig (cycleEvents t) = [] := by
  cases sig <;> first | exact absurd rfl h | rfl

theorem writes_tickEvents (sig : InSig) (h : sig ≠ InSig.clk) (n t : Nat) :
    writes sig (tickEvents n t) = [] := by
  induction n generalizing t with
  | zero => rfl
  | succ n ih => rw [tickEvents, writes_append, ih, writes_cycleEvents sig h, List.append_nil]

theorem writes_driveLog (vs : List Bool) (t : Nat) :
    writes .daliRX (driveLog vs t) = vs := by
  induction vs generalizing t with
  | nil => rfl
  | cons v vs ih =>
    rw [driveLog, writes_append, ih, writes_set_rx, writes_tickEvents _ (by decide)]
    rfl

theorem bitPairs_eq (c : Nat) :
    bitPairs c 0 16
      = (List.range 16).flatMap (fun i =>
          [decide ((c >>> (15 - i)) &&& 1 = 1), !decide ((c >>> (15 - i)) &&& 1 = 1)]) := by
  rw [List.range_eq_range']
  rfl

/-! ## C1: the transmitted frame -/

/-- C1: for every command `c` (in particular every 16-bit one), `sendCommand c`
completes and takes exactly 38 bit times (38 * 416 `cycleClock` calls); the
value of `daliRX` at the successive `step()` calls is, one bit time (2 * 416
steps) each: false, true, then for `i = 0..15` the bit `(c >> (15 - i)) & 1`
followed by its complement, then true four times.  The values written to
`daliRX` are these levels, the stop level once. -/
theorem sendCommand_drives_biphase_frame (D : Dut σ) (c : Nat) (s : Sim σ) :
    ∃ s' l, sendCommand D c s = .ok () s' l ∧
      cycles l = 38 * (clkFrequency / bitRate) ∧
      rxAtSteps s.daliRX l
        = ([false, true]
            ++ (List.range 16).flatMap (fun i =>
                [decide ((c >>> (15 - i)) &&& 1 = 1), !decide ((c >>> (15 - i)) &&& 1 = 1)])
            ++ [true, true, true, true]).flatMap
              (fun v => List.replicate (2 * (clkFrequency / bitRate)) v) ∧
      writes .daliRX l
        = [false, true]
            ++ (List.range 16).flatMap (fun i =>
                [decide ((c >>> (15 - i)) &&& 1 = 1), !decide ((c >>> (15 - i)) &&& 1 = 1)])
            ++ [true] := by
  refine ⟨_, _, sendCommand_run D c s, ?_, ?_, ?_⟩
  · have h := (costs_sendCommand D c).eq s (by rw [sendCommand_run]; rfl)
    rw [sendCommand_run] at h
    exact h
  · rw [rxAtSteps_append, rxAtSteps_driveLog, rxAtSteps_tickEvents]
    unfold frameWrites
    rw [rxAfter_driveLog_snoc, bitPairs_eq]
    have e : 2 * (3 * bitTime) = 2 * bitTime + (2 * bitTime + 2 * bitTime) := by omega
    rw [e, List.replicate_add, List.replicate_add]
    simp only [List.flatMap_append, List.flatMap_cons, List.flatMap_nil, List.append_assoc,
      List.append_nil, bitTime]
  · rw [writes_append, writes_driveLog, writes_tickEvents _ (by decide), List.append_nil]
    unfold frameWrites
    rw [bitPairs_eq]


/-! ## recvResponse -/

theorem cxxrtlAssert_pass (D : Dut σ) (sig : OutSig) (v : Bool) (s : Sim σ)
    (h : D.read sig s.dut = v) : cxxrtlAssert D sig v s = .ok () s [.get sig v] := by
  simp [cxxrtlAssert, getSig, throwIf, h]

theorem cxxrtlAssert_fail (D : Dut σ) (sig : OutSig) (v : Bool) (s : Sim σ)
    (h : D.read sig s.dut ≠ v) :
    cxxrtlAssert D sig v s = .fault s [.get sig (D.read sig s.dut), .raise] := by
  simp [cxxrtlAssert, getSig, throwIf, h, throwAssertion]

theorem toNat_ne_xor (a b : Bool) : (a.toNat != b.toNat ^^^ 1) = (a != !b) := by
  cases a <;> cases b <;> decide

theorem cxxrtlAssertU32_pass (D : Dut σ) (sig : OutSig) (b : Bool) (s : Sim σ)
    (h : D.read sig s.dut = !b) :
    cxxrtlAssertU32 D sig (b.toNat ^^^ 1) s = .ok () s [.get sig (!b)] := by
  simp only [cxxrtlAssertU32, bind_run, getSigU32, andThen_ok, h]
  cases b <;> rfl

theorem cxxrtlAssertU32_fail (D : Dut σ) (sig : OutSig) (b : Bool) (s : Sim σ)
    (h : D.read sig s.dut ≠ !b) :
    cxxrtlAssertU32 D sig (b.toNat ^^^ 1) s = .fault s [.get sig (D.read sig s.dut), .raise] := by
  simp only [cxxrtlAssertU32, bind_run, getSigU32, andThen_ok]
  generalize D.read sig s.dut = a at h
  cases a <;> cases b <;> first | rfl | exact absurd rfl h

theorem reads_cycleEvents (sig : OutSig) (t : Nat) : reads sig (cycleEvents t) = [] := rfl

theorem reads_tickEvents (sig : OutSig) (n t : Nat) : reads sig (tickEvents n t) = [] := by
  induction n generalizing t with
  | zero => rfl
  | succ n ih => rw [tickEvents, reads_append, ih, reads_cycleEvents, List.append_nil]

theorem reads_get (sig : OutSig) (v : Bool) (l : List Event) :
    reads sig (.get sig v :: l) = v :: reads sig l := by
  simp [reads]

/-- State at the `j`-th bit-time boundary of a `recvResponse` entered in `s`. -/
theorem ticks_boundary (D : Dut σ) (s : Sim σ) (j : Nat) :
    ticks D bitTime (ticks D (3 + j * bitTime) s) = ticks D (3 + (j + 1) * bitTime) s := by
  rw [← ticks_add, Nat.add_mul, Nat.one_mul, Nat.add_assoc]

theorem recvBit_pass (D : Dut σ) (s : Sim σ) (j acc : Nat)
    (h : txAt D s (j + 1) = !txAt D s j) :
    ∃ l, (do
        let bit ← getSigU32 D .daliTX
        let result := (acc <<< 1) % 2 ^ 32
        let result := result ||| bit
        waitBitTime D
        cxxrtlAssertU32 D .daliTX (bit ^^^ 1)
        waitBitTime D
        pure result : Harness σ Nat) (ticks D (3 + j * bitTime) s)
      = .ok (shiftIn acc (txAt D s j)) (ticks D (3 + (j + 2) * bitTime) s) l ∧
      reads .daliTX l = [txAt D s j, txAt D s (j + 1)] := by
  have h1 : D.read .daliTX (ticks D (3 + (j + 1) * bitTime) s).dut = !txAt D s j := h
  have h2 : D.read .daliTX (ticks D (3 + j * bitTime) s).dut = txAt D s j := rfl
  refine ⟨.get .daliTX (txAt D s j) ::
      (tickEvents bitTime (ticks D (3 + j * bitTime) s).timestamp
        ++ .get .daliTX (!txAt D s j) ::
          tickEvents bitTime (ticks D (3 + (j + 1) * bitTime) s).timestamp), ?_, ?_⟩
  · simp only [bind_run, getSigU32, andThen_ok, waitBitTime_run, prepend_ok, prepend_prepend,
      ticks_boundary, pure_run, h2]
    rw [cxxrtlAssertU32_pass D .daliTX _ _ h1]
    simp only [andThen_ok, waitBitTime_run, prepend_ok, prepend_prepend, ticks_boundary,
      pure_run, bind_run, shiftIn, List.append_assoc, List.cons_append, List.nil_append,
      List.append_nil, Nat.add_assoc, Nat.reduceAdd]
  · rw [reads_get, reads_append, reads_tickEvents, reads_get, reads_tickEvents, h]
    rfl

theorem recvBit_fail (D : Dut σ) (s : Sim σ) (j acc : Nat)
    (h : txAt D s (j + 1) ≠ !txAt D s j) :
    ((do
        let bit ← getSigU32 D .daliTX
        let result := (acc <<< 1) % 2 ^ 32
        let result := result ||| bit
        waitBitTime D
        cxxrtlAssertU32 D .daliTX (bit ^^^ 1)
        waitBitTime D
        pure result : Harness σ Nat) (ticks D (3 + j * bitTime) s)).isOk = false := by
  have h1 : D.read .daliTX (ticks D (3 + (j + 1) * bitTime) s).dut ≠ !txAt D s j := h
  have h2 : D.read .daliTX (ticks D (3 + j * bitTime) s).dut = txAt D s j := rfl
  simp only [bind_run, getSigU32, andThen_ok, waitBitTime_run, prepend_ok, prepend_prepend,
    ticks_boundary, pure_run, h2]
  rw [cxxrtlAssertU32_fail D .daliTX _ _ h1]
  rfl


theorem recvBits_pass (D : Dut σ) (s : Sim σ) (n i j acc : Nat)
    (h : ∀ k, k < n → txAt D s (j + 2 * k + 1) = !txAt D s (j + 2 * k)) :
    ∃ l, loopFrom (fun _ result => (do
        let bit ← getSigU32 D .daliTX
        let result := (result <<< 1) % 2 ^ 32
        let result := result ||| bit
        waitBitTime D
        cxxrtlAssertU32 D .daliTX (bit ^^^ 1)
        waitBitTime D
        pure result : Harness σ Nat)) n i acc (ticks D (3 + j * bitTime) s)
      = .ok (decodeFrom (txAt D s) n j acc) (ticks D (3 + (j + 2 * n) * bitTime) s) l ∧
      reads .daliTX l = (List.range' j (2 * n)).map (txAt D s) := by
  induction n generalizing i j acc with
  | zero => exact ⟨[], rfl, rfl⟩
  | succ n ih =>
    obtain ⟨l1, h1, r1⟩ := recvBit_pass D s j acc (h 0 (Nat.succ_pos n))
    have h' : ∀ k, k < n → txAt D s (j + 2 + 2 * k + 1) = !txAt D s (j + 2 + 2 * k) := by
      intro k hk
      have e : j + 2 + 2 * k = j + 2 * (k + 1) := by omega
      rw [e]
      exact h (k + 1) (Nat.succ_lt_succ hk)
    obtain ⟨l2, h2, r2⟩ := ih (i + 1) (j + 2) (shiftIn acc (txAt D s j)) h'
    refine ⟨l1 ++ l2, ?_, ?_⟩
    · rw [loopFrom, bind_run, h1, andThen_ok, h2, prepend_ok, decodeFrom]
      have e : j + 2 + 2 * n = j + 2 * (n + 1) := by omega
      rw [e]
    · have e : 2 * (n + 1) = 2 * n + 1 + 1 := by omega
      rw [reads_append, r1, r2, e, List.range'_succ, List.range'_succ]
      rfl

theorem recvBits_fail (D : Dut σ) (s : Sim σ) (n i j acc : Nat)
    (h : ∃ k, k < n ∧ txAt D s (j + 2 * k + 1) ≠ !txAt D s (j + 2 * k)) :
    (loopFrom (fun _ result => (do
        let bit ← getSigU32 D .daliTX
        let result := (result <<< 1) % 2 ^ 32
        let result := result ||| bit
        waitBitTime D
        cxxrtlAssertU32 D .daliTX (bit ^^^ 1)
        waitBitTime D
        pure result : Harness σ Nat)) n i acc (ticks D (3 + j * bitTime) s)).isOk = false := by
  induction n generalizing i j acc with
  | zero =>
    obtain ⟨k, hk, _⟩ := h
    exact absurd hk (Nat.not_lt_zero k)
  | succ n ih =>
    by_cases h0 : txAt D s (j + 1) = !txAt D s j
    · obtain ⟨l1, h1, _⟩ := recvBit_pass D s j acc h0
      obtain ⟨k, hk, hne⟩ := h
      have hk0 : k ≠ 0 := by
        intro e
        rw [e] at hne
        exact hne h0
      obtain ⟨m, rfl⟩ := Nat.exists_eq_succ_of_ne_zero hk0
      have e : j + 2 * (m + 1) = j + 2 + 2 * m := by omega
      rw [e] at hne
      have h2 := ih (i + 1) (j + 2) (shiftIn acc (txAt D s j))
        ⟨m, Nat.lt_of_succ_lt_succ hk, hne⟩
      rw [loopFrom, bind_run, h1, andThen_ok, prepend_isOk, h2]
    · have h1 := recvBit_fail D s j acc h0
      rw [loopFrom, bind_run]
      revert h1
      generalize (do
        let bit ← getSigU32 D .daliTX
        let result := (acc <<< 1) % 2 ^ 32
        let result := result ||| bit
        waitBitTime D
        cxxrtlAssertU32 D .daliTX (bit ^^^ 1)
        waitBitTime D
        pure result : Harness σ Nat) (ticks D (3 + j * bitTime) s) = r
      intro h1
      cases r with
      | ok a s1 l1 => exact absurd h1 (by simp [Run.isOk])
      | fault s1 l1 => rfl

theorem reads_nil (sig : OutSig) : reads sig [] = [] := rfl

theorem recvResponse_pass (D : Dut σ) (s : Sim σ) (h : RecvGood D s) :
    ∃ l, recvResponse D s
        = .ok (decodeFrom (txAt D s) 8 2 0 % 2 ^ 8) (ticks D 9155 s) l ∧
      reads .daliTX l = (List.range 19).map (txAt D s) := by
  obtain ⟨h0, h1, hb, h18⟩ := h
  have e0 : tick D (tick D (tick D s)) = ticks D (3 + 0 * bitTime) s := rfl
  have a0 : D.read .daliTX (ticks D (3 + 0 * bitTime) s).dut = false := h0
  have a1 : D.read .daliTX (ticks D (3 + (0 + 1) * bitTime) s).dut = true := h1
  have hb' : ∀ k, k < 8 → txAt D s (2 + 2 * k + 1) = !txAt D s (2 + 2 * k) := by
    intro k hk
    have e : 2 + 2 * k + 1 = 3 + 2 * k := by omega
    rw [e]
    exact hb k hk
  obtain ⟨lb, hl, rl⟩ := recvBits_pass D s 8 0 2 0 hb'
  have a18 : D.read .daliTX (ticks D (3 + (2 + 2 * 8) * bitTime) s).dut = true := h18
  have e9 : 3 + (2 + 2 * 8 + 1 + 1 + 1 + 1) * bitTime = 9155 := by decide
  have er : List.range 19 = 0 :: 1 :: (List.range' 2 (2 * 8) ++ [18]) := by decide
  unfold recvResponse indexSequence
  simp only [bind_run, cycleClock_run, andThen_ok, prepend_ok, prepend_prepend, e0]
  rw [cxxrtlAssert_pass D _ _ _ a0]
  simp only [bind_run, andThen_ok, prepend_ok, prepend_prepend, waitBitTime_run, ticks_boundary]
  rw [cxxrtlAssert_pass D _ _ _ a1]
  simp only [bind_run, andThen_ok, prepend_ok, prepend_prepend, waitBitTime_run, ticks_boundary,
    Nat.reduceAdd, hl]
  rw [cxxrtlAssert_pass D _ _ _ a18]
  simp only [bind_run, andThen_ok, prepend_ok, prepend_prepend, waitBitTime_run, ticks_boundary,
    Nat.reduceAdd, pure_run]
  rw [e9]
  refine ⟨_, rfl, ?_⟩
  simp only [reads_append, reads_cycleEvents, reads_tickEvents, reads_get, reads_nil, rl, er,
    List.map_cons, List.map_append, List.map_nil, h0, h1, h18, List.append_nil,
    List.nil_append, List.cons_append]

theorem recvResponse_fail (D : Dut σ) (s : Sim σ) (h : ¬RecvGood D s) :
    (recvResponse D s).isOk = false := by
  have e0 : tick D (tick D (tick D s)) = ticks D (3 + 0 * bitTime) s := rfl
  unfold recvResponse indexSequence
  simp only [bind_run, cycleClock_run, andThen_ok, prepend_ok, prepend_prepend, e0,
    prepend_isOk]
  by_cases h0 : txAt D s 0 = false
  · have a0 : D.read .daliTX (ticks D (3 + 0 * bitTime) s).dut = false := h0
    rw [cxxrtlAssert_pass D _ _ _ a0]
    simp only [bind_run, andThen_ok, prepend_ok, prepend_prepend, waitBitTime_run,
      ticks_boundary, prepend_isOk]
    by_cases h1 : txAt D s 1 = true
    · have a1 : D.read .daliTX (ticks D (3 + (0 + 1) * bitTime) s).dut = true := h1
      rw [cxxrtlAssert_pass D _ _ _ a1]
      simp only [bind_run, andThen_ok, prepend_ok, prepend_prepend, waitBitTime_run,
        ticks_boundary, Nat.reduceAdd, prepend_isOk]
      by_cases hb : ∀ k, k < 8 → txAt D s (2 + 2 * k + 1) = !txAt D s (2 + 2 * k)
      · obtain ⟨lb, hl, _⟩ := recvBits_pass D s 8 0 2 0 hb
        have h18 : txAt D s 18 ≠ true := by
          intro h18
          refine h ⟨h0, h1, ?_, h18⟩
          intro k hk
          have e : 3 + 2 * k = 2 + 2 * k + 1 := by omega
          rw [e]
          exact hb k hk
        have a18 : D.read .daliTX (ticks D (3 + (2 + 2 * 8) * bitTime) s).dut ≠ true := h18
        rw [hl]
        simp only [andThen_ok, prepend_isOk, bind_run]
        rw [cxxrtlAssert_fail D _ _ _ a18]
        rfl
      · have hb' : ∃ k, k < 8 ∧ txAt D s (2 + 2 * k + 1) ≠ !txAt D s (2 + 2 * k) := by
          by_contra hc
          apply hb
          intro k hk
          by_contra hne
          exact hc ⟨k, hk, hne⟩
        have hf := recvBits_fail D s 8 0 2 0 hb'
        revert hf
        generalize loopFrom _ 8 0 0 (ticks D (3 + 2 * bitTime) s) = r
        intro hf
        cases r with
        | ok a s1 l1 => exact absurd hf (by simp [Run.isOk])
        | fault s1 l1 => rfl
    · have a1 : D.read .daliTX (ticks D (3 + (0 + 1) * bitTime) s).dut ≠ true := h1
      rw [cxxrtlAssert_fail D _ _ _ a1]
      rfl
  · have a0 : D.read .daliTX (ticks D (3 + 0 * bitTime) s).dut ≠ false := h0
    rw [cxxrtlAssert_fail D _ _ _ a0]
    rfl


theorem decode_byte (b0 b1 b2 b3 b4 b5 b6 b7 : Bool) :
    shiftIn (shiftIn (shiftIn (shiftIn (shiftIn (shiftIn (shiftIn (shiftIn 0 b0) b1) b2) b3) b4)
        b5) b6) b7
      = 128 * b0.toNat + 64 * b1.toNat + 32 * b2.toNat + 16 * b3.toNat + 8 * b4.toNat
        + 4 * b5.toNat + 2 * b6.toNat + b7.toNat := by
  cases b0 <;> cases b1 <;> cases b2 <;> cases b3 <;> cases b4 <;> cases b5 <;> cases b6 <;>
    cases b7 <;> decide

theorem decode_lt (tx : Nat → Bool) : decodeFrom tx 8 2 0 < 256 := by
  simp only [decodeFrom, decode_byte, Nat.reduceAdd]
  have h : ∀ b : Bool, b.toNat ≤ 1 := fun b => by cases b <;> decide
  have := h (tx 2)
  have := h (tx 4)
  have := h (tx 6)
  have := h (tx 8)
  have := h (tx 10)
  have := h (tx 12)
  have := h (tx 14)
  have := h (tx 16)
  omega

theorem decode_testBit (tx : Nat → Bool) (k : Nat) (hk : k < 8) :
    (decodeFrom tx 8 2 0).testBit (7 - k) = tx (2 + 2 * k) := by
  simp only [decodeFrom, decode_byte, Nat.reduceAdd]
  interval_cases k <;> simp only [Nat.reduceAdd, Nat.reduceMul, Nat.reduceSub] <;>
    cases tx 2 <;> cases tx 4 <;> cases tx 6 <;> cases tx 8 <;> cases tx 10 <;> cases tx 12 <;>
    cases tx 14 <;> cases tx 16 <;> decide


/-! ## The scripted model -/

theorem scripted_tick (lv : List Bool) (s : Sim Nat) :
    (tick (scriptedDut lv) s).dut = s.dut + 2 := rfl

theorem scripted_ticks (lv : List Bool) (n : Nat) (s : Sim Nat) :
    (ticks (scriptedDut lv) n s).dut = s.dut + 2 * n := by
  induction n generalizing s with
  | zero => rfl
  | succ n ih =>
    rw [ticks_succ, ih, scripted_tick]
    omega

theorem scripted_txAt (lv : List Bool) (j : Nat) :
    txAt (scriptedDut lv) (mainStart (scriptedDut lv)) j = lv.getD j true := by
  have e : (0 + 2 * (3 + j * bitTime) - 6) / 832 = j := by
    rw [bitTime_eq]
    omega
  unfold txAt
  rw [scripted_ticks]
  show lv.getD ((0 + 2 * (3 + j * bitTime) - 6) / 832) true = _
  rw [e]

theorem answerFive_good :
    RecvGood (scriptedDut answerFive) (mainStart (scriptedDut answerFive)) := by
  refine ⟨?_, ?_, ?_, ?_⟩
  · rw [scripted_txAt]; rfl
  · rw [scripted_txAt]; rfl
  · intro k hk
    rw [scripted_txAt, scripted_txAt]
    interval_cases k <;> rfl
  · rw [scripted_txAt]; rfl

theorem answerFive_decodes :
    decodeFrom (txAt (scriptedDut answerFive) (mainStart (scriptedDut answerFive))) 8 2 0 = 5 := by
  simp only [decodeFrom, scripted_txAt, Nat.reduceAdd]
  decide

theorem isOk_of_good (D : Dut σ) (s : Sim σ) (h : RecvGood D s) :
    (recvResponse D s).isOk = true := by
  obtain ⟨l, hl, _⟩ := recvResponse_pass D s h
  rw [hl]
  rfl

theorem good_of_isOk (D : Dut σ) (s : Sim σ) (h : (recvResponse D s).isOk = true) :
    RecvGood D s := by
  by_contra hn
  rw [recvResponse_fail D s hn] at h
  exact Bool.noConfusion h

/-! ## C2 to C5: the receiver -/

/-- C2: whenever `recvResponse` completes, it read the line at the 19 bit-time
boundaries `0..18` (three clock cycles after entry, then one per bit time);
bit `7 - k` of the returned byte is the sample at the start of response bit
period `k` (boundary `2 + 2k`), the sample one bit time later is its
complement, and the accumulated 32-bit value is below 256, so the returned
byte is that value unchanged. -/
theorem recvResponse_returns_sampled_bits (D : Dut σ) (s : Sim σ)
    (h : (recvResponse D s).isOk = true) :
    ∃ r s' l, recvResponse D s = .ok r s' l ∧
      reads .daliTX l = (List.range 19).map (txAt D s) ∧
      (∀ k, k < 8 →
        r.testBit (7 - k) = txAt D s (2 + 2 * k) ∧
          txAt D s (3 + 2 * k) = !txAt D s (2 + 2 * k)) ∧
      decodeFrom (txAt D s) 8 2 0 < 256 ∧ r = decodeFrom (txAt D s) 8 2 0 := by
  have hg := good_of_isOk D s h
  obtain ⟨l, hl, hr⟩ := recvResponse_pass D s hg
  have hlt := decode_lt (txAt D s)
  have e : decodeFrom (txAt D s) 8 2 0 % 2 ^ 8 = decodeFrom (txAt D s) 8 2 0 :=
    Nat.mod_eq_of_lt hlt
  rw [e] at hl
  exact ⟨_, _, l, hl, hr, fun k hk => ⟨decode_testBit _ k hk, hg.2.2.1 k hk⟩, hlt, rfl⟩

/-- C2 at a concrete run: the scripted model answering 5. -/
theorem recvResponse_returns_sampled_bits_witness :
    (recvResponse (scriptedDut answerFive) (mainStart (scriptedDut answerFive))).isOk = true ∧
      ∃ r s' l,
        recvResponse (scriptedDut answerFive) (mainStart (scriptedDut answerFive)) = .ok r s' l ∧
        r = 5 ∧ (∀ k, k < 8 → r.testBit (7 - k) = answerFive.getD (2 + 2 * k) true) := by
  have hok := isOk_of_good _ _ answerFive_good
  obtain ⟨r, s', l, hl, _, hb, _, hr⟩ :=
    recvResponse_returns_sampled_bits (scriptedDut answerFive)
      (mainStart (scriptedDut answerFive)) hok
  refine ⟨hok, r, s', l, hl, hr.trans answerFive_decodes, ?_⟩
  intro k hk
  rw [(hb k hk).1, scripted_txAt]

/-- C3: `recvResponse` throws exactly when one of its eleven checks fails on
the line the model presents: not low three clock cycles after entry, not high
one bit time later, for some `k < 8` the second half of response bit `k` not
the complement of its first half, or not high one bit time after the last
complement check; otherwise it returns a byte. -/
theorem recvResponse_faults_iff_a_check_fails (D : Dut σ) (s : Sim σ) :
    ((∃ s' l, recvResponse D s = .fault s' l) ↔
      (txAt D s 0 ≠ false ∨ txAt D s 1 ≠ true ∨
        (∃ k, k < 8 ∧ txAt D s (3 + 2 * k) ≠ !txAt D s (2 + 2 * k)) ∨
        txAt D s 18 ≠ true)) ∧
    ((¬ ∃ s' l, recvResponse D s = .fault s' l) →
      ∃ r s' l, recvResponse D s = .ok r s' l ∧ r < 256) := by
  have key : (∃ s' l, recvResponse D s = .fault s' l) ↔ ¬RecvGood D s := by
    constructor
    · rintro ⟨s', l, hf⟩ hg
      have := isOk_of_good D s hg
      rw [hf] at this
      exact Bool.noConfusion this
    · intro hn
      have hf := recvResponse_fail D s hn
      cases hr : recvResponse D s with
      | ok a s1 l1 =>
        rw [hr] at hf
        exact Bool.noConfusion hf
      | fault s1 l1 => exact ⟨s1, l1, rfl⟩
  constructor
  · rw [key]
    unfold RecvGood
    constructor
    · intro hn
      by_contra hc
      simp only [not_or, not_exists, not_and, not_not] at hc
      exact hn ⟨hc.1, hc.2.1, hc.2.2.1, hc.2.2.2⟩
    · rintro (h | h | ⟨k, hk, h⟩ | h) hg
      · exact h hg.1
      · exact h hg.2.1
      · exact h (hg.2.2.1 k hk)
      · exact h hg.2.2.2
  · intro hn
    rw [key, not_not] at hn
    obtain ⟨l, hl, _⟩ := recvResponse_pass D s hn
    exact ⟨_, _, l, hl, Nat.mod_lt _ (by decide)⟩


theorem fault_of_not_good (D : Dut σ) (s : Sim σ) (hn : ¬RecvGood D s) :
    ∃ s' l, recvResponse D s = .fault s' l := by
  have hf := recvResponse_fail D s hn
  cases hr : recvResponse D s with
  | ok a s1 l1 =>
    rw [hr] at hf
    exact Bool.noConfusion hf
  | fault s1 l1 => exact ⟨s1, l1, rfl⟩

/-- C4: if `recvResponse` accepts the line one model presents, it throws on
any line that differs from it in exactly one of the 19 levels it examines
(boundaries `0..18`: the two start-bit halves, the value and complement halves
of the 8 response bits, the stop sample); so no byte is returned. -/
theorem recvResponse_rejects_single_flip {σ1 σ2 : Type} (D1 : Dut σ1) (s1 : Sim σ1)
    (D2 : Dut σ2) (s2 : Sim σ2) (i : Nat) (hi : i < 19)
    (hok : (recvResponse D1 s1).isOk = true)
    (hflip : ∀ j, j < 19 →
      txAt D2 s2 j = if j = i then !txAt D1 s1 j else txAt D1 s1 j) :
    (∃ s' l, recvResponse D2 s2 = .fault s' l) ∧
      ¬ ∃ r s' l, recvResponse D2 s2 = .ok r s' l := by
  obtain ⟨a0, a1, ab, a18⟩ := good_of_isOk D1 s1 hok
  have hn : ¬RecvGood D2 s2 := by
    rintro ⟨g0, g1, gb, g18⟩
    by_cases c0 : i = 0
    · have e := hflip 0 (by omega)
      rw [if_pos c0.symm, a0, g0] at e
      exact Bool.noConfusion e
    by_cases c1 : i = 1
    · have e := hflip 1 (by omega)
      rw [if_pos c1.symm, a1, g1] at e
      exact Bool.noConfusion e
    by_cases c18 : i = 18
    · have e := hflip 18 (by omega)
      rw [if_pos c18.symm, a18, g18] at e
      exact Bool.noConfusion e
    obtain ⟨k, hk, hik⟩ : ∃ k, k < 8 ∧ (i = 2 + 2 * k ∨ i = 3 + 2 * k) :=
      ⟨(i - 2) / 2, by omega, by omega⟩
    have e1 := hflip (2 + 2 * k) (by omega)
    have e2 := hflip (3 + 2 * k) (by omega)
    have ha := ab k hk
    have hg := gb k hk
    rcases hik with rfl | rfl
    · rw [if_pos rfl] at e1
      rw [if_neg (by omega)] at e2
      rw [e1, e2, ha] at hg
      cases h : txAt D1 s1 (2 + 2 * k) <;> rw [h] at hg <;> exact Bool.noConfusion hg
    · rw [if_neg (by omega)] at e1
      rw [if_pos rfl] at e2
      rw [e1, e2, ha] at hg
      cases h : txAt D1 s1 (2 + 2 * k) <;> rw [h] at hg <;> exact Bool.noConfusion hg
  obtain ⟨s', l, hf⟩ := fault_of_not_good D2 s2 hn
  refine ⟨⟨s', l, hf⟩, ?_⟩
  rintro ⟨r, s'', l', hr⟩
  rw [hf] at hr
  exact Run.noConfusion hr

/-- C4 at a concrete pair of runs: the answer 5, and the same line with the
complement half of response bit 2 flipped. -/
theorem recvResponse_rejects_single_flip_witness :
    (7 < 19 ∧
      (recvResponse (scriptedDut answerFive) (mainStart (scriptedDut answerFive))).isOk = true ∧
      (∀ j, j < 19 →
        txAt (scriptedDut answerFlipped) (mainStart (scriptedDut answerFlipped)) j
          = if j = 7 then !txAt (scriptedDut answerFive) (mainStart (scriptedDut answerFive)) j
            else txAt (scriptedDut answerFive) (mainStart (scriptedDut answerFive)) j)) ∧
    ((∃ s' l, recvResponse (scriptedDut answerFlipped) (mainStart (scriptedDut answerFlipped))
        = .fault s' l) ∧
      ¬ ∃ r s' l, recvResponse (scriptedDut answerFlipped) (mainStart (scriptedDut answerFlipped))
        = .ok r s' l) := by
  have hflip : ∀ j, j < 19 →
      txAt (scriptedDut answerFlipped) (mainStart (scriptedDut answerFlipped)) j
        = if j = 7 then !txAt (scriptedDut answerFive) (mainStart (scriptedDut answerFive)) j
          else txAt (scriptedDut answerFive) (mainStart (scriptedDut answerFive)) j := by
    intro j hj
    rw [scripted_txAt, scripted_txAt]
    interval_cases j <;> rfl
  have hok := isOk_of_good _ _ answerFive_good
  exact ⟨⟨by decide, hok, hflip⟩,
    recvResponse_rejects_single_flip _ _ _ _ 7 (by decide) hok hflip⟩

/-- C5, refuted as stated: a line that is low at boundary 19, one bit time
into the four-bit-time stop period, after a valid start bit and eight valid
response bits, is accepted: `recvResponse` returns 5. -/
theorem recvResponse_accepts_low_level_in_stop_period :
    txAt (scriptedDut answerThenLow) (mainStart (scriptedDut answerThenLow)) 19 = false ∧
      txAt (scriptedDut answerThenLow) (mainStart (scriptedDut answerThenLow)) 0 = false ∧
      txAt (scriptedDut answerThenLow) (mainStart (scriptedDut answerThenLow)) 1 = true ∧
      (∀ k, k < 8 →
        txAt (scriptedDut answerThenLow) (mainStart (scriptedDut answerThenLow)) (3 + 2 * k)
          = !txAt (scriptedDut answerThenLow) (mainStart (scriptedDut answerThenLow))
              (2 + 2 * k)) ∧
      ∃ s' l, recvResponse (scriptedDut answerThenLow) (mainStart (scriptedDut answerThenLow))
        = .ok 5 s' l := by
  have hb : ∀ k, k < 8 →
      txAt (scriptedDut answerThenLow) (mainStart (scriptedDut answerThenLow)) (3 + 2 * k)
        = !txAt (scriptedDut answerThenLow) (mainStart (scriptedDut answerThenLow))
            (2 + 2 * k) := by
    intro k hk
    rw [scripted_txAt, scripted_txAt]
    interval_cases k <;> rfl
  have h0 : txAt (scriptedDut answerThenLow) (mainStart (scriptedDut answerThenLow)) 0 = false := by
    rw [scripted_txAt]; rfl
  have h1 : txAt (scriptedDut answerThenLow) (mainStart (scriptedDut answerThenLow)) 1 = true := by
    rw [scripted_txAt]; rfl
  have h18 : txAt (scriptedDut answerThenLow) (mainStart (scriptedDut answerThenLow)) 18 = true := by
    rw [scripted_txAt]; rfl
  have h19 : txAt (scriptedDut answerThenLow) (mainStart (scriptedDut answerThenLow)) 19 = false := by
    rw [scripted_txAt]; rfl
  obtain ⟨l, hl, _⟩ := recvResponse_pass _ _ ⟨h0, h1, hb, h18⟩
  have e : decodeFrom (txAt (scriptedDut answerThenLow) (mainStart (scriptedDut answerThenLow)))
      8 2 0 % 2 ^ 8 = 5 := by
    simp only [decodeFrom, scripted_txAt, Nat.reduceAdd]
    decide
  rw [e] at hl
  exact ⟨h19, h0, h1, hb, _, l, hl⟩

/-- C5, amended: after a valid start bit and eight valid response bits,
`recvResponse` throws exactly when the line is low at boundary 18, the start
of the stop period.  When it returns it has read the line at the boundaries
`0..18` and nowhere else, and has then waited out the four stop bit times
(it ends `3 + 22 * 416` clock cycles after entry). -/
theorem recvResponse_checks_stop_level_once (D : Dut σ) (s : Sim σ)
    (h0 : txAt D s 0 = false) (h1 : txAt D s 1 = true)
    (hb : ∀ k, k < 8 → txAt D s (3 + 2 * k) = !txAt D s (2 + 2 * k)) :
    ((∃ s' l, recvResponse D s = .fault s' l) ↔ txAt D s 18 = false) ∧
    (∀ r s' l, recvResponse D s = .ok r s' l →
      reads .daliTX l = (List.range 19).map (txAt D s) ∧
        s' = ticks D (3 + 22 * (clkFrequency / bitRate)) s) := by
  constructor
  · constructor
    · rintro ⟨s', l, hf⟩
      by_contra hc
      have h18 : txAt D s 18 = true := by
        cases h : txAt D s 18
        · exact absurd h hc
        · rfl
      have := isOk_of_good D s ⟨h0, h1, hb, h18⟩
      rw [hf] at this
      exact Bool.noConfusion this
    · intro h18
      apply fault_of_not_good
      rintro ⟨_, _, _, g18⟩
      rw [h18] at g18
      exact Bool.noConfusion g18
  · intro r s' l hr
    have hg := good_of_isOk D s (by rw [hr]; rfl)
    obtain ⟨l2, hl, hreads⟩ := recvResponse_pass D s hg
    rw [hr] at hl
    injection hl with _ hs hl'
    rw [hl', hs]
    exact ⟨hreads, rfl⟩

/-- C5 amended, at a concrete run: the answer 5 followed by a low level inside
the stop period is not a fault. -/
theorem recvResponse_checks_stop_level_once_witness :
    txAt (scriptedDut answerThenLow) (mainStart (scriptedDut answerThenLow)) 18 = true ∧
      ¬ ∃ s' l, recvResponse (scriptedDut answerThenLow) (mainStart (scriptedDut answerThenLow))
        = .fault s' l := by
  have hb : ∀ k, k < 8 →
      txAt (scriptedDut answerThenLow) (mainStart (scriptedDut answerThenLow)) (3 + 2 * k)
        = !txAt (scriptedDut answerThenLow) (mainStart (scriptedDut answerThenLow))
            (2 + 2 * k) := by
    intro k hk
    rw [scripted_txAt, scripted_txAt]
    interval_cases k <;> rfl
  have h18 : txAt (scriptedDut answerThenLow) (mainStart (scriptedDut answerThenLow)) 18 = true := by
    rw [scripted_txAt]; rfl
  refine ⟨h18, ?_⟩
  intro hf
  have h := ((recvResponse_checks_stop_level_once (scriptedDut answerThenLow)
    (mainStart (scriptedDut answerThenLow)) (by rw [scripted_txAt]; rfl)
    (by rw [scripted_txAt]; rfl) hb).1).1 hf
  rw [h18] at h
  exact Bool.noConfusion h


/-! ## Completion of sequenced actions -/

theorem isOk_bind (x : Harness σ α) (f : α → Harness σ β) (s : Sim σ) :
    ((x >>= f) s).isOk = true ↔ ∃ a s1 l1, x s = .ok a s1 l1 ∧ (f a s1).isOk = true := by
  rw [bind_run]
  cases hx : x s with
  | ok a s1 l1 =>
    rw [andThen_ok, prepend_isOk]
    constructor
    · intro h
      exact ⟨a, s1, l1, rfl, h⟩
    · rintro ⟨a', s1', l1', he, h⟩
      injection he with ha hs _
      rw [ha, hs]
      exact h
  | fault s1 l1 =>
    rw [andThen_fault]
    constructor
    · intro h
      exact Bool.noConfusion h
    · rintro ⟨a', s1', l1', he, _⟩
      exact Run.noConfusion he

theorem isOk_bind_cycleClock (D : Dut σ) (f : Unit → Harness σ β) (s : Sim σ) :
    ((cycleClock D >>= f) s).isOk = (f () (tick D s)).isOk := by
  rw [bind_run, cycleClock_run, andThen_ok, prepend_isOk]

theorem isOk_bind_cxxrtlAssert (D : Dut σ) (sig : OutSig) (v : Bool) (f : Unit → Harness σ β)
    (s : Sim σ) :
    ((cxxrtlAssert D sig v >>= f) s).isOk = true
      ↔ D.read sig s.dut = v ∧ (f () s).isOk = true := by
  rw [bind_run]
  by_cases h : D.read sig s.dut = v
  · rw [cxxrtlAssert_pass D sig v s h, andThen_ok, prepend_isOk]
    exact ⟨fun hf => ⟨h, hf⟩, fun hf => hf.2⟩
  · rw [cxxrtlAssert_fail D sig v s h, andThen_fault]
    exact ⟨fun hf => Bool.noConfusion hf, fun hf => absurd hf.1 h⟩

theorem isOk_bind_throwIf (c : Bool) (f : Unit → Harness σ β) (s : Sim σ) :
    ((throwIf c >>= f) s).isOk = true ↔ c = false ∧ (f () s).isOk = true := by
  rw [bind_run]
  cases c
  · show ((f () s).prepend []).isOk = true ↔ _
    rw [prepend_isOk]
    exact ⟨fun hf => ⟨rfl, hf⟩, fun hf => hf.2⟩
  · exact ⟨fun hf => Bool.noConfusion hf, fun hf => Bool.noConfusion hf.1⟩

/-! ## Runs that leave the inputs alone -/

/-- The quiet relation is closed under sequencing. -/
def quietInv (D : Dut σ) : Inv σ where
  rel := quietRel D
  nil := fun _ => rfl
  append := by
    intro s l1 s1 l2 b s2 h1 h2
    unfold quietRel at *
    rw [h2, h1, cycles_append, ticks_add]

theorem quietInv_base (D : Dut σ) : (quietInv D).Base D (fun _ => False) (fun _ => True) where
  cycle := ⟨fun s => by
    rw [cycleClock_run]
    show tick D s = ticks D (cycles (cycleEvents s.timestamp)) s
    rw [cycles_cycleEvents]
    rfl⟩
  set := fun _ _ h => False.elim h
  get := fun _ _ => ⟨fun _ => rfl⟩
  getU32 := fun _ _ => ⟨fun _ => rfl⟩
  raise := fun _ => ⟨fun _ => rfl⟩

theorem readSPI_final (D : Dut σ) (s s' : Sim σ) (r : Nat) (l : List Event)
    (h : readSPI D s = .ok r s' l) : s' = ticks D 16 s := by
  have hq := (sat_readSPI (quietInv_base D) trivial trivial).run s
  have hc := (costs_readSPI D).eq s (by rw [h]; rfl)
  rw [h] at hq hc
  simp only [Run.events] at hc
  have hq' : s' = ticks D (cycles l) s := hq
  rw [hq', hc]

theorem isOk_bind_readSPI (D : Dut σ) (f : Nat → Harness σ β) (s : Sim σ) :
    ((readSPI D >>= f) s).isOk = true
      ↔ ∃ r, (∃ sa la, readSPI D s = .ok r sa la) ∧ (f r (ticks D 16 s)).isOk = true := by
  rw [isOk_bind]
  constructor
  · rintro ⟨r, sa, la, hr, hf⟩
    have e := readSPI_final D s sa r la hr
    rw [e] at hf
    exact ⟨r, ⟨sa, la, hr⟩, hf⟩
  · rintro ⟨r, ⟨sa, la, hr⟩, hf⟩
    have e := readSPI_final D s sa r la hr
    rw [← e] at hf
    exact ⟨r, sa, la, hr, hf⟩



theorem isOk_cycleClock (D : Dut σ) (s : Sim σ) : (cycleClock D s).isOk = true := rfl

theorem tick_eq_ticks (D : Dut σ) (s : Sim σ) : tick D s = ticks D 1 s := rfl

theorem ticks_ticks (D : Dut σ) (m n : Nat) (s : Sim σ) :
    ticks D n (ticks D m s) = ticks D (m + n) s :=
  (ticks_add D m n s).symm

theorem nat_bne_false (a b : Nat) : ((a != b) = false) = (a = b) := by
  simp

theorem writeAddress_isOk (D : Dut σ) (addr : Nat) (s : Sim σ) :
    (writeAddress D addr s).isOk = true ↔
      D.framCS (ticks D 1 s).dut = true ∧
      (∃ sa la, readSPI D (ticks D 3 s) = .ok 3 sa la) ∧
      (∃ sb lb, readSPI D (ticks D 21 s) = .ok ((addr >>> 8) % 2 ^ 8) sb lb) ∧
      (∃ sc lc, readSPI D (ticks D 39 s) = .ok ((addr &&& 0xFF) % 2 ^ 8) sc lc) ∧
      (∃ sw lw, writeSPI D ((addr + 5) % 2 ^ 32 % 2 ^ 8) (ticks D 57 s) = .ok () sw lw ∧
        D.framCS (ticks D 1 sw).dut = false) := by
  unfold writeAddress
  simp only [isOk_bind_cycleClock, isOk_bind_cxxrtlAssert, isOk_bind_readSPI,
    isOk_bind_throwIf, tick_eq_ticks, ticks_ticks, Nat.reduceAdd, nat_bne_false]
  rw [isOk_bind]
  simp only [isOk_bind_cycleClock, isOk_bind_cxxrtlAssert, isOk_cycleClock, tick_eq_ticks,
    and_true]
  constructor
  · rintro ⟨h1, _, ha, rfl, _, hb, rfl, _, hc, rfl, _, sw, lw, hw, h2⟩
    exact ⟨h1, ha, hb, hc, sw, lw, hw, h2⟩
  · rintro ⟨h1, ha, hb, hc, sw, lw, hw, h2⟩
    exact ⟨h1, _, ha, rfl, _, hb, rfl, _, hc, rfl, (), sw, lw, hw, h2⟩

theorem bind_eq_ok (x : Harness σ α) (f : α → Harness σ β) (s s2 : Sim σ) (b : β)
    (l : List Event) (h : (x >>= f) s = .ok b s2 l) :
    ∃ a s1 l1 l2, x s = .ok a s1 l1 ∧ f a s1 = .ok b s2 l2 ∧ l = l1 ++ l2 := by
  rw [bind_run] at h
  cases hx : x s with
  | ok a s1 l1 =>
    rw [hx, andThen_ok] at h
    cases hf : f a s1 with
    | ok b' s2' l2 =>
      rw [hf, prepend_ok] at h
      injection h with hb hs hl
      exact ⟨a, s1, l1, l2, rfl, by rw [hf, hb, hs], hl.symm⟩
    | fault s2' l2 =>
      rw [hf, prepend_fault] at h
      exact Run.noConfusion h
  | fault s1 l1 =>
    rw [hx, andThen_fault] at h
    exact Run.noConfusion h

theorem cxxrtlAssert_eq_ok (D : Dut σ) (sig : OutSig) (v : Bool) (s s' : Sim σ)
    (l : List Event) (h : cxxrtlAssert D sig v s = .ok () s' l) :
    D.read sig s.dut = v ∧ s' = s ∧ l = [.get sig v] := by
  by_cases c : D.read sig s.dut = v
  · rw [cxxrtlAssert_pass D sig v s c] at h
    injection h with _ hs hl
    exact ⟨c, hs.symm, hl.symm⟩
  · rw [cxxrtlAssert_fail D sig v s c] at h
    exact Run.noConfusion h

theorem setSigU32_spi_bit (data k : Nat) :
    (setSigU32 .framCIPO ((data >>> (7 - k)) &&& 1) : Harness σ Unit)
      = setSig .framCIPO (decide ((data >>> (7 - k)) &&& 1 = 1)) := by
  unfold setSigU32
  rcases and_one_cases (data >>> (7 - k)) with h | h <;> rw [h]

theorem writes_get (sig : InSig) (g : OutSig) (v : Bool) (l : List Event) :
    writes sig (.get g v :: l) = writes sig l := rfl

theorem writes_set_self (sig : InSig) (v : Bool) (l : List Event) :
    writes sig (.set sig v :: l) = v :: writes sig l := by
  simp [writes]

theorem writes_nil (sig : InSig) : writes sig [] = [] := rfl

theorem writeBit_writes (D : Dut σ) (data k : Nat) (s s1 : Sim σ) (l1 : List Event)
    (h : (do
        cycleClock D
        cxxrtlAssert D .framClk false
        setSigU32 .framCIPO ((data >>> (7 - k)) &&& 1)
        cycleClock D
        cxxrtlAssert D .framClk true : Harness σ Unit) s = .ok () s1 l1) :
    writes .framCIPO l1 = [decide ((data >>> (7 - k)) &&& 1 = 1)] := by
  obtain ⟨_, sa, la, lb, ha, hb, rfl⟩ := bind_eq_ok _ _ _ _ _ _ h
  obtain ⟨_, sb, lb1, lc, hb1, hc, rfl⟩ := bind_eq_ok _ _ _ _ _ _ hb
  obtain ⟨_, sc, lc1, ld, hc1, hd, rfl⟩ := bind_eq_ok _ _ _ _ _ _ hc
  obtain ⟨_, sd, ld1, le, hd1, he, rfl⟩ := bind_eq_ok _ _ _ _ _ _ hd
  rw [cycleClock_run] at ha hd1
  injection ha with _ _ hla
  injection hd1 with _ _ hld
  obtain ⟨_, _, hlb⟩ := cxxrtlAssert_eq_ok _ _ _ _ _ _ hb1
  obtain ⟨_, _, hle⟩ := cxxrtlAssert_eq_ok _ _ _ _ _ _ he
  rw [setSigU32_spi_bit] at hc1
  injection hc1 with _ _ hlc
  rw [← hla, hlb, ← hlc, ← hld, hle]
  simp only [writes_append, writes_cycleEvents _ (by decide : InSig.framCIPO ≠ InSig.clk),
    writes_get, writes_set_self, writes_nil, List.nil_append, List.append_nil]

theorem writeSPI_loop_writes (D : Dut σ) (data n i : Nat) (s s' : Sim σ) (l : List Event)
    (h : loopFrom (fun bit (_ : Unit) => (do
        cycleClock D
        cxxrtlAssert D .framClk false
        setSigU32 .framCIPO ((data >>> (7 - bit)) &&& 1)
        cycleClock D
        cxxrtlAssert D .framClk true : Harness σ Unit)) n i () s = .ok () s' l) :
    writes .framCIPO l
      = (List.range' i n).map (fun k => decide ((data >>> (7 - k)) &&& 1 = 1)) := by
  induction n generalizing i s l with
  | zero =>
    injection h with _ _ hl
    rw [← hl]
    rfl
  | succ n ih =>
    rw [loopFrom] at h
    obtain ⟨_, s1, l1, l2, h1, h2, rfl⟩ := bind_eq_ok _ _ _ _ _ _ h
    rw [writes_append, writeBit_writes D data i s s1 l1 h1, ih (i + 1) s1 l2 h2,
      List.range'_succ]
    rfl

theorem writeSPI_writes (D : Dut σ) (data : Nat) (s s' : Sim σ) (l : List Event)
    (h : writeSPI D data s = .ok () s' l) :
    writes .framCIPO l
      = (List.range 8).map (fun k => decide ((data >>> (7 - k)) &&& 1 = 1)) := by
  rw [List.range_eq_range']
  exact writeSPI_loop_writes D data 8 0 s s' l h

/-! ## C6: the memory-write frame -/

/-- C6: for `addr` in `[0, 65535]`, `writeAddress(addr)` completes exactly when:
chip-select reads true after the first clock cycle; the three `readSPI` calls
(entered 3, 21 and 39 clock cycles in) return 3, `addr >> 8` and `addr & 0xFF`;
the `writeSPI` of `(addr + 5) mod 256` (entered 57 clock cycles in) completes;
and chip-select reads false one clock cycle after it.  That `writeSPI` drives
the 8 bits of `(addr + 5) mod 256`, most significant first.  A completing run
makes 75 `cycleClock` calls; in every other case `writeAddress` throws. -/
theorem writeAddress_frames_the_write (D : Dut σ) (addr : Nat) (s : Sim σ)
    (haddr : addr < 65536) :
    ((writeAddress D addr s).isOk = true ↔
      D.framCS (ticks D 1 s).dut = true ∧
      (∃ sa la, readSPI D (ticks D 3 s) = .ok 3 sa la) ∧
      (∃ sb lb, readSPI D (ticks D 21 s) = .ok (addr >>> 8) sb lb) ∧
      (∃ sc lc, readSPI D (ticks D 39 s) = .ok (addr &&& 0xFF) sc lc) ∧
      (∃ sw lw, writeSPI D ((addr + 5) % 256) (ticks D 57 s) = .ok () sw lw ∧
        writes .framCIPO lw
          = (List.range 8).map (fun k => decide ((((addr + 5) % 256) >>> (7 - k)) &&& 1 = 1)) ∧
        D.framCS (ticks D 1 sw).dut = false)) ∧
    ((writeAddress D addr s).isOk = false ↔ ∃ s' l, writeAddress D addr s = .fault s' l) ∧
    (∀ s' l, writeAddress D addr s = .ok () s' l → cycles l = 75) := by
  have e1 : (addr >>> 8) % 2 ^ 8 = addr >>> 8 := by
    rw [Nat.shiftRight_eq_div_pow]
    omega
  have e2 : (addr &&& 0xFF) % 2 ^ 8 = addr &&& 0xFF :=
    Nat.mod_eq_of_lt (Nat.lt_of_le_of_lt Nat.and_le_right (by decide))
  have e3 : (addr + 5) % 2 ^ 32 % 2 ^ 8 = (addr + 5) % 256 := by omega
  refine ⟨?_, ?_, ?_⟩
  · rw [writeAddress_isOk, e1, e2, e3]
    constructor
    · rintro ⟨h1, ha, hb, hc, sw, lw, hw, h2⟩
      exact ⟨h1, ha, hb, hc, sw, lw, hw, writeSPI_writes D _ _ _ _ hw, h2⟩
    · rintro ⟨h1, ha, hb, hc, sw, lw, hw, _, h2⟩
      exact ⟨h1, ha, hb, hc, sw, lw, hw, h2⟩
  · cases writeAddress D addr s with
    | ok a s1 l1 =>
      exact ⟨fun h => Bool.noConfusion h, fun ⟨_, _, h⟩ => Run.noConfusion h⟩
    | fault s1 l1 => exact ⟨fun _ => ⟨s1, l1, rfl⟩, fun _ => rfl⟩
  · intro s' l h
    have hc := (costs_writeAddress D addr).eq s (by rw [h]; rfl)
    rw [h] at hc
    exact hc

/-- C6 at a concrete run: `writeAddress(0x0102)` on the memory-bus model. -/
theorem writeAddress_frames_the_write_witness :
    258 < 65536 ∧ (writeAddress framDut 258 (mainStart framDut)).isOk = true ∧
      (∃ sa la, readSPI framDut (ticks framDut 3 (mainStart framDut)) = .ok 3 sa la) ∧
      (∃ sb lb, readSPI framDut (ticks framDut 21 (mainStart framDut)) = .ok 1 sb lb) ∧
      (∃ sc lc, readSPI framDut (ticks framDut 39 (mainStart framDut)) = .ok 2 sc lc) ∧
      (∃ sw lw, writeSPI framDut 7 (ticks framDut 57 (mainStart framDut)) = .ok () sw lw ∧
        writes .framCIPO lw = [false, false, false, false, false, true, true, true]) := by
  have hok : (writeAddress framDut 258 (mainStart framDut)).isOk = true := by decide!
  obtain ⟨_, ha, hb, hc, sw, lw, hw, hbits, _⟩ :=
    (writeAddress_frames_the_write framDut 258 (mainStart framDut) (by decide)).1.1 hok
  exact ⟨by decide, hok, ha, hb, hc, sw, lw, hw, hbits⟩


/-! ## Monad laws -/

theorem prepend_andThen (l : List Event) (r : Run σ α) (f : α → Harness σ β) :
    (r.prepend l).andThen f = (r.andThen f).prepend l := by
  cases r <;> simp

theorem bind_assoc_h (x : Harness σ α) (f : α → Harness σ β) (g : β → Harness σ γ) :
    (x >>= f) >>= g = x >>= fun a => f a >>= g := by
  funext s
  simp only [bind_run]
  cases x s with
  | ok a s1 l1 => simp only [andThen_ok, prepend_andThen, bind_run]
  | fault s1 l1 => rfl

theorem pure_bind_h (a : α) (f : α → Harness σ β) : (pure a : Harness σ α) >>= f = f a := by
  funext s
  simp only [bind_run, pure_run, andThen_ok, prepend_nil]

theorem runAll_append (xs ys : List (Harness σ Unit)) :
    runAll (xs ++ ys) = runAll xs >>= fun _ => runAll ys := by
  induction xs with
  | nil => rw [List.nil_append, runAll, pure_bind_h]
  | cons x xs ih =>
    rw [List.cons_append, runAll, runAll, ih, bind_assoc_h]

theorem loop_eq_runAll (g : Nat → Harness σ Unit) (n i : Nat) :
    loopFrom (fun k (_ : Unit) => g k) n i () = runAll ((List.range' i n).map g) := by
  induction n generalizing i with
  | zero => rfl
  | succ n ih =>
    rw [loopFrom, List.range'_succ, List.map_cons, runAll]
    simp only [ih]

theorem mainBody_eq_scenario (D : Dut σ) : mainBody D = scenario D := by
  have hA : (List.range' 0 25).map (fun i => writeAddress D (i % 2 ^ 32))
      = (List.range 25).map (writeAddress D) := by
    rw [List.range_eq_range']
    apply List.map_congr_left
    intro a ha
    have : a < 25 := by
      have := (List.mem_range'_1.mp ha).2
      omega
    rw [Nat.mod_eq_of_lt (by omega)]
  have hS : (List.range' 0 16).map (fun scene => (do
        sendCommand D ((0b1111111110110000 + scene) % 2 ^ 16)
        throwIf ((← recvResponse D) != 0xB + scene) : Harness σ Unit))
      = (List.range 16).map (fun scene => transact D (0b1111111110110000 + scene, 0x0B + scene)) := by
    rw [List.range_eq_range']
    apply List.map_congr_left
    intro a ha
    have : a < 16 := by
      have := (List.mem_range'_1.mp ha).2
      omega
    rw [Nat.mod_eq_of_lt (by omega)]
    rfl
  unfold mainBody scenario script resetSeq indexSequence
  rw [loop_eq_runAll (fun i => writeAddress D (i % 2 ^ 32)), hA, loop_eq_runAll, hS]
  simp only [List.map_append, List.map_cons, List.map_nil, List.map_map, runAll_append, runAll,
    transact, bind_assoc_h, pure_bind_h, Function.comp_def]


/-! ## Fail-fast -/

/-- The fail-fast relation is closed under sequencing. -/
def failFastInv (σ : Type) : Inv σ where
  rel := failFastRel
  nil := fun _ => ⟨fun _ h => absurd h (List.not_mem_nil _), fun h => Bool.noConfusion h⟩
  append := by
    intro s l1 s1 l2 b s2 h1 h2
    have n1 := h1.1 rfl
    constructor
    · intro hb hm
      rcases List.mem_append.mp hm with h | h
      · exact n1 h
      · exact h2.1 hb h
    · intro hb
      obtain ⟨pre, hl, hn⟩ := h2.2 hb
      refine ⟨l1 ++ pre, by rw [hl, List.append_assoc], ?_⟩
      intro hm
      rcases List.mem_append.mp hm with h | h
      · exact n1 h
      · exact hn h

theorem failFast_quiet (x : Harness σ α) (a : α) (l : List Event) (hl : Event.raise ∉ l)
    (f : Sim σ → Sim σ) (h : ∀ s, x s = .ok a (f s) l) : Sat (failFastInv σ) x :=
  ⟨fun s => by
    rw [h]
    exact ⟨fun _ => hl, fun hb => Bool.noConfusion hb⟩⟩

theorem bind_value (P : β → Prop) (x : Harness σ α) (f : α → Harness σ β)
    (hf : ∀ a s b s' l, f a s = .ok b s' l → P b) (s : Sim σ) (b : β) (s' : Sim σ)
    (l : List Event) (h : (x >>= f) s = .ok b s' l) : P b := by
  obtain ⟨a, s1, _, l2, _, h2, _⟩ := bind_eq_ok x f s s' b l h
  exact hf a s1 b s' l2 h2

theorem scenario_status (D : Dut σ) (s : Sim σ) (st : Nat) (s' : Sim σ) (l : List Event)
    (he : scenario D s = .ok st s' l) : st = 0 := by
  unfold scenario at he
  refine bind_value (fun b => b = 0) (resetSeq D) _ ?_ _ _ _ _ he
  intro _ _ _ _ _ he
  beta_reduce at he
  refine bind_value (fun b => b = 0) (runAll _) _ ?_ _ _ _ _ he
  intro _ _ _ _ _ he
  beta_reduce at he
  refine bind_value (fun b => b = 0) (waitBitTime D) _ ?_ _ _ _ _ he
  intro _ _ _ _ _ he
  beta_reduce at he
  refine bind_value (fun b => b = 0) (runAll _) _ ?_ _ _ _ _ he
  intro _ _ _ _ _ he
  beta_reduce at he
  refine bind_value (fun b => b = 0) (waitBitTime D) _ ?_ _ _ _ _ he
  intro _ _ _ _ _ he
  beta_reduce at he
  refine bind_value (fun b => b = 0) writeVCD _ ?_ _ _ _ _ he
  intro _ _ _ _ _ he
  beta_reduce at he
  rw [pure_run] at he
  exact (Run.ok.inj he).1.symm

theorem main_status (D : Dut σ) (st : Nat) (s' : Sim σ) (l : List Event)
    (he : main D = .ok st s' l) : st = 0 := by
  have h2 : scenario D (mainStart D) = .ok st s' l := by
    rw [← mainBody_eq_scenario]
    exact he
  exact scenario_status D _ st s' l h2


/-! ## C7: the scenario -/

theorem isOk_bind_unit (x : Harness σ Unit) (f : Unit → Harness σ β) (s : Sim σ) :
    ((x >>= f) s).isOk = true ↔ (x s).isOk = true ∧ (f () (x s).final).isOk = true := by
  rw [bind_run]
  cases x s with
  | ok a s1 l1 =>
    rw [andThen_ok, prepend_isOk]
    exact ⟨fun h => ⟨rfl, h⟩, fun h => h.2⟩
  | fault s1 l1 =>
    exact ⟨fun h => Bool.noConfusion h, fun h => Bool.noConfusion h.1⟩

theorem final_bind_unit (x : Harness σ Unit) (f : Unit → Harness σ β) (s : Sim σ)
    (h : (x s).isOk = true) : ((x >>= f) s).final = (f () (x s).final).final := by
  rw [bind_run]
  cases hx : x s with
  | ok a s1 l1 => rw [andThen_ok, prepend_final]; rfl
  | fault s1 l1 =>
    rw [hx] at h
    exact Bool.noConfusion h

theorem stateAt_zero (acts : List (Harness σ Unit)) (s : Sim σ) : stateAt acts 0 s = s := rfl

theorem stateAt_succ (x : Harness σ Unit) (xs : List (Harness σ Unit)) (k : Nat) (s : Sim σ)
    (h : (x s).isOk = true) : stateAt (x :: xs) (k + 1) s = stateAt xs k (x s).final := by
  unfold stateAt
  rw [List.take_succ_cons, runAll, final_bind_unit x _ s h]

theorem runAll_isOk (acts : List (Harness σ Unit)) (s : Sim σ) :
    (runAll acts s).isOk = true
      ↔ ∀ k, k < acts.length → (acts.getD k (pure ()) (stateAt acts k s)).isOk = true := by
  induction acts generalizing s with
  | nil =>
    exact ⟨fun _ k hk => absurd hk (Nat.not_lt_zero k), fun _ => rfl⟩
  | cons x xs ih =>
    rw [runAll, isOk_bind_unit, ih]
    constructor
    · rintro ⟨hx, hxs⟩ k hk
      cases k with
      | zero => exact hx
      | succ k =>
        rw [stateAt_succ x xs k s hx, List.getD_cons_succ]
        exact hxs k (Nat.lt_of_succ_lt_succ hk)
    · intro h
      have hx : (x s).isOk = true := h 0 (Nat.succ_pos _)
      refine ⟨hx, fun k hk => ?_⟩
      have := h (k + 1) (Nat.succ_lt_succ hk)
      rw [stateAt_succ x xs k s hx, List.getD_cons_succ] at this
      exact this

theorem transact_isOk (D : Dut σ) (p : Nat × Nat) (s : Sim σ) :
    (transact D p s).isOk = true
      ↔ ∃ s' l, recvResponse D (sendCommand D p.1 s).final = .ok p.2 s' l := by
  unfold transact
  rw [isOk_bind_unit, isOk_bind]
  constructor
  · rintro ⟨_, r, s1, l1, hr, ht⟩
    have e : r = p.2 := by
      cases hc : (r != p.2)
      · simpa using hc
      · rw [hc] at ht
        exact Bool.noConfusion ht
    rw [e] at hr
    exact ⟨s1, l1, hr⟩
  · rintro ⟨s1, l1, hr⟩
    refine ⟨by rw [sendCommand_run]; rfl, p.2, s1, l1, hr, ?_⟩
    have e : (p.2 != p.2) = false := by simp
    rw [e]
    rfl

theorem scenario_isOk (D : Dut σ) :
    (scenario D (mainStart D)).isOk = true
      ↔ (runAll ((List.range 25).map (writeAddress D)) (afterReset D)).isOk = true ∧
        (runAll (script.map (transact D)) (afterProvisioning D)).isOk = true := by
  unfold scenario
  rw [isOk_bind_unit, isOk_bind_unit, isOk_bind_unit, isOk_bind_unit, isOk_bind_unit,
    isOk_bind_unit]
  have hw : ∀ s : Sim σ, (waitBitTime D s).isOk = true := fun s => by
    rw [waitBitTime_run]; rfl
  have hr : (resetSeq D (mainStart D)).isOk = true := rfl
  constructor
  · rintro ⟨_, hA, _, hT, _⟩
    exact ⟨hA, hT⟩
  · rintro ⟨hA, hT⟩
    exact ⟨hr, hA, hw _, hT, hw _, rfl, rfl⟩

theorem provision_getD (D : Dut σ) (a : Nat) (h : a < 25) :
    ((List.range 25).map (writeAddress D)).getD a (pure ()) = writeAddress D a := by
  interval_cases a <;> rfl

theorem script_getD (D : Dut σ) (j : Nat) (h : j < 24) :
    (script.map (transact D)).getD j (pure ()) = transact D (script.getD j (0, 0)) := by
  interval_cases j <;> rfl

/-- C7: `main` is the scripted scenario: reset, `writeAddress` for the
addresses 0 to 24 in ascending order, one bit time, then the 24 transactions
`sendCommand(opcode)`, `recvResponse() == expected` of `script` in order, one
bit time, exit status 0.  It completes exactly when every `writeAddress`
completes and every `recvResponse` returns its expected byte, each in the
state the preceding steps left. -/
theorem main_runs_the_scripted_transactions (D : Dut σ) :
    main D = scenario D (mainStart D) ∧
    script
      = [(0b1111111110100001, 5), (0b1111111110100010, 6), (0b1111111110100011, 8),
          (0b1111111110100100, 7), (0b1111111110100101, 0x9A),
          (0b1111111110110000, 0x0B), (0b1111111110110001, 0x0C),
          (0b1111111110110010, 0x0D), (0b1111111110110011, 0x0E),
          (0b1111111110110100, 0x0F), (0b1111111110110101, 0x10),
          (0b1111111110110110, 0x11), (0b1111111110110111, 0x12),
          (0b1111111110111000, 0x13), (0b1111111110111001, 0x14),
          (0b1111111110111010, 0x15), (0b1111111110111011, 0x16),
          (0b1111111110111100, 0x17), (0b1111111110111101, 0x18),
          (0b1111111110111110, 0x19), (0b1111111110111111, 0x1A),
          (0b1111111111000000, 0x1B), (0b1111111111000001, 0x1C),
          (0b1011101100000000, 0x1D)] ∧
    script.length = 24 ∧
    ((main D).isOk = true ↔
      (∀ a, a < 25 →
        (writeAddress D a
          (stateAt ((List.range 25).map (writeAddress D)) a (afterReset D))).isOk = true) ∧
      (∀ j, j < 24 →
        ∃ s' l,
          recvResponse D
              (sendCommand D (script.getD j (0, 0)).1
                (stateAt (script.map (transact D)) j (afterProvisioning D))).final
            = .ok (script.getD j (0, 0)).2 s' l)) ∧
    ((main D).isOk = true → ∃ s l, main D = .ok 0 s l) := by
  have hm : main D = scenario D (mainStart D) := by
    show mainBody D (mainStart D) = _
    rw [mainBody_eq_scenario]
  refine ⟨hm, by decide, by decide, ?_, ?_⟩
  · rw [hm, scenario_isOk, runAll_isOk, runAll_isOk]
    have hlA : ((List.range 25).map (writeAddress D)).length = 25 := by simp
    have hlT : (script.map (transact D)).length = 24 := by
      rw [List.length_map]
      decide
    rw [hlA, hlT]
    constructor
    · rintro ⟨hA, hT⟩
      refine ⟨fun a ha => ?_, fun j hj => ?_⟩
      · have := hA a ha
        rw [provision_getD D a ha] at this
        exact this
      · have := hT j hj
        rw [script_getD D j hj, transact_isOk] at this
        exact this
    · rintro ⟨hA, hT⟩
      refine ⟨fun a ha => ?_, fun j hj => ?_⟩
      · rw [provision_getD D a ha]
        exact hA a ha
      · rw [script_getD D j hj, transact_isOk]
        exact hT j hj
  · intro hb
    cases hmain : main D with
    | ok a s l =>
      rw [main_status D a s l hmain]
      exact ⟨s, l, rfl⟩
    | fault s l =>
      rw [hmain] at hb
      exact Bool.noConfusion hb


/-! ## C16: steps per bit time -/

theorem stepCount_append (l1 l2 : List Event) :
    stepCount (l1 ++ l2) = stepCount l1 + stepCount l2 := by
  simp [stepCount]

theorem stepCount_cycleEvents (t : Nat) : stepCount (cycleEvents t) = 2 := by
  simp [stepCount, cycleEvents, List.count_cons]

theorem stepCount_tickEvents (n t : Nat) : stepCount (tickEvents n t) = 2 * n := by
  induction n generalizing t with
  | zero => rfl
  | succ n ih =>
    rw [tickEvents, stepCount_append, stepCount_cycleEvents, ih]
    omega

/-- C16, refuted as stated: one `waitBitTime` on the idle model makes 832
`step()` calls, not `clkFrequency / bitRate = 416`. -/
theorem waitBitTime_steps_differ_from_bit_time_constant :
    stepCount (waitBitTime idleDut (mainStart idleDut)).events = 832 ∧
      clkFrequency / bitRate = 416 ∧
      stepCount (waitBitTime idleDut (mainStart idleDut)).events ≠ clkFrequency / bitRate := by
  have h : stepCount (waitBitTime idleDut (mainStart idleDut)).events = 832 := by
    rw [waitBitTime_run]
    show stepCount (tickEvents bitTime _) = 832
    rw [stepCount_tickEvents, bitTime_eq]
  refine ⟨h, by decide, ?_⟩
  rw [h]
  decide

/-- C16, amended: the bit-time constant `clkFrequency / bitRate` is the number
of `cycleClock` calls (full clock cycles) of one `waitBitTime`; each is two
half-cycle `step()` calls, so one `waitBitTime` makes exactly
`2 * (clkFrequency / bitRate)` `step()` calls. -/
theorem waitBitTime_steps_twice_the_bit_time_constant (D : Dut σ) (s : Sim σ) :
    (waitBitTime D s).isOk = true ∧
      cycles (waitBitTime D s).events = clkFrequency / bitRate ∧
      stepCount (waitBitTime D s).events = 2 * (clkFrequency / bitRate) := by
  rw [waitBitTime_run]
  exact ⟨rfl, cycles_tickEvents _ _, stepCount_tickEvents _ _⟩

/-! ## C13: sendCommand only drives the bus input -/

theorem isDrive_cycleEvents (t : Nat) (e : Event) (h : e ∈ cycleEvents t) : IsDrive e := by
  simp only [cycleEvents, List.mem_cons, List.mem_singleton, List.not_mem_nil, or_false] at h
  rcases h with h | h | h | h | h | h | h
  · exact Or.inl ⟨_, h⟩
  · exact Or.inr (Or.inr (Or.inl h))
  · exact Or.inr (Or.inr (Or.inr (Or.inl ⟨_, h⟩)))
  · exact Or.inl ⟨_, h⟩
  · exact Or.inr (Or.inr (Or.inl h))
  · exact Or.inr (Or.inr (Or.inr (Or.inl ⟨_, h⟩)))
  · exact Or.inr (Or.inr (Or.inr (Or.inr h)))

theorem isDrive_tickEvents (n t : Nat) (e : Event) (h : e ∈ tickEvents n t) : IsDrive e := by
  induction n generalizing t with
  | zero => exact absurd h (List.not_mem_nil _)
  | succ n ih =>
    rw [tickEvents] at h
    rcases List.mem_append.mp h with h | h
    · exact isDrive_cycleEvents t e h
    · exact ih _ h

theorem isDrive_driveLog (vs : List Bool) (t : Nat) (e : Event) (h : e ∈ driveLog vs t) :
    IsDrive e := by
  induction vs generalizing t with
  | nil => exact absurd h (List.not_mem_nil _)
  | cons v vs ih =>
    rw [driveLog] at h
    rcases List.mem_append.mp h with h | h
    · rcases List.mem_cons.mp h with h | h
      · exact Or.inr (Or.inl ⟨_, h⟩)
      · exact isDrive_tickEvents _ _ e h
    · exact ih _ h

theorem reads_of_drive (sig : OutSig) (l : List Event) (h : ∀ e, e ∈ l → IsDrive e) :
    reads sig l = [] := by
  induction l with
  | nil => rfl
  | cons e l ih =>
    have he := h e (List.mem_cons_self _ _)
    have hl := ih (fun x hx => h x (List.mem_cons_of_mem _ hx))
    rcases he with ⟨v, rfl⟩ | ⟨v, rfl⟩ | rfl | ⟨t, rfl⟩ | rfl <;> simpa [reads] using hl

theorem writes_of_drive (sig : InSig) (h1 : sig ≠ InSig.clk) (h2 : sig ≠ InSig.daliRX)
    (l : List Event) (h : ∀ e, e ∈ l → IsDrive e) : writes sig l = [] := by
  induction l with
  | nil => rfl
  | cons e l ih =>
    have he := h e (List.mem_cons_self _ _)
    have hl := ih (fun x hx => h x (List.mem_cons_of_mem _ hx))
    rcases he with ⟨v, rfl⟩ | ⟨v, rfl⟩ | rfl | ⟨t, rfl⟩ | rfl
    · simpa [writes, Ne.symm h1] using hl
    · simpa [writes, Ne.symm h2] using hl
    · simpa [writes] using hl
    · simpa [writes] using hl
    · simpa [writes] using hl

theorem raise_not_drive : ¬IsDrive Event.raise := by
  rintro (⟨_, h⟩ | ⟨_, h⟩ | h | ⟨_, h⟩ | h) <;> exact Event.noConfusion h

theorem tick_inputs (D : Dut σ) (s : Sim σ) :
    (tick D s).daliRX = s.daliRX ∧ (tick D s).rst = s.rst ∧ (tick D s).framCIPO = s.framCIPO :=
  ⟨rfl, rfl, rfl⟩

theorem ticks_inputs (D : Dut σ) (n : Nat) (s : Sim σ) :
    (ticks D n s).daliRX = s.daliRX ∧ (ticks D n s).rst = s.rst ∧
      (ticks D n s).framCIPO = s.framCIPO := by
  induction n generalizing s with
  | zero => exact ⟨rfl, rfl, rfl⟩
  | succ n ih =>
    rw [ticks_succ]
    obtain ⟨h1, h2, h3⟩ := ih (tick D s)
    exact ⟨h1, h2, h3⟩

theorem hold_inputs (D : Dut σ) (v : Bool) (s : Sim σ) :
    (hold D v s).daliRX = v ∧ (hold D v s).rst = s.rst ∧ (hold D v s).framCIPO = s.framCIPO := by
  obtain ⟨h1, h2, h3⟩ := ticks_inputs D bitTime (s.write .daliRX v)
  exact ⟨h1, h2, h3⟩

theorem driveState_others (D : Dut σ) (vs : List Bool) (s : Sim σ) :
    (driveState D vs s).rst = s.rst ∧ (driveState D vs s).framCIPO = s.framCIPO := by
  induction vs generalizing s with
  | nil => exact ⟨rfl, rfl⟩
  | cons v vs ih =>
    show (driveState D vs (hold D v s)).rst = _ ∧ (driveState D vs (hold D v s)).framCIPO = _
    obtain ⟨h1, h2⟩ := ih (hold D v s)
    obtain ⟨_, h3, h4⟩ := hold_inputs D v s
    exact ⟨h1.trans h3, h2.trans h4⟩

theorem driveState_snoc_rx (D : Dut σ) (vs : List Bool) (v : Bool) (s : Sim σ) :
    (driveState D (vs ++ [v]) s).daliRX = v := by
  rw [driveState_append]
  show (hold D v (driveState D vs s)).daliRX = v
  exact (hold_inputs D v (driveState D vs s)).1

/-- C13: for every command, `sendCommand` completes (it has no throw); every
event of its run is a write to the clock or to `daliRX`, a `step()`, a sample
or a flush, so it reads no output of the model, throws nothing and writes
neither reset nor the memory-bus input; on return `daliRX` is true and the
other two inputs are as before. -/
theorem sendCommand_only_drives_the_bus_input (D : Dut σ) (c : Nat) (s : Sim σ) :
    ∃ s' l, sendCommand D c s = .ok () s' l ∧
      (∀ e, e ∈ l →
        (∃ v, e = .set .clk v) ∨ (∃ v, e = .set .daliRX v) ∨ e = .step ∨ (∃ t, e = .sample t) ∨
          e = .flush) ∧
      Event.raise ∉ l ∧ (∀ sig v, Event.get sig v ∉ l) ∧ (∀ sig, reads sig l = []) ∧
      (∀ v, Event.set .rst v ∉ l) ∧ (∀ v, Event.set .framCIPO v ∉ l) ∧
      s'.daliRX = true ∧ s'.rst = s.rst ∧ s'.framCIPO = s.framCIPO := by
  have hd : ∀ e, e ∈ driveLog (frameWrites c) s.timestamp
      ++ tickEvents (3 * bitTime) (tickStamp (35 * bitTime) s.timestamp) → IsDrive e := by
    intro e he
    rcases List.mem_append.mp he with h | h
    · exact isDrive_driveLog _ _ e h
    · exact isDrive_tickEvents _ _ e h
  refine ⟨_, _, sendCommand_run D c s, hd, fun h => raise_not_drive (hd _ h), ?_,
    fun sig => reads_of_drive sig _ hd, ?_, ?_, ?_, ?_, ?_⟩
  · intro sig v h
    rcases hd _ h with ⟨_, h⟩ | ⟨_, h⟩ | h | ⟨_, h⟩ | h <;> exact Event.noConfusion h
  · intro v h
    rcases hd _ h with ⟨_, h⟩ | ⟨_, h⟩ | h | ⟨_, h⟩ | h <;> first
      | exact Event.noConfusion h
      | (injection h with h1 _; exact InSig.noConfusion h1)
  · intro v h
    rcases hd _ h with ⟨_, h⟩ | ⟨_, h⟩ | h | ⟨_, h⟩ | h <;> first
      | exact Event.noConfusion h
      | (injection h with h1 _; exact InSig.noConfusion h1)
  · rw [(ticks_inputs D _ _).1]
    exact driveState_snoc_rx D _ true s
  · rw [(ticks_inputs D _ _).2.1]
    exact (driveState_others D _ s).1
  · rw [(ticks_inputs D _ _).2.2]
    exact (driveState_others D _ s).2


/-! ## C17: the line encoding is lossless -/

theorem sendCommand_line (D : Dut σ) (c : Nat) (s : Sim σ) :
    rxAtSteps s.daliRX (sendCommand D c s).events
      = (frameLevels c).flatMap (fun v => List.replicate (2 * bitTime) v) := by
  rw [sendCommand_run]
  show rxAtSteps s.daliRX (driveLog (frameWrites c) s.timestamp
    ++ tickEvents (3 * bitTime) (tickStamp (35 * bitTime) s.timestamp)) = _
  rw [rxAtSteps_append, rxAtSteps_driveLog, rxAtSteps_tickEvents]
  unfold frameWrites frameLevels
  rw [rxAfter_driveLog_snoc]
  have e : 2 * (3 * bitTime) = 2 * bitTime + (2 * bitTime + 2 * bitTime) := by omega
  rw [e, List.replicate_add, List.replicate_add]
  simp only [List.flatMap_append, List.flatMap_cons, List.flatMap_nil, List.append_assoc,
    List.append_nil, List.cons_append, List.nil_append]

theorem getD_flatMap_replicate (ls : List Bool) (n : Nat) (hn : 0 < n) (j : Nat) (d : Bool) :
    (ls.flatMap (fun v => List.replicate n v)).getD (j * n) d = ls.getD j d := by
  induction ls generalizing j with
  | nil => rfl
  | cons v vs ih =>
    rw [List.flatMap_cons]
    cases j with
    | zero =>
      rw [Nat.zero_mul, List.getD_append _ _ _ _ (by rw [List.length_replicate]; exact hn)]
      obtain ⟨m, rfl⟩ := Nat.exists_eq_succ_of_ne_zero (Nat.pos_iff_ne_zero.mp hn)
      rfl
    | succ j =>
      rw [List.getD_append_right _ _ _ _ (by rw [List.length_replicate, Nat.succ_mul]; omega),
        List.length_replicate, Nat.succ_mul, Nat.add_sub_cancel, ih, List.getD_cons_succ]

theorem length_flatMap_replicate (ls : List Bool) (n : Nat) :
    (ls.flatMap (fun v => List.replicate n v)).length = ls.length * n := by
  induction ls with
  | nil => simp
  | cons v vs ih =>
    rw [List.flatMap_cons, List.length_append, ih, List.length_replicate, List.length_cons,
      Nat.succ_mul, Nat.add_comm]

theorem bitPairs_succ (c i n : Nat) :
    bitPairs c i (n + 1) = commandBit c i :: (!commandBit c i) :: bitPairs c (i + 1) n := by
  simp [bitPairs, List.range'_succ, List.flatMap_cons]

theorem bitPairs_getD (c n i k : Nat) (d : Bool) (hk : k < n) :
    (bitPairs c i n).getD (2 * k) d = commandBit c (i + k) := by
  induction n generalizing i k with
  | zero => exact absurd hk (Nat.not_lt_zero k)
  | succ n ih =>
    rw [bitPairs_succ]
    cases k with
    | zero => rfl
    | succ k =>
      have e : 2 * (k + 1) = 2 * k + 1 + 1 := by omega
      rw [e, List.getD_cons_succ, List.getD_cons_succ, ih (i + 1) k (Nat.lt_of_succ_lt_succ hk)]
      congr 1
      omega

theorem frameLevels_length (c : Nat) : (frameLevels c).length = 38 := by
  simp [frameLevels, bitPairs_length]

theorem frameLevels_getD (c k : Nat) (hk : k < 16) :
    (frameLevels c).getD (2 + 2 * k) false = commandBit c k := by
  have e : 2 + 2 * k = 2 * k + 1 + 1 := by omega
  unfold frameLevels
  rw [e, List.getD_cons_succ, List.getD_cons_succ,
    List.getD_append _ _ _ _ (by rw [bitPairs_length]; omega), bitPairs_getD c 16 0 k false hk,
    Nat.zero_add]

theorem commandBit_toNat (c k : Nat) : (commandBit c k).toNat = c / 2 ^ (15 - k) % 2 := by
  unfold commandBit
  rw [Nat.and_one_is_mod, Nat.shiftRight_eq_div_pow]
  rcases Nat.mod_two_eq_zero_or_one (c / 2 ^ (15 - k)) with h | h <;> rw [h] <;> rfl

theorem assemble_bits (c n : Nat) (hn : n ≤ 16) :
    (List.range n).foldl (fun acc k => 2 * acc + (commandBit c k).toNat) 0
      = c / 2 ^ (16 - n) % 2 ^ n := by
  induction n with
  | zero => simp [Nat.mod_one]
  | succ n ih =>
    rw [List.range_succ, List.foldl_append, ih (by omega), List.foldl_cons, List.foldl_nil,
      commandBit_toNat]
    have e1 : 16 - n = (15 - n) + 1 := by omega
    have e2 : 16 - (n + 1) = 15 - n := by omega
    rw [e1, e2, Nat.pow_succ, ← Nat.div_div_eq_div_mul, Nat.pow_succ, Nat.mul_comm (2 ^ n) 2,
      Nat.mod_mul]
    omega

theorem readLine_frame (c : Nat) (hc : c < 65536) :
    readLine ((frameLevels c).flatMap (fun v => List.replicate (2 * bitTime) v)) = c := by
  unfold readLine
  have hb : 0 < 2 * bitTime := by
    rw [bitTime_eq]
    decide
  rw [List.foldl_ext _ (fun acc k => 2 * acc + (commandBit c k).toNat)]
  · rw [assemble_bits c 16 (Nat.le_refl _)]
    simp only [Nat.sub_self, Nat.pow_zero, Nat.div_one]
    exact Nat.mod_eq_of_lt hc
  · intro acc k hk
    rw [getD_flatMap_replicate _ _ hb, frameLevels_getD c k (List.mem_range.mp hk)]

/-- C17: for 16-bit commands, reading the line `sendCommand(c)` drives at the
first step of each of the 16 payload bit periods, most significant first,
gives `c` back; so different commands drive different lines.  All commands
drive lines of the same length (38 bit times of 832 steps) that agree on the
two start bit times and on the four stop bit times. -/
theorem sendCommand_encoding_is_lossless (D : Dut σ) (s : Sim σ) (c1 c2 : Nat)
    (h1 : c1 < 65536) (h2 : c2 < 65536) :
    readLine (rxAtSteps s.daliRX (sendCommand D c1 s).events) = c1 ∧
    (c1 ≠ c2 →
      rxAtSteps s.daliRX (sendCommand D c1 s).events
        ≠ rxAtSteps s.daliRX (sendCommand D c2 s).events) ∧
    (rxAtSteps s.daliRX (sendCommand D c1 s).events).length = 38 * 832 ∧
    (rxAtSteps s.daliRX (sendCommand D c2 s).events).length = 38 * 832 ∧
    (rxAtSteps s.daliRX (sendCommand D c1 s).events).take (2 * 832)
      = (rxAtSteps s.daliRX (sendCommand D c2 s).events).take (2 * 832) ∧
    (rxAtSteps s.daliRX (sendCommand D c1 s).events).drop (34 * 832)
      = (rxAtSteps s.daliRX (sendCommand D c2 s).events).drop (34 * 832) := by
  have hlen : ∀ c, (rxAtSteps s.daliRX (sendCommand D c s).events).length = 38 * 832 := by
    intro c
    rw [sendCommand_line, length_flatMap_replicate, frameLevels_length, bitTime_eq]
  have hsplit : ∀ c, rxAtSteps s.daliRX (sendCommand D c s).events
      = ([false, true].flatMap (fun v => List.replicate (2 * bitTime) v)
          ++ (bitPairs c 0 16).flatMap (fun v => List.replicate (2 * bitTime) v))
        ++ [true, true, true, true].flatMap (fun v => List.replicate (2 * bitTime) v) := by
    intro c
    rw [sendCommand_line]
    unfold frameLevels
    simp only [List.flatMap_append, List.flatMap_cons, List.flatMap_nil, List.append_assoc,
      List.append_nil, List.cons_append, List.nil_append]
  have hA : ([false, true].flatMap (fun v => List.replicate (2 * bitTime) v)).length
      = 2 * 832 := by
    rw [length_flatMap_replicate, bitTime_eq]
    rfl
  have hM : ∀ c, ([false, true].flatMap (fun v => List.replicate (2 * bitTime) v)
      ++ (bitPairs c 0 16).flatMap (fun v => List.replicate (2 * bitTime) v)).length
      = 34 * 832 := by
    intro c
    rw [List.length_append, length_flatMap_replicate, length_flatMap_replicate, bitPairs_length,
      bitTime_eq]
    rfl
  refine ⟨?_, ?_, hlen c1, hlen c2, ?_, ?_⟩
  · rw [sendCommand_line, readLine_frame c1 h1]
  · intro hne he
    apply hne
    have e1 := readLine_frame c1 h1
    have e2 := readLine_frame c2 h2
    rw [← sendCommand_line D c1 s, he, sendCommand_line D c2 s, e2] at e1
    exact e1.symm
  · rw [hsplit c1, hsplit c2, List.append_assoc, List.append_assoc, List.take_left' hA,
      List.take_left' hA]
  · rw [hsplit c1, hsplit c2, List.drop_left' (hM c1), List.drop_left' (hM c2)]

/-- C17 at a concrete pair: the first two queries of the scenario. -/
theorem sendCommand_encoding_is_lossless_witness :
    0xFFA1 < 65536 ∧ 0xFFA2 < 65536 ∧
      readLine (rxAtSteps (mainStart idleDut).daliRX
        (sendCommand idleDut 0xFFA1 (mainStart idleDut)).events) = 0xFFA1 ∧
      rxAtSteps (mainStart idleDut).daliRX (sendCommand idleDut 0xFFA1 (mainStart idleDut)).events
        ≠ rxAtSteps (mainStart idleDut).daliRX
            (sendCommand idleDut 0xFFA2 (mainStart idleDut)).events :=
  have h := sendCommand_encoding_is_lossless idleDut (mainStart idleDut) 0xFFA1 0xFFA2
    (by decide) (by decide)
  ⟨by decide, by decide, h.1, h.2.1 (by decide)⟩


/-! ## readSPI -/

theorem tick_ticks (D : Dut σ) (j : Nat) (s : Sim σ) :
    tick D (ticks D j s) = ticks D (j + 1) s :=
  (ticks_add D j 1 s).symm

theorem readBit_pass (D : Dut σ) (s : Sim σ) (k acc : Nat)
    (h1 : clkAt D s (2 * k + 1) = false) (h2 : clkAt D s (2 * k + 2) = true) :
    (do
      cycleClock D
      cxxrtlAssert D .framClk false
      cycleClock D
      cxxrtlAssert D .framClk true
      let result := (acc <<< 1) % 2 ^ 32
      let bit ← getSigU32 D .framCOPI
      pure (result ||| bit) : Harness σ Nat) (ticks D (2 * k) s)
      = .ok (shiftIn acc (copiAt D s (2 + 2 * k))) (ticks D (2 * (k + 1)) s)
          (spiReadIter D s k) := by
  have a1 : D.read .framClk (ticks D (2 * k + 1) s).dut = false := h1
  have a2 : D.read .framClk (ticks D (2 * k + 1 + 1) s).dut = true := h2
  have e : 2 + 2 * k = 2 * k + 1 + 1 := by omega
  have e2 : 2 * (k + 1) = 2 * k + 1 + 1 := by omega
  simp only [bind_run, cycleClock_run, andThen_ok, prepend_ok, prepend_prepend, tick_ticks]
  rw [cxxrtlAssert_pass D _ _ _ a1]
  simp only [bind_run, cycleClock_run, andThen_ok, prepend_ok, prepend_prepend, tick_ticks]
  rw [cxxrtlAssert_pass D _ _ _ a2]
  simp only [bind_run, andThen_ok, prepend_ok, prepend_prepend, getSigU32, pure_run, shiftIn,
    spiReadIter, copiAt, ticks_timestamp, e, e2, List.append_assoc, List.cons_append,
    List.nil_append, List.append_nil]
  rfl

theorem readBit_fail (D : Dut σ) (s : Sim σ) (k acc : Nat)
    (h : ¬(clkAt D s (2 * k + 1) = false ∧ clkAt D s (2 * k + 2) = true)) :
    ((do
      cycleClock D
      cxxrtlAssert D .framClk false
      cycleClock D
      cxxrtlAssert D .framClk true
      let result := (acc <<< 1) % 2 ^ 32
      let bit ← getSigU32 D .framCOPI
      pure (result ||| bit) : Harness σ Nat) (ticks D (2 * k) s)).isOk = false := by
  simp only [bind_run, cycleClock_run, andThen_ok, prepend_ok, prepend_prepend, tick_ticks,
    prepend_isOk]
  by_cases h1 : clkAt D s (2 * k + 1) = false
  · have a1 : D.read .framClk (ticks D (2 * k + 1) s).dut = false := h1
    have a2 : D.read .framClk (ticks D (2 * k + 1 + 1) s).dut ≠ true := fun h2 => h ⟨h1, h2⟩
    rw [cxxrtlAssert_pass D _ _ _ a1]
    simp only [bind_run, cycleClock_run, andThen_ok, prepend_ok, prepend_prepend, tick_ticks,
      prepend_isOk]
    rw [cxxrtlAssert_fail D _ _ _ a2]
    rfl
  · have a1 : D.read .framClk (ticks D (2 * k + 1) s).dut ≠ false := h1
    rw [cxxrtlAssert_fail D _ _ _ a1]
    rfl

theorem readBits_pass (D : Dut σ) (s : Sim σ) (n i k acc : Nat)
    (h : ∀ m, m < n → clkAt D s (2 * (k + m) + 1) = false ∧ clkAt D s (2 * (k + m) + 2) = true) :
    loopFrom (fun _ result => (do
        cycleClock D
        cxxrtlAssert D .framClk false
        cycleClock D
        cxxrtlAssert D .framClk true
        let result := (result <<< 1) % 2 ^ 32
        let bit ← getSigU32 D .framCOPI
        pure (result ||| bit) : Harness σ Nat)) n i acc (ticks D (2 * k) s)
      = .ok (decodeFrom (copiAt D s) n (2 + 2 * k) acc) (ticks D (2 * (k + n)) s)
          ((List.range' k n).flatMap (spiReadIter D s)) := by
  induction n generalizing i k acc with
  | zero => rfl
  | succ n ih =>
    have h0 := h 0 (Nat.succ_pos n)
    have h' : ∀ m, m < n →
        clkAt D s (2 * (k + 1 + m) + 1) = false ∧ clkAt D s (2 * (k + 1 + m) + 2) = true := by
      intro m hm
      have e : k + 1 + m = k + (m + 1) := by omega
      rw [e]
      exact h (m + 1) (Nat.succ_lt_succ hm)
    have e1 : 2 + 2 * (k + 1) = 2 + 2 * k + 2 := by omega
    have e2 : k + 1 + n = k + (n + 1) := by omega
    rw [loopFrom, bind_run, readBit_pass D s k acc h0.1 h0.2, andThen_ok,
      ih (i + 1) (k + 1) _ h', prepend_ok, List.range'_succ, List.flatMap_cons, decodeFrom, e1,
      e2]

theorem readBits_fail (D : Dut σ) (s : Sim σ) (n i k acc : Nat)
    (h : ∃ m, m < n ∧
      ¬(clkAt D s (2 * (k + m) + 1) = false ∧ clkAt D s (2 * (k + m) + 2) = true)) :
    (loopFrom (fun _ result => (do
        cycleClock D
        cxxrtlAssert D .framClk false
        cycleClock D
        cxxrtlAssert D .framClk true
        let result := (result <<< 1) % 2 ^ 32
        let bit ← getSigU32 D .framCOPI
        pure (result ||| bit) : Harness σ Nat)) n i acc (ticks D (2 * k) s)).isOk = false := by
  induction n generalizing i k acc with
  | zero =>
    obtain ⟨m, hm, _⟩ := h
    exact absurd hm (Nat.not_lt_zero m)
  | succ n ih =>
    by_cases h0 : clkAt D s (2 * k + 1) = false ∧ clkAt D s (2 * k + 2) = true
    · obtain ⟨m, hm, hne⟩ := h
      have hm0 : m ≠ 0 := by
        intro e
        rw [e] at hne
        exact hne h0
      obtain ⟨m', rfl⟩ := Nat.exists_eq_succ_of_ne_zero hm0
      have e : k + (m' + 1) = k + 1 + m' := by omega
      rw [Nat.succ_eq_add_one, e] at hne
      rw [loopFrom, bind_run, readBit_pass D s k acc h0.1 h0.2, andThen_ok, prepend_isOk]
      exact ih (i + 1) (k + 1) _ ⟨m', Nat.lt_of_succ_lt_succ hm, hne⟩
    · have h1 := readBit_fail D s k acc h0
      rw [loopFrom, bind_run]
      revert h1
      generalize (do
        cycleClock D
        cxxrtlAssert D .framClk false
        cycleClock D
        cxxrtlAssert D .framClk true
        let result := (acc <<< 1) % 2 ^ 32
        let bit ← getSigU32 D .framCOPI
        pure (result ||| bit) : Harness σ Nat) (ticks D (2 * k) s) = r
      intro h1
      cases r with
      | ok a s1 l1 => exact absurd h1 (by simp [Run.isOk])
      | fault s1 l1 => rfl


theorem readSPI_pass (D : Dut σ) (s : Sim σ)
    (h : ∀ k, k < 8 → clkAt D s (2 * k + 1) = false ∧ clkAt D s (2 * k + 2) = true) :
    readSPI D s
      = .ok (decodeFrom (copiAt D s) 8 2 0 % 2 ^ 8) (ticks D 16 s)
          ((List.range 8).flatMap (spiReadIter D s)) := by
  have h' : ∀ m, m < 8 →
      clkAt D s (2 * (0 + m) + 1) = false ∧ clkAt D s (2 * (0 + m) + 2) = true := by
    intro m hm
    rw [Nat.zero_add]
    exact h m hm
  have hl := readBits_pass D s 8 0 0 0 h'
  simp only [Nat.mul_zero, Nat.zero_add, Nat.add_zero, ticks_zero, Nat.reduceMul] at hl
  unfold readSPI indexSequence
  rw [bind_run, hl, andThen_ok, pure_run, prepend_ok, List.append_nil, List.range_eq_range']

theorem readSPI_fail (D : Dut σ) (s : Sim σ)
    (h : ∃ k, k < 8 ∧ ¬(clkAt D s (2 * k + 1) = false ∧ clkAt D s (2 * k + 2) = true)) :
    (readSPI D s).isOk = false := by
  have h' : ∃ m, m < 8 ∧
      ¬(clkAt D s (2 * (0 + m) + 1) = false ∧ clkAt D s (2 * (0 + m) + 2) = true) := by
    obtain ⟨k, hk, hn⟩ := h
    refine ⟨k, hk, ?_⟩
    rw [Nat.zero_add]
    exact hn
  have hl := readBits_fail D s 8 0 0 0 h'
  simp only [Nat.mul_zero, ticks_zero] at hl
  unfold readSPI indexSequence
  rw [bind_run]
  revert hl
  generalize loopFrom _ 8 0 0 s = r
  intro hl
  cases r with
  | ok a s1 l1 => exact absurd hl (by simp [Run.isOk])
  | fault s1 l1 => rfl

/-! ## C11: readSPI -/

/-- C11: `readSPI` throws exactly when one of its 16 clock checks fails: for
some `k < 8` the bus clock is not low after clock cycle `2k + 1` or not high
after clock cycle `2k + 2`.  Otherwise its run is 8 iterations of: one
`cycleClock`, read the bus clock low, one `cycleClock`, read the bus clock
high, read the data-out signal; it lasts 16 clock cycles and returns the byte
(below 256) whose bit `7 - k` is the `k`-th data-out sample. -/
theorem readSPI_checks_the_clock_and_shifts_in (D : Dut σ) (s : Sim σ) :
    ((∃ s' l, readSPI D s = .fault s' l) ↔
      ∃ k, k < 8 ∧ (clkAt D s (2 * k + 1) ≠ false ∨ clkAt D s (2 * k + 2) ≠ true)) ∧
    (∀ r s' l, readSPI D s = .ok r s' l →
      l = (List.range 8).flatMap (fun k =>
          cycleEvents (tickStamp (2 * k) s.timestamp) ++ [.get .framClk false]
            ++ cycleEvents (tickStamp (2 * k + 1) s.timestamp)
            ++ [.get .framClk true, .get .framCOPI (copiAt D s (2 + 2 * k))]) ∧
        reads .framCOPI l = (List.range 8).map (fun k => copiAt D s (2 + 2 * k)) ∧
        s' = ticks D 16 s ∧ r < 256 ∧
        ∀ k, k < 8 → r.testBit (7 - k) = copiAt D s (2 + 2 * k)) := by
  have hdec : (∀ k, k < 8 → clkAt D s (2 * k + 1) = false ∧ clkAt D s (2 * k + 2) = true) ∨
      ∃ k, k < 8 ∧ ¬(clkAt D s (2 * k + 1) = false ∧ clkAt D s (2 * k + 2) = true) := by
    by_cases hg : ∀ k, k < 8 → clkAt D s (2 * k + 1) = false ∧ clkAt D s (2 * k + 2) = true
    · exact Or.inl hg
    · right
      by_contra hc
      apply hg
      intro k hk
      by_contra hn
      exact hc ⟨k, hk, hn⟩
  constructor
  · constructor
    · rintro ⟨s', l, hf⟩
      rcases hdec with hg | ⟨k, hk, hn⟩
      · rw [readSPI_pass D s hg] at hf
        exact Run.noConfusion hf
      · refine ⟨k, hk, ?_⟩
        by_contra hc
        rw [not_or, not_not, not_not] at hc
        exact hn hc
    · rintro ⟨k, hk, hn⟩
      have hf := readSPI_fail D s ⟨k, hk, fun hg => by
        rcases hn with h | h
        · exact h hg.1
        · exact h hg.2⟩
      cases hr : readSPI D s with
      | ok a s1 l1 =>
        rw [hr] at hf
        exact Bool.noConfusion hf
      | fault s1 l1 => exact ⟨s1, l1, rfl⟩
  · intro r s' l hr
    rcases hdec with hg | hb
    · rw [readSPI_pass D s hg] at hr
      obtain ⟨h1, h2, h3⟩ := Run.ok.inj hr
      have hlt := decode_lt (copiAt D s)
      have e : decodeFrom (copiAt D s) 8 2 0 % 2 ^ 8 = decodeFrom (copiAt D s) 8 2 0 :=
        Nat.mod_eq_of_lt hlt
      rw [e] at h1
      refine ⟨h3.symm, ?_, h2.symm, h1 ▸ hlt, fun k hk => h1 ▸ decode_testBit _ k hk⟩
      rw [← h3]
      have er : List.range 8 = [0, 1, 2, 3, 4, 5, 6, 7] := by decide
      rw [er]
      simp only [List.flatMap_cons, List.flatMap_nil, List.map_cons, List.map_nil, spiReadIter,
        reads_append, reads_cycleEvents, reads_get, reads_nil, List.append_nil, List.nil_append,
        reads, List.cons_append]
      rfl
    · have hf := readSPI_fail D s hb
      rw [hr] at hf
      exact Bool.noConfusion hf


/-! ## writeSPI -/

theorem setSigU32_spiBit (data k : Nat) :
    (setSigU32 .framCIPO ((data >>> (7 - k)) &&& 1) : Harness σ Unit)
      = setSig .framCIPO (spiBit data k) :=
  setSigU32_spi_bit data k

/-- The three ways one iteration of `writeSPI` can end. -/
theorem writeBit_cases (D : Dut σ) (data k : Nat) (s : Sim σ) (t0 : Nat)
    (ht : s.timestamp = tickStamp (2 * k) t0) :
    (∃ s1, (do
        cycleClock D
        cxxrtlAssert D .framClk false
        setSigU32 .framCIPO ((data >>> (7 - k)) &&& 1)
        cycleClock D
        cxxrtlAssert D .framClk true : Harness σ Unit) s = .ok () s1 (spiWriteIter data t0 k) ∧
      s1.timestamp = tickStamp (2 * (k + 1)) t0) ∨
    (∃ s1 l1, (do
        cycleClock D
        cxxrtlAssert D .framClk false
        setSigU32 .framCIPO ((data >>> (7 - k)) &&& 1)
        cycleClock D
        cxxrtlAssert D .framClk true : Harness σ Unit) s = .fault s1 l1 ∧
      (writes .framCIPO l1 = [] ∨ writes .framCIPO l1 = [spiBit data k])) := by
  have hcipo : InSig.framCIPO ≠ InSig.clk := by decide
  have e1 : tickStamp (2 * k + 1) t0 = (tick D s).timestamp := by
    rw [tick_timestamp, ht, ← tickStamp_add]
  have e2 : (tick D ((tick D s).write .framCIPO (spiBit data k))).timestamp
      = tickStamp (2 * (k + 1)) t0 := by
    have e : 2 * k + (1 + 1) = 2 * (k + 1) := by omega
    rw [tick_timestamp, write_timestamp, tick_timestamp, ht, ← tickStamp_add, ← tickStamp_add, e]
  simp only [bind_run, cycleClock_run, andThen_ok, setSigU32_spiBit]
  by_cases c1 : D.read .framClk (tick D s).dut = false
  · rw [cxxrtlAssert_pass D _ _ _ c1]
    simp only [andThen_ok, setSig, cycleClock_run, prepend_ok, prepend_prepend, bind_run]
    by_cases c2 : D.read .framClk (tick D ((tick D s).write .framCIPO (spiBit data k))).dut = true
    · left
      rw [cxxrtlAssert_pass D _ _ _ c2]
      refine ⟨_, ?_, e2⟩
      simp only [prepend_ok, spiWriteIter, write_timestamp, ← ht, e1, List.append_assoc,
        List.cons_append, List.nil_append]
    · right
      rw [cxxrtlAssert_fail D _ _ _ c2]
      refine ⟨_, _, rfl, Or.inr ?_⟩
      simp only [writes_append, writes_cycleEvents _ hcipo, writes_get, writes_set_self,
        writes_nil, List.nil_append, List.append_nil]
      rfl
  · right
    rw [cxxrtlAssert_fail D _ _ _ c1]
    refine ⟨_, _, rfl, Or.inl ?_⟩
    simp only [writes_append, writes_cycleEvents _ hcipo, writes_get, writes_nil,
      List.nil_append]
    rfl


theorem writeSPI_eq_loop (D : Dut σ) (data : Nat) :
    writeSPI D data = loopFrom (fun bit _ => writeSPIBody D data bit) 8 0 () := rfl

theorem writes_spiWriteIter (data t k : Nat) :
    writes .framCIPO (spiWriteIter data t k) = [spiBit data k] := by
  have hcipo : InSig.framCIPO ≠ InSig.clk := by decide
  simp only [spiWriteIter, writes_append, writes_cycleEvents _ hcipo, writes_get,
    writes_set_self, writes_nil, List.nil_append, List.append_nil]

theorem writeBits_log (D : Dut σ) (data n i : Nat) (s : Sim σ) (t0 : Nat)
    (ht : s.timestamp = tickStamp (2 * i) t0) (s' : Sim σ) (l : List Event)
    (h : loopFrom (fun bit _ => writeSPIBody D data bit) n i () s = .ok () s' l) :
    l = (List.range' i n).flatMap (spiWriteIter data t0) := by
  induction n generalizing i s l with
  | zero => exact (Run.ok.inj h).2.2.symm
  | succ n ih =>
    rw [loopFrom, bind_run] at h
    rcases writeBit_cases D data i s t0 ht with ⟨s1, h1, ht1⟩ | ⟨s1, l1, h1, _⟩
    · have h1' : writeSPIBody D data i s = .ok () s1 (spiWriteIter data t0 i) := h1
      rw [h1', andThen_ok] at h
      cases hr : loopFrom (fun bit _ => writeSPIBody D data bit) n (i + 1) () s1 with
      | ok a s2 l2 =>
        rw [hr, prepend_ok] at h
        rw [← (Run.ok.inj h).2.2, ih (i + 1) s1 ht1 l2 (by rw [hr, (Run.ok.inj h).2.1]),
          List.range'_succ, List.flatMap_cons]
      | fault s2 l2 =>
        rw [hr, prepend_fault] at h
        exact Run.noConfusion h
    · have h1' : writeSPIBody D data i s = .fault s1 l1 := h1
      rw [h1', andThen_fault] at h
      exact Run.noConfusion h

theorem writeBits_writes (D : Dut σ) (data n i : Nat) (s : Sim σ) (t0 : Nat)
    (ht : s.timestamp = tickStamp (2 * i) t0) :
    ∃ m, m ≤ n ∧
      writes .framCIPO (loopFrom (fun bit _ => writeSPIBody D data bit) n i () s).events
        = ((List.range' i n).map (spiBit data)).take m := by
  induction n generalizing i s with
  | zero => exact ⟨0, Nat.le_refl 0, rfl⟩
  | succ n ih =>
    rw [loopFrom, bind_run, List.range'_succ, List.map_cons]
    rcases writeBit_cases D data i s t0 ht with ⟨s1, h1, ht1⟩ | ⟨s1, l1, h1, hw⟩
    · have h1' : writeSPIBody D data i s = .ok () s1 (spiWriteIter data t0 i) := h1
      obtain ⟨m, hm, hw⟩ := ih (i + 1) s1 ht1
      refine ⟨m + 1, Nat.succ_le_succ hm, ?_⟩
      rw [h1', andThen_ok, prepend_events, writes_append, writes_spiWriteIter, hw]
      rfl
    · have h1' : writeSPIBody D data i s = .fault s1 l1 := h1
      rw [h1', andThen_fault]
      rcases hw with hw | hw
      · exact ⟨0, Nat.zero_le _, hw⟩
      · exact ⟨1, Nat.succ_le_succ (Nat.zero_le _), hw⟩

theorem roundTrip_byte :
    ∀ d, d < 256 →
      (List.range 8).foldl (fun r k => ((r <<< 1) % 2 ^ 32) ||| ((d >>> (7 - k)) &&& 1)) 0 = d := by
  decide!

theorem spiBit_toNat (d k : Nat) : (spiBit d k).toNat = (d >>> (7 - k)) &&& 1 := by
  unfold spiBit
  rcases and_one_cases (d >>> (7 - k)) with h | h <;> rw [h] <;> rfl

theorem decode_spiBits (tx : Nat → Bool) (d : Nat) (hd : d < 256)
    (h : ∀ k, k < 8 → tx (2 + 2 * k) = spiBit d k) : decodeFrom tx 8 2 0 = d := by
  have e := roundTrip_byte d hd
  have er : List.range 8 = [0, 1, 2, 3, 4, 5, 6, 7] := by decide
  rw [er] at e
  simp only [List.foldl_cons, List.foldl_nil] at e
  simp only [decodeFrom, Nat.reduceAdd, shiftIn]
  rw [show tx 2 = spiBit d 0 from h 0 (by decide), show tx 4 = spiBit d 1 from h 1 (by decide),
    show tx 6 = spiBit d 2 from h 2 (by decide), show tx 8 = spiBit d 3 from h 3 (by decide),
    show tx 10 = spiBit d 4 from h 4 (by decide), show tx 12 = spiBit d 5 from h 5 (by decide),
    show tx 14 = spiBit d 6 from h 6 (by decide), show tx 16 = spiBit d 7 from h 7 (by decide)]
  simp only [spiBit_toNat]
  exact e


/-! ## C12: writeSPI -/

/-- C12: for every byte `d`: a completing `writeSPI(d)` is 8 iterations of one
`cycleClock`, read the bus clock low, drive `framCIPO` to `(d >> (7 - k)) & 1`,
one `cycleClock`, read the bus clock high; so the 8 values driven are the bits
of `d`, most significant first, each after the low-clock check and before the
cycle that ends in the high-clock check.  A run that throws has driven the
first few of them.  Shift-assembling the 8 values as `readSPI` does gives `d`
back, and a completing `readSPI` that samples them returns `d`. -/
theorem writeSPI_drives_bits_msb_first (D : Dut σ) (s : Sim σ) (d : Nat) (hd : d < 256) :
    (∀ s' l, writeSPI D d s = .ok () s' l →
      l = (List.range 8).flatMap (fun k =>
          cycleEvents (tickStamp (2 * k) s.timestamp)
            ++ [.get .framClk false, .set .framCIPO (decide ((d >>> (7 - k)) &&& 1 = 1))]
            ++ cycleEvents (tickStamp (2 * k + 1) s.timestamp) ++ [.get .framClk true]) ∧
        writes .framCIPO l
          = (List.range 8).map (fun k => decide ((d >>> (7 - k)) &&& 1 = 1))) ∧
    (∃ n, n ≤ 8 ∧
      writes .framCIPO (writeSPI D d s).events
        = ((List.range 8).map (fun k => decide ((d >>> (7 - k)) &&& 1 = 1))).take n) ∧
    (List.range 8).foldl (fun r k => ((r <<< 1) % 2 ^ 32) ||| ((d >>> (7 - k)) &&& 1)) 0 = d ∧
    (∀ (τ : Type) (D' : Dut τ) (s' : Sim τ), (readSPI D' s').isOk = true →
      (∀ k, k < 8 → copiAt D' s' (2 + 2 * k) = decide ((d >>> (7 - k)) &&& 1 = 1)) →
      ∃ s'' l, readSPI D' s' = .ok d s'' l) := by
  have ht : s.timestamp = tickStamp (2 * 0) s.timestamp := rfl
  refine ⟨?_, ?_, roundTrip_byte d hd, ?_⟩
  · intro s' l h
    rw [writeSPI_eq_loop] at h
    have hl := writeBits_log D d 8 0 s s.timestamp ht s' l h
    rw [← List.range_eq_range'] at hl
    exact ⟨hl, writeSPI_writes D d s s' l h⟩
  · obtain ⟨m, hm, hw⟩ := writeBits_writes D d 8 0 s s.timestamp ht
    rw [← List.range_eq_range'] at hw
    exact ⟨m, hm, hw⟩
  · intro τ D' s' hok hbits
    have hg : ∀ k, k < 8 → clkAt D' s' (2 * k + 1) = false ∧ clkAt D' s' (2 * k + 2) = true := by
      intro k hk
      by_contra hn
      rw [readSPI_fail D' s' ⟨k, hk, hn⟩] at hok
      exact Bool.noConfusion hok
    have hr := readSPI_pass D' s' hg
    have e : d % 2 ^ 8 = d := Nat.mod_eq_of_lt hd
    rw [decode_spiBits (copiAt D' s') d hd hbits, e] at hr
    exact ⟨_, _, hr⟩

/-- C12 at a concrete run: `writeSPI(7)` on the memory-bus model, entered one
clock cycle in. -/
theorem writeSPI_drives_bits_msb_first_witness :
    7 < 256 ∧ (writeSPI framDut 7 (tick framDut (mainStart framDut))).isOk = true ∧
      (∀ s' l, writeSPI framDut 7 (tick framDut (mainStart framDut)) = .ok () s' l →
        writes .framCIPO l = [false, false, false, false, false, true, true, true]) ∧
      (List.range 8).foldl (fun r k => ((r <<< 1) % 2 ^ 32) ||| ((7 >>> (7 - k)) &&& 1)) 0 = 7 := by
  have h := writeSPI_drives_bits_msb_first framDut (tick framDut (mainStart framDut)) 7
    (by decide)
  exact ⟨by decide, by decide!, fun s' l hl => (h.1 s' l hl).2, h.2.2.1⟩


/-! ## C18: expected responses and provisioned bytes -/

/-- C18: for the addresses `a = 0..24` the data byte `writeAddress(a)` passes
to `writeSPI` is `a + 5` (5 to 29, no 8-bit wrap-around), and a completing
`writeAddress(a)` has driven its bits.  The expected responses of the
scenario are 5, 6, 8, 7, 0x9A, `0x0B + scene` for `scene = 0..15`, 0x1B, 0x1C,
0x1D; by address they are `a + 5`: 5 (a=0), 6 (a=1), 7 (a=2), 8 (a=3), the
nibbles 9 and 10 of 0x9A (a=4, 5), `0x0B + scene = (6 + scene) + 5`
(a=6..21, each below 256), 0x1B, 0x1C, 0x1D (a=22, 23, 24); with 0x9A split
into its nibbles the expected values are a rearrangement of the provisioned
bytes, each used once. -/
theorem expected_responses_are_the_provisioned_bytes (D : Dut σ) (s : Sim σ) :
    main D = scenario D (mainStart D) ∧
    (∀ a, a < 25 → (a + 5) % 2 ^ 32 % 2 ^ 8 = a + 5 ∧ 5 ≤ a + 5 ∧ a + 5 ≤ 29) ∧
    (∀ a, a < 25 → (writeAddress D a s).isOk = true →
      ∃ sw lw, writeSPI D (a + 5) (ticks D 57 s) = .ok () sw lw ∧
        writes .framCIPO lw
          = (List.range 8).map (fun k => decide (((a + 5) >>> (7 - k)) &&& 1 = 1))) ∧
    script.map Prod.snd
      = [5, 6, 8, 7, 0x9A] ++ (List.range 16).map (fun scene => 0x0B + scene)
        ++ [0x1B, 0x1C, 0x1D] ∧
    (script.getD 0 (0, 0)).2 = 0 + 5 ∧ (script.getD 1 (0, 0)).2 = 1 + 5 ∧
    (script.getD 3 (0, 0)).2 = 2 + 5 ∧ (script.getD 2 (0, 0)).2 = 3 + 5 ∧
    (script.getD 4 (0, 0)).2 = 0x9A ∧ 0x9A / 16 = 4 + 5 ∧ 0x9A % 16 = 5 + 5 ∧
    (∀ scene, scene < 16 →
      (script.getD (5 + scene) (0, 0)).2 = 0x0B + scene ∧ 0x0B + scene = (6 + scene) + 5 ∧
        0x0B + scene < 256) ∧
    (script.getD 21 (0, 0)).2 = 22 + 5 ∧ (script.getD 22 (0, 0)).2 = 23 + 5 ∧
    (script.getD 23 (0, 0)).2 = 24 + 5 ∧
    List.Perm
      (script.flatMap (fun p => if p.2 = 0x9A then [p.2 / 16, p.2 % 16] else [p.2]))
      ((List.range 25).map (fun a => a + 5)) := by
  have hm : main D = scenario D (mainStart D) := by
    show mainBody D (mainStart D) = _
    rw [mainBody_eq_scenario]
  refine ⟨hm, fun a ha => ⟨by omega, by omega, by omega⟩, ?_, by decide, by decide, by decide,
    by decide, by decide, by decide, by decide, by decide, by decide, by decide, by decide,
    by decide, by decide⟩
  intro a ha hok
  obtain ⟨_, _, _, _, sw, lw, hw, _⟩ := (writeAddress_isOk D a s).mp hok
  have e : (a + 5) % 2 ^ 32 % 2 ^ 8 = a + 5 := by omega
  rw [e] at hw
  exact ⟨sw, lw, hw, writeSPI_writes D _ _ _ _ hw⟩


/-! ## Strict bounds on the number of clock cycles -/

theorem strict_cast {n m : Nat} {x : Harness σ α} (h : StrictCosts n x) (e : n = m) :
    StrictCosts m x :=
  e ▸ h

theorem strict_bind [Inhabited α] {n m : Nat} {x : Harness σ α} {f : α → Harness σ β}
    (hx : Costs n x) (hf : ∀ a, StrictCosts m (f a)) : StrictCosts (n + m) (x >>= f) := by
  have hm := (hf default).pos
  refine ⟨costs_bind hx (fun a => (hf a).costs), by omega, ?_⟩
  intro s
  have h1 := hx.le s
  have h2 := hx.eq s
  rw [bind_run]
  cases hxs : x s with
  | ok a s1 l1 =>
    rw [hxs] at h2
    have h4 := h2 rfl
    have h3 := (hf a).strict s1
    simp only [Run.events] at h4
    simp only [andThen_ok, prepend_events, cycles_append, prepend_isOk]
    intro hb
    have := h3 hb
    omega
  | fault s1 l1 =>
    rw [hxs] at h1
    simp only [andThen_fault, Run.events] at h1 ⊢
    intro _
    omega

theorem strict_tail (D : Dut σ) :
    StrictCosts 416 (do
      waitBitTime D
      writeVCD
      pure 0 : Harness σ Nat) := by
  have hc : Costs 416 (do
      waitBitTime D
      writeVCD
      pure 0 : Harness σ Nat) :=
    (costs_bind (costs_waitBitTime D)
      (fun _ => costs_bind costs_writeVCD (fun _ => costs_pure 0))).cast rfl
  refine ⟨hc, by decide, ?_⟩
  intro s hb
  simp only [bind_run, waitBitTime_run, andThen_ok, prepend_isOk] at hb
  exact absurd hb (by simp [writeVCD, Run.isOk])

theorem strict_mainBody (D : Dut σ) : StrictCosts 601821 (mainBody D) := by
  unfold mainBody
  apply strict_cast
  case h =>
    repeat' first
      | with_reducible exact strict_tail D
      | with_reducible exact costs_cycleClock D
      | with_reducible exact costs_dutStep D
      | with_reducible exact costs_throwIf _
      | with_reducible exact costs_setSig _ _ (Or.inl (by decide))
      | with_reducible exact costs_setSig _ _ (Or.inr rfl)
      | with_reducible exact costs_waitBitTime D
      | with_reducible exact costs_sendCommand D _
      | with_reducible exact costs_recvResponse D
      | with_reducible exact costs_writeAddress D _
      | with_reducible apply strict_bind
      | with_reducible apply costs_bind
      | with_reducible apply costs_indexSequence
      | intro _
  case e => rfl


/-! ## Rules for settled reads -/

theorem settledReads_append (st : Bool) (l1 l2 : List Event) :
    settledReads st (l1 ++ l2)
      = (settledReads st l1 && settledReads (settledAfter st l1) l2) := by
  induction l1 generalizing st with
  | nil => simp [settledReads, settledAfter]
  | cons e l ih =>
    cases e with
    | get g v =>
      show (st && settledReads st (l ++ l2)) = _
      rw [ih, ← Bool.and_assoc]
      rfl
    | set g v => exact ih _
    | step => exact ih _
    | sample t => exact ih _
    | flush => exact ih _
    | raise => exact ih _

theorem settledAfter_append (st : Bool) (l1 l2 : List Event) :
    settledAfter st (l1 ++ l2) = settledAfter (settledAfter st l1) l2 := by
  induction l1 generalizing st with
  | nil => rfl
  | cons e l ih => cases e <;> exact ih _

theorem settledReads_mono (l : List Event) (h : settledReads false l = true) :
    settledReads true l = true := by
  induction l with
  | nil => rfl
  | cons e l ih =>
    cases e with
    | get g v => exact Bool.noConfusion h
    | set g v => exact h
    | step => exact h
    | sample t => exact ih h
    | flush => exact ih h
    | raise => exact ih h

theorem settledAfter_mono (l : List Event) (h : settledAfter false l = true) :
    settledAfter true l = true := by
  induction l with
  | nil => exact Bool.noConfusion h
  | cons e l ih =>
    cases e with
    | set g v => exact h
    | step => exact h
    | get g v => exact ih h
    | sample t => exact ih h
    | flush => exact ih h
    | raise => exact ih h

theorem settledW_of_A {x : Harness σ α} (h : SettledA x) : SettledW x :=
  ⟨fun s => settledReads_mono _ (h.safe s), fun s hb => settledAfter_mono _ (h.ends s hb)⟩

theorem settledW_pure (a : α) : SettledW (pure a : Harness σ α) :=
  ⟨fun _ => rfl, fun _ _ => rfl⟩

theorem settledW_bind {x : Harness σ α} {f : α → Harness σ β}
    (hx : SettledW x) (hf : ∀ a, SettledW (f a)) : SettledW (x >>= f) := by
  constructor
  · intro s
    have h1 := hx.safe s
    have h2 := hx.ends s
    rw [bind_run]
    cases hxs : x s with
    | ok a s1 l1 =>
      rw [hxs] at h1 h2
      have h3 : settledAfter true l1 = true := h2 rfl
      have h4 : settledReads true l1 = true := h1
      rw [andThen_ok, prepend_events, settledReads_append, h3, h4, (hf a).safe s1]
      rfl
    | fault s1 l1 =>
      rw [hxs] at h1
      exact h1
  · intro s
    have h2 := hx.ends s
    rw [bind_run]
    cases hxs : x s with
    | ok a s1 l1 =>
      rw [hxs] at h2
      have h3 : settledAfter true l1 = true := h2 rfl
      rw [andThen_ok, prepend_events, prepend_isOk, settledAfter_append, h3]
      exact (hf a).ends s1
    | fault s1 l1 =>
      intro hb
      exact Bool.noConfusion hb

theorem settledA_bind {x : Harness σ α} {f : α → Harness σ β}
    (hx : SettledA x) (hf : ∀ a, SettledW (f a)) : SettledA (x >>= f) := by
  constructor
  · intro s
    have h1 := hx.safe s
    have h2 := hx.ends s
    rw [bind_run]
    cases hxs : x s with
    | ok a s1 l1 =>
      rw [hxs] at h1 h2
      have h3 : settledAfter false l1 = true := h2 rfl
      have h4 : settledReads false l1 = true := h1
      rw [andThen_ok, prepend_events, settledReads_append, h3, h4, (hf a).safe s1]
      rfl
    | fault s1 l1 =>
      rw [hxs] at h1
      exact h1
  · intro s
    have h2 := hx.ends s
    rw [bind_run]
    cases hxs : x s with
    | ok a s1 l1 =>
      rw [hxs] at h2
      have h3 : settledAfter false l1 = true := h2 rfl
      rw [andThen_ok, prepend_events, prepend_isOk, settledAfter_append, h3]
      exact (hf a).ends s1
    | fault s1 l1 =>
      intro hb
      exact Bool.noConfusion hb

theorem settledA_set_bind (sig : InSig) (v : Bool) {f : Unit → Harness σ β}
    (hf : ∀ a, SettledA (f a)) : SettledA (setSig sig v >>= f) := by
  constructor
  · intro s
    rw [bind_run]
    show settledReads false ((f () (s.write sig v)).prepend [.set sig v]).events = true
    rw [prepend_events]
    exact (hf ()).safe _
  · intro s
    rw [bind_run]
    show ((f () (s.write sig v)).prepend [.set sig v]).isOk = true →
      settledAfter false ((f () (s.write sig v)).prepend [.set sig v]).events = true
    rw [prepend_events, prepend_isOk]
    exact (hf ()).ends _

theorem settledA_setU32_bind (sig : InSig) (v : Nat) {f : Unit → Harness σ β}
    (hf : ∀ a, SettledA (f a)) : SettledA (setSigU32 sig v >>= f) :=
  settledA_set_bind sig _ hf

theorem settledW_loopFrom {body : Nat → α → Harness σ α}
    (h : ∀ i a, SettledW (body i a)) (n i : Nat) (a : α) : SettledW (loopFrom body n i a) := by
  induction n generalizing i a with
  | zero => exact settledW_pure a
  | succ n ih => exact settledW_bind (h i a) (fun b => ih (i + 1) b)

theorem settledW_indexSequence {body : Nat → α → Harness σ α}
    (h : ∀ i a, SettledW (body i a)) (n : Nat) (a : α) : SettledW (indexSequence n body a) :=
  settledW_loopFrom h n 0 a

theorem settledA_cycleClock (D : Dut σ) : SettledA (cycleClock D) :=
  ⟨fun _ => rfl, fun _ _ => rfl⟩

theorem settledW_cycleClock (D : Dut σ) : SettledW (cycleClock D) :=
  settledW_of_A (settledA_cycleClock D)

theorem settledA_dutStep (D : Dut σ) : SettledA (dutStep D) :=
  ⟨fun _ => rfl, fun _ _ => rfl⟩

theorem settledW_writeVCD : SettledW (writeVCD : Harness σ Unit) :=
  ⟨fun _ => rfl, fun _ _ => rfl⟩

theorem settledW_getSig (D : Dut σ) (sig : OutSig) : SettledW (getSig D sig) :=
  ⟨fun _ => rfl, fun _ _ => rfl⟩

theorem settledW_getSigU32 (D : Dut σ) (sig : OutSig) : SettledW (getSigU32 D sig) :=
  ⟨fun _ => rfl, fun _ _ => rfl⟩

theorem settledW_throwIf (c : Bool) : SettledW (throwIf c : Harness σ Unit) := by
  cases c
  · exact settledW_pure ()
  · exact ⟨fun _ => rfl, fun _ hb => Bool.noConfusion hb⟩

theorem settledW_cxxrtlAssert (D : Dut σ) (sig : OutSig) (v : Bool) :
    SettledW (cxxrtlAssert D sig v) :=
  settledW_bind (settledW_getSig D sig) (fun _ => settledW_throwIf _)

theorem settledW_cxxrtlAssertU32 (D : Dut σ) (sig : OutSig) (v : Nat) :
    SettledW (cxxrtlAssertU32 D sig v) :=
  settledW_bind (settledW_getSigU32 D sig) (fun _ => settledW_throwIf _)

theorem settled_tickEvents (st : Bool) (n t : Nat) :
    settledReads st (tickEvents n t) = true ∧
      (0 < n → settledAfter st (tickEvents n t) = true) := by
  induction n generalizing st t with
  | zero => exact ⟨rfl, fun h => absurd h (Nat.lt_irrefl 0)⟩
  | succ n ih =>
    rw [tickEvents, settledReads_append, settledAfter_append]
    have h1 : settledReads st (cycleEvents t) = true := rfl
    have h2 : settledAfter st (cycleEvents t) = true := rfl
    rw [h1, h2]
    refine ⟨by rw [(ih true _).1]; rfl, fun _ => ?_⟩
    cases n with
    | zero => rfl
    | succ m => exact (ih true _).2 (Nat.succ_pos m)

theorem settledA_waitBitTime (D : Dut σ) : SettledA (waitBitTime D) := by
  have hb : 0 < bitTime := by
    rw [bitTime_eq]
    decide
  constructor
  · intro s
    rw [waitBitTime_run]
    exact (settled_tickEvents false _ _).1
  · intro s _
    rw [waitBitTime_run]
    exact (settled_tickEvents false _ _).2 hb

theorem settledW_waitBitTime (D : Dut σ) : SettledW (waitBitTime D) :=
  settledW_of_A (settledA_waitBitTime D)


theorem settledW_sendCommand (D : Dut σ) (c : Nat) : SettledW (sendCommand D c) := by
  unfold sendCommand
  repeat' first
    | with_reducible exact settledW_waitBitTime D
    | with_reducible exact settledA_waitBitTime D
    | (with_reducible apply settledW_of_A; with_reducible apply settledA_set_bind)
    | (with_reducible apply settledW_of_A; with_reducible apply settledA_setU32_bind)
    | with_reducible apply settledA_set_bind
    | with_reducible apply settledA_setU32_bind
    | with_reducible apply settledA_bind
    | with_reducible apply settledW_bind
    | with_reducible apply settledW_indexSequence
    | intro _

theorem settledW_recvResponse (D : Dut σ) : SettledW (recvResponse D) := by
  unfold recvResponse
  repeat' first
    | with_reducible exact settledW_waitBitTime D
    | with_reducible exact settledW_cycleClock D
    | with_reducible exact settledW_getSigU32 D _
    | with_reducible exact settledW_cxxrtlAssert D _ _
    | with_reducible exact settledW_cxxrtlAssertU32 D _ _
    | with_reducible exact settledW_pure _
    | with_reducible apply settledW_bind
    | with_reducible apply settledW_indexSequence
    | intro _

theorem settledW_readSPI (D : Dut σ) : SettledW (readSPI D) := by
  unfold readSPI
  repeat' first
    | with_reducible exact settledW_cycleClock D
    | with_reducible exact settledW_getSigU32 D _
    | with_reducible exact settledW_cxxrtlAssert D _ _
    | with_reducible exact settledW_pure _
    | with_reducible apply settledW_bind
    | with_reducible apply settledW_indexSequence
    | intro _

theorem settledW_writeSPI (D : Dut σ) (data : Nat) : SettledW (writeSPI D data) := by
  unfold writeSPI
  repeat' first
    | with_reducible exact settledW_cycleClock D
    | with_reducible exact settledA_cycleClock D
    | with_reducible exact settledW_cxxrtlAssert D _ _
    | (with_reducible apply settledW_of_A; with_reducible apply settledA_setU32_bind)
    | with_reducible apply settledA_bind
    | with_reducible apply settledW_bind
    | with_reducible apply settledW_indexSequence
    | intro _

theorem settledW_writeAddress (D : Dut σ) (addr : Nat) : SettledW (writeAddress D addr) := by
  unfold writeAddress
  repeat' first
    | with_reducible exact settledW_cycleClock D
    | with_reducible exact settledW_throwIf _
    | with_reducible exact settledW_readSPI D
    | with_reducible exact settledW_writeSPI D _
    | with_reducible exact settledW_cxxrtlAssert D _ _
    | with_reducible exact settledW_pure _
    | with_reducible apply settledW_bind
    | intro _

theorem settledA_mainBody (D : Dut σ) : SettledA (mainBody D) := by
  unfold mainBody
  repeat' first
    | with_reducible exact settledW_cycleClock D
    | with_reducible exact settledA_cycleClock D
    | with_reducible exact settledA_dutStep D
    | with_reducible exact settledW_writeVCD
    | with_reducible exact settledW_throwIf _
    | with_reducible exact settledW_waitBitTime D
    | with_reducible exact settledW_sendCommand D _
    | with_reducible exact settledW_recvResponse D
    | with_reducible exact settledW_writeAddress D _
    | with_reducible exact settledW_pure _
    | (with_reducible apply settledW_of_A; with_reducible apply settledA_set_bind)
    | with_reducible apply settledA_set_bind
    | with_reducible apply settledA_bind
    | with_reducible apply settledW_bind
    | with_reducible apply settledW_indexSequence
    | intro _

theorem settledAfter_split (l : List Event) :
    ∀ st, settledAfter st l = true →
      (st = true ∧ ∀ g w, Event.set g w ∉ l) ∨
      ∃ p1 p2, l = p1 ++ Event.step :: p2 ∧ ∀ g w, Event.set g w ∉ p2 := by
  induction l with
  | nil =>
    intro st h
    exact Or.inl ⟨h, fun _ _ hm => nomatch hm⟩
  | cons e l ih =>
    intro st h
    have keep : ∀ st2, settledAfter st2 l = true → (∀ g w, e ≠ Event.set g w) → st2 = st →
        (st = true ∧ ∀ g w, Event.set g w ∉ e :: l) ∨
        ∃ p1 p2, e :: l = p1 ++ Event.step :: p2 ∧ ∀ g w, Event.set g w ∉ p2 := by
      intro st2 h2 hne hst
      rcases ih st2 h2 with ⟨h3, h4⟩ | ⟨p1, p2, h3, h4⟩
      · refine Or.inl ⟨hst ▸ h3, fun g w hm => ?_⟩
        rcases List.mem_cons.1 hm with h5 | h5
        · exact hne g w h5.symm
        · exact h4 g w h5
      · exact Or.inr ⟨e :: p1, p2, by rw [h3]; rfl, h4⟩
    cases e with
    | set g v =>
      rcases ih false h with ⟨h3, _⟩ | ⟨p1, p2, h3, h4⟩
      · exact Bool.noConfusion h3
      · exact Or.inr ⟨Event.set g v :: p1, p2, by rw [h3]; rfl, h4⟩
    | step =>
      rcases ih true h with ⟨_, h4⟩ | ⟨p1, p2, h3, h4⟩
      · exact Or.inr ⟨[], l, rfl, h4⟩
      · exact Or.inr ⟨Event.step :: p1, p2, by rw [h3]; rfl, h4⟩
    | get g v => exact keep st h (fun _ _ hc => Event.noConfusion hc) rfl
    | sample t => exact keep st h (fun _ _ hc => Event.noConfusion hc) rfl
    | flush => exact keep st h (fun _ _ hc => Event.noConfusion hc) rfl
    | raise => exact keep st h (fun _ _ hc => Event.noConfusion hc) rfl

theorem settledReads_at_get (st : Bool) (pre post : List Event) (sig : OutSig) (v : Bool)
    (h : settledReads st (pre ++ Event.get sig v :: post) = true) :
    settledAfter st pre = true := by
  rw [settledReads_append] at h
  have h2 := (Bool.and_eq_true_iff.1 h).2
  have h3 : (settledAfter st pre && settledReads (settledAfter st pre) post) = true := h2
  exact (Bool.and_eq_true_iff.1 h3).1

/-- C15: in every run of `main`, on every model, each read of a model output
(every check and every sampled bit is a `get` event of the log) comes after a
`step()` of the model with no write to a model input in between: the log
before the read splits as `p1 ++ step :: p2` with no `set` event in `p2`. -/
theorem main_reads_only_settled_outputs (D : Dut σ) (pre post : List Event)
    (sig : OutSig) (v : Bool) :
    (main D).events = pre ++ Event.get sig v :: post →
      ∃ p1 p2, pre = p1 ++ Event.step :: p2 ∧ ∀ g w, Event.set g w ∉ p2 := by
  intro h
  have h1 : settledReads false (main D).events = true := (settledA_mainBody D).safe _
  rw [h] at h1
  rcases settledAfter_split pre false (settledReads_at_get false pre post sig v h1) with
    ⟨h3, _⟩ | h3
  · exact Bool.noConfusion h3
  · exact h3


theorem main_reads_only_settled_outputs_witness :
    (main idleDut).events
        = ([Event.set .clk true, Event.set .rst true, Event.step] ++ cycleEvents 0
            ++ [Event.set .rst false, Event.set .daliRX true] ++ cycleEvents 1000
            ++ cycleEvents 2000) ++ Event.get .framCS false :: [Event.raise] ∧
      ∃ p1 p2,
        [Event.set .clk true, Event.set .rst true, Event.step] ++ cycleEvents 0
            ++ [Event.set .rst false, Event.set .daliRX true] ++ cycleEvents 1000
            ++ cycleEvents 2000 = p1 ++ Event.step :: p2 ∧
          ∀ g w, Event.set g w ∉ p2 :=
  ⟨by decide!,
    main_reads_only_settled_outputs idleDut _ [Event.raise] .framCS false (by decide!)⟩


/-! ## The scenario completes on `replyDut` -/

theorem reply_ticks (n : Nat) (s : Sim Nat) : (ticks replyDut n s).dut = s.dut + 2 * n := by
  induction n generalizing s with
  | zero => rfl
  | succ n ih =>
    have e : (tick replyDut s).dut = s.dut + 2 := rfl
    rw [ticks_succ, ih, e]
    omega

/-- The count relation is closed under sequencing. -/
def countInv : Inv Nat where
  rel := countRel
  nil := fun _ => rfl
  append := by
    intro s l1 s1 l2 b s2 h1 h2
    unfold countRel at *
    rw [h2, h1, cycles_append]
    omega

theorem write_dut (s : Sim σ) (sig : InSig) (v : Bool) : (s.write sig v).dut = s.dut := by
  cases sig <;> rfl

theorem countInv_base :
    countInv.Base replyDut (fun sig => sig ≠ InSig.clk) (fun _ => True) where
  cycle := ⟨fun s => by
    rw [cycleClock_run]
    show (tick replyDut s).dut = s.dut + 2 * cycles (cycleEvents s.timestamp)
    rw [cycles_cycleEvents]
    rfl⟩
  set := fun sig v h => ⟨fun s => by
    have e : cycles [Event.set sig v] = 0 :=
      cycles_singleton _ (fun hc => h (Event.set.inj hc).1)
    show (s.write sig v).dut = s.dut + 2 * cycles [Event.set sig v]
    rw [e, write_dut]
    rfl⟩
  get := fun sig _ => ⟨fun s => by
    have e : cycles [Event.get sig (replyDut.read sig s.dut)] = 0 :=
      cycles_singleton _ (fun hc => Event.noConfusion hc)
    show s.dut = s.dut + 2 * cycles [Event.get sig (replyDut.read sig s.dut)]
    rw [e]
    rfl⟩
  getU32 := fun sig _ => ⟨fun s => by
    have e : cycles [Event.get sig (replyDut.read sig s.dut)] = 0 :=
      cycles_singleton _ (fun hc => Event.noConfusion hc)
    show s.dut = s.dut + 2 * cycles [Event.get sig (replyDut.read sig s.dut)]
    rw [e]
    rfl⟩
  raise := fun _ => ⟨fun s => by
    have e : cycles [Event.raise] = 0 := cycles_singleton _ (fun hc => Event.noConfusion hc)
    show s.dut = s.dut + 2 * cycles [Event.raise]
    rw [e]
    rfl⟩

theorem count_final {x : Harness Nat α} {n : Nat} (hS : Sat countInv x) (hC : Costs n x)
    (s : Sim Nat) (h : (x s).isOk = true) : (x s).final.dut = s.dut + 2 * n := by
  have h1 : (x s).final.dut = s.dut + 2 * cycles (x s).events := hS.run s
  rw [h1, hC.eq s h]

theorem advances_runAll (acts : List (Harness Nat Unit)) :
    ∀ g : Nat → Nat,
      (∀ k, k < acts.length → Advances (acts.getD k (pure ())) (g k) (g (k + 1))) →
        Advances (runAll acts) (g 0) (g acts.length) := by
  induction acts with
  | nil =>
    intro g _ s hs
    exact ⟨rfl, hs⟩
  | cons x xs ih =>
    intro g h s hs
    have hx := h 0 (Nat.succ_pos _) s hs
    have hx1 : (x s).isOk = true := hx.1
    have hx2 : (x s).final.dut = g 1 := hx.2
    have hr := ih (fun k => g (k + 1))
      (fun k hk => by
        have := h (k + 1) (Nat.succ_lt_succ hk)
        rw [List.getD_cons_succ] at this
        exact this)
      (x s).final hx2
    rw [runAll]
    exact ⟨(isOk_bind_unit x _ s).2 ⟨hx1, hr.1⟩, by rw [final_bind_unit x _ s hx1]; exact hr.2⟩

theorem reply_clk (n a r : Nat) (hn : n = 5 + 150 * a + 2 * r) (hr : r < 75) :
    replyClk n = decide (r % 2 = 1) := by
  have e : ((n - 1) / 2 - 2) % 75 = r := by omega
  unfold replyClk
  rw [e]

theorem reply_cs (n a r : Nat) (hn : n = 5 + 150 * a + 2 * r) (hr : r < 75) :
    replyCS n = decide (0 < r ∧ r < 74) := by
  have e : ((n - 1) / 2 - 2) % 75 = r := by omega
  unfold replyCS
  rw [e]

theorem reply_copi (n a b k : Nat) (hn : n = 5 + 150 * a + 2 * (5 + 18 * b + 2 * k))
    (hb : b < 3) (hk : k < 8) : replyCOPI n = spiBit (provisionByte a b) k := by
  have e1 : ((n - 1) / 2 - 2) / 75 = a := by omega
  have e2 : (((n - 1) / 2 - 2) % 75 - 5) / 2 / 9 = b := by omega
  have e3 : (((n - 1) / 2 - 2) % 75 - 5) / 2 % 9 = k := by omega
  unfold replyCOPI
  rw [e1, e2, e3]

theorem reply_tx (n j h : Nat) (hn : n = 4587 + 49926 * j + 31616 + 2 * (3 + h * 416))
    (hh : h ≤ 18) : replyTX n = answerLevel (script.getD j (0, 0)).2 h := by
  have e1 : ((n - 1) / 2 - 2293) / 24963 = j := by omega
  have e2 : (((n - 1) / 2 - 2293) % 24963 - 15811) / 416 = h := by omega
  unfold replyTX
  rw [e1, e2]

theorem provisionByte_lt (a b : Nat) : provisionByte a b < 256 := by
  unfold provisionByte
  have h1 : (a >>> 8) % 2 ^ 8 < 256 := Nat.mod_lt _ (by decide)
  have h2 : (a &&& 0xFF) % 2 ^ 8 < 256 := Nat.mod_lt _ (by decide)
  match b with
  | 0 => exact (by decide : 3 < 256)
  | 1 => exact h1
  | 2 => exact h2
  | _ + 3 => exact (by decide : 0 < 256)


theorem reply_readSPI (s : Sim Nat) (a b : Nat) (hb : b < 3)
    (hs : s.dut = 5 + 150 * a + 2 * (3 + 18 * b)) :
    ∃ s' l, readSPI replyDut s = .ok (provisionByte a b) s' l := by
  have hclk : ∀ k, k < 8 →
      clkAt replyDut s (2 * k + 1) = false ∧ clkAt replyDut s (2 * k + 2) = true := by
    intro k hk
    unfold clkAt
    rw [reply_ticks, reply_ticks, hs]
    show replyClk _ = false ∧ replyClk _ = true
    rw [reply_clk _ a (3 + 18 * b + (2 * k + 1)) (by omega) (by omega),
      reply_clk _ a (3 + 18 * b + (2 * k + 2)) (by omega) (by omega)]
    exact ⟨decide_eq_false (by omega), decide_eq_true (by omega)⟩
  have hv : decodeFrom (copiAt replyDut s) 8 2 0 = provisionByte a b :=
    decode_spiBits _ _ (provisionByte_lt a b) (fun k hk => by
      unfold copiAt
      rw [reply_ticks, hs]
      exact reply_copi _ a b k (by omega) hb hk)
  have e : provisionByte a b % 2 ^ 8 = provisionByte a b :=
    Nat.mod_eq_of_lt (provisionByte_lt a b)
  rw [readSPI_pass replyDut s hclk, hv, e]
  exact ⟨_, _, rfl⟩

theorem reply_writeBit (d k : Nat) (s : Sim Nat) (h1 : replyClk (s.dut + 2) = false)
    (h2 : replyClk (s.dut + 4) = true) :
    ∃ s1 l1, writeSPIBody replyDut d k s = .ok () s1 l1 ∧ s1.dut = s.dut + 4 := by
  have c1 : replyDut.read .framClk (tick replyDut s).dut = false := h1
  have c2 : replyDut.read .framClk
      (tick replyDut ((tick replyDut s).write .framCIPO (spiBit d k))).dut = true := h2
  unfold writeSPIBody
  simp only [bind_run, cycleClock_run, andThen_ok, setSigU32_spiBit]
  rw [cxxrtlAssert_pass replyDut _ _ _ c1]
  simp only [andThen_ok, setSig, cycleClock_run, prepend_ok, prepend_prepend, bind_run]
  rw [cxxrtlAssert_pass replyDut _ _ _ c2]
  exact ⟨_, _, rfl, rfl⟩

theorem reply_writeBits (d a n : Nat) :
    ∀ (i : Nat) (s : Sim Nat), s.dut = 5 + 150 * a + 2 * (57 + 2 * i) → i + n ≤ 8 →
      (loopFrom (fun bit _ => writeSPIBody replyDut d bit) n i () s).isOk = true := by
  induction n with
  | zero =>
    intro i s _ _
    rfl
  | succ n ih =>
    intro i s hs hi
    obtain ⟨s1, l1, hb, hd⟩ := reply_writeBit d i s
      (by rw [hs, reply_clk _ a (57 + 2 * i + 1) (by omega) (by omega)]
          exact decide_eq_false (by omega))
      (by rw [hs, reply_clk _ a (57 + 2 * i + 2) (by omega) (by omega)]
          exact decide_eq_true (by omega))
    rw [loopFrom, isOk_bind]
    exact ⟨(), s1, l1, hb, ih (i + 1) s1 (by rw [hd, hs]; omega) (by omega)⟩

theorem countSat_writeAddress (a : Nat) : Sat countInv (writeAddress replyDut a) :=
  sat_writeAddress countInv_base trivial trivial trivial (by decide) a

theorem advances_writeAddress (a : Nat) :
    Advances (writeAddress replyDut a) (5 + 150 * a) (5 + 150 * (a + 1)) := by
  intro s hs
  have hok : (writeAddress replyDut a s).isOk = true := by
    rw [writeAddress_isOk]
    refine ⟨?_, ?_, ?_, ?_, ?_⟩
    · rw [reply_ticks, hs]
      show replyCS _ = true
      rw [reply_cs _ a 1 (by omega) (by omega)]
      rfl
    · exact reply_readSPI _ a 0 (by decide) (by rw [reply_ticks, hs])
    · exact reply_readSPI _ a 1 (by decide) (by rw [reply_ticks, hs])
    · exact reply_readSPI _ a 2 (by decide) (by rw [reply_ticks, hs])
    · have hw : (writeSPI replyDut ((a + 5) % 2 ^ 32 % 2 ^ 8) (ticks replyDut 57 s)).isOk
          = true := by
        rw [writeSPI_eq_loop]
        exact reply_writeBits _ a 8 0 _ (by rw [reply_ticks, hs]) (by decide)
      have hc := count_final
        (sat_writeSPI countInv_base trivial (by decide) ((a + 5) % 2 ^ 32 % 2 ^ 8))
        (costs_writeSPI replyDut ((a + 5) % 2 ^ 32 % 2 ^ 8)) (ticks replyDut 57 s) hw
      rw [reply_ticks, hs] at hc
      cases hr : writeSPI replyDut ((a + 5) % 2 ^ 32 % 2 ^ 8) (ticks replyDut 57 s) with
      | ok u sw lw =>
        rw [hr] at hc
        have hc' : sw.dut = 5 + 150 * a + 2 * 57 + 2 * 16 := hc
        refine ⟨sw, lw, rfl, ?_⟩
        rw [reply_ticks, hc']
        show replyCS _ = false
        rw [reply_cs _ a 74 (by omega) (by omega)]
        rfl
      | fault sw lw =>
        rw [hr] at hw
        exact Bool.noConfusion hw
  refine ⟨hok, ?_⟩
  rw [count_final (countSat_writeAddress a) (costs_writeAddress replyDut a) s hok, hs]
  omega


theorem answerLevel_bit (e k : Nat) (hk : k < 8) :
    answerLevel e (2 + 2 * k) = spiBit e k ∧ answerLevel e (3 + 2 * k) = !spiBit e k := by
  have h1 : (2 + 2 * k - 2) / 2 = k := by omega
  have h2 : (3 + 2 * k - 2) / 2 = k := by omega
  have h3 : ¬(2 + 2 * k = 0) := by omega
  have h4 : ¬(2 + 2 * k = 1 ∨ 18 ≤ 2 + 2 * k) := by omega
  have h5 : ¬(3 + 2 * k = 0) := by omega
  have h6 : ¬(3 + 2 * k = 1 ∨ 18 ≤ 3 + 2 * k) := by omega
  have h7 : decide ((2 + 2 * k) % 2 = 1) = false := decide_eq_false (by omega)
  have h8 : decide ((3 + 2 * k) % 2 = 1) = true := decide_eq_true (by omega)
  unfold answerLevel
  rw [if_neg h3, if_neg h4, if_neg h5, if_neg h6, h1, h2, h7, h8]
  cases spiBit e k <;> exact ⟨rfl, rfl⟩

theorem script_byte_lt (j : Nat) : (script.getD j (0, 0)).2 < 256 := by
  by_cases hj : j < 24
  · interval_cases j <;> decide
  · have hl : script.length ≤ j := by
      have : script.length = 24 := by decide
      omega
    rw [List.getD_eq_default _ _ hl]
    decide

theorem reply_txAt (s : Sim Nat) (j h : Nat) (hs : s.dut = 4587 + 49926 * j + 31616)
    (hh : h ≤ 18) : txAt replyDut s h = answerLevel (script.getD j (0, 0)).2 h := by
  unfold txAt
  rw [reply_ticks, hs, bitTime_eq]
  exact reply_tx _ j h rfl hh

theorem reply_recvResponse (s : Sim Nat) (j : Nat) (hs : s.dut = 4587 + 49926 * j + 31616) :
    ∃ s' l, recvResponse replyDut s = .ok (script.getD j (0, 0)).2 s' l := by
  have hg : RecvGood replyDut s := by
    refine ⟨?_, ?_, ?_, ?_⟩
    · rw [reply_txAt s j 0 hs (by decide)]
      rfl
    · rw [reply_txAt s j 1 hs (by decide)]
      rfl
    · intro k hk
      rw [reply_txAt s j (3 + 2 * k) hs (by omega), reply_txAt s j (2 + 2 * k) hs (by omega),
        (answerLevel_bit _ k hk).1, (answerLevel_bit _ k hk).2]
    · rw [reply_txAt s j 18 hs (by decide)]
      rfl
  have hv : decodeFrom (txAt replyDut s) 8 2 0 = (script.getD j (0, 0)).2 :=
    decode_spiBits _ _ (script_byte_lt j) (fun k hk => by
      rw [reply_txAt s j (2 + 2 * k) hs (by omega)]
      exact (answerLevel_bit _ k hk).1)
  have e : (script.getD j (0, 0)).2 % 2 ^ 8 = (script.getD j (0, 0)).2 :=
    Nat.mod_eq_of_lt (script_byte_lt j)
  obtain ⟨l, hl, _⟩ := recvResponse_pass replyDut s hg
  rw [hv, e] at hl
  exact ⟨_, l, hl⟩

theorem costs_transact (D : Dut σ) (p : Nat × Nat) : Costs 24963 (transact D p) := by
  unfold transact
  apply Costs.cast
  case h =>
    repeat' first
      | with_reducible exact costs_sendCommand D _
      | with_reducible exact costs_recvResponse D
      | with_reducible exact costs_throwIf _
      | with_reducible apply costs_bind
      | intro _
  case e => rfl

theorem countSat_transact (p : Nat × Nat) : Sat countInv (transact replyDut p) := by
  unfold transact
  repeat' first
    | with_reducible exact sat_sendCommand countInv_base (by decide) _
    | with_reducible exact sat_recvResponse countInv_base trivial
    | with_reducible exact sat_throwIf countInv_base _
    | with_reducible apply sat_bind
    | intro _

theorem advances_transact (j : Nat) :
    Advances (transact replyDut (script.getD j (0, 0))) (4587 + 49926 * j)
      (4587 + 49926 * (j + 1)) := by
  intro s hs
  have hsend : (sendCommand replyDut (script.getD j (0, 0)).1 s).isOk = true := by
    rw [sendCommand_run]
    rfl
  have hd := count_final (sat_sendCommand countInv_base (by decide) (script.getD j (0, 0)).1)
    (costs_sendCommand replyDut _) s hsend
  have hok : (transact replyDut (script.getD j (0, 0)) s).isOk = true := by
    rw [transact_isOk]
    exact reply_recvResponse _ j (by rw [hd, hs])
  refine ⟨hok, ?_⟩
  rw [count_final (countSat_transact _) (costs_transact replyDut _) s hok, hs]
  omega

theorem replyDut_completes : (main replyDut).isOk = true := by
  show (mainBody replyDut (mainStart replyDut)).isOk = true
  rw [mainBody_eq_scenario, scenario_isOk]
  have hlA : ((List.range 25).map (writeAddress replyDut)).length = 25 := by simp
  have hlT : (script.map (transact replyDut)).length = 24 := by
    rw [List.length_map]
    decide
  have h0 : (afterReset replyDut).dut = 5 := rfl
  have hA := advances_runAll ((List.range 25).map (writeAddress replyDut))
    (fun a => 5 + 150 * a)
    (fun k hk => by
      rw [provision_getD replyDut k (by rw [hlA] at hk; exact hk)]
      exact advances_writeAddress k)
    (afterReset replyDut) h0
  have hP : (afterProvisioning replyDut).dut = 4587 := by
    unfold afterProvisioning
    rw [waitBitTime_run]
    show (ticks replyDut bitTime _).dut = 4587
    rw [reply_ticks, hA.2, hlA, bitTime_eq]
  have hT := advances_runAll (script.map (transact replyDut))
    (fun j => 4587 + 49926 * j)
    (fun k hk => by
      rw [script_getD replyDut k (by rw [hlT] at hk; exact hk)]
      exact advances_transact k)
    (afterProvisioning replyDut) hP
  exact ⟨hA.1, hT.1⟩


/-! ## C14: cycle counts -/

/-- C14: for every model and every argument: `sendCommand` completes and makes
exactly `38 * 416 = 15808` `cycleClock` calls; a completing `recvResponse`
makes exactly `3 + 22 * 416 = 9155`, a completing `readSPI` or `writeSPI`
exactly 16, a completing `writeAddress` exactly 75, and none of them ever more;
a completing run of `main` makes exactly
`2 + 25 * 75 + 416 + 24 * (15808 + 9155) + 416 = 601821` and ends with timestamp
601821000; a run of `main` that throws makes strictly fewer.  Both cases occur:
on the model `replyDut` the scenario completes, on `idleDut` it throws after 3
calls. -/
theorem operations_take_fixed_numbers_of_cycles (D : Dut σ) :
    (∀ c s, (sendCommand D c s).isOk = true ∧ cycles (sendCommand D c s).events = 15808) ∧
    (∀ s, cycles (recvResponse D s).events ≤ 9155 ∧
      ((recvResponse D s).isOk = true → cycles (recvResponse D s).events = 9155)) ∧
    (∀ s, cycles (readSPI D s).events ≤ 16 ∧
      ((readSPI D s).isOk = true → cycles (readSPI D s).events = 16)) ∧
    (∀ d s, cycles (writeSPI D d s).events ≤ 16 ∧
      ((writeSPI D d s).isOk = true → cycles (writeSPI D d s).events = 16)) ∧
    (∀ a s, cycles (writeAddress D a s).events ≤ 75 ∧
      ((writeAddress D a s).isOk = true → cycles (writeAddress D a s).events = 75)) ∧
    ((main D).isOk = true →
      cycles (main D).events = 601821 ∧ (main D).final.timestamp = 601821000) ∧
    ((main D).isOk = false → cycles (main D).events < 601821) ∧
    cycles (main D).events ≤ 601821 ∧
    ((main replyDut).isOk = true ∧ cycles (main replyDut).events = 601821 ∧
      (main replyDut).final.timestamp = 601821000) ∧
    ((main idleDut).isOk = false ∧ cycles (main idleDut).events = 3) ∧
    15808 = 38 * (clkFrequency / bitRate) ∧ 9155 = 3 + 22 * (clkFrequency / bitRate) ∧
    601821 = 2 + 25 * 75 + clkFrequency / bitRate + 24 * (15808 + 9155)
      + clkFrequency / bitRate := by
  have hr : cycles (main replyDut).events = 601821 :=
    (costs_mainBody replyDut).eq (mainStart replyDut) replyDut_completes
  refine ⟨?_, ?_, ?_, ?_, ?_, ?_, ?_, main_cycles_le D,
    ⟨replyDut_completes, hr, by rw [main_timestamp, hr]⟩, ⟨by decide!, by decide!⟩,
    by decide, by decide, by decide⟩
  · intro c s
    have hok : (sendCommand D c s).isOk = true := by
      rw [sendCommand_run]
      rfl
    exact ⟨hok, (costs_sendCommand D c).eq s hok⟩
  · exact fun s => ⟨(costs_recvResponse D).le s, (costs_recvResponse D).eq s⟩
  · exact fun s => ⟨(costs_readSPI D).le s, (costs_readSPI D).eq s⟩
  · exact fun d s => ⟨(costs_writeSPI D d).le s, (costs_writeSPI D d).eq s⟩
  · exact fun a s => ⟨(costs_writeAddress D a).le s, (costs_writeAddress D a).eq s⟩
  · intro hok
    have hc : cycles (main D).events = 601821 := (costs_mainBody D).eq (mainStart D) hok
    refine ⟨hc, ?_⟩
    rw [main_timestamp, hc]
  · intro hf
    exact (strict_mainBody D).strict (mainStart D) hf

/-! ## A failed check ends the run -/

end ReadStartup
